import Mathlib

/-!
Streaming swap of two files (repository TestTask)

Shallow embedding of

* `pkg/file_reader/file_reader.go` (`FileReader`: `NewFileReader`, `ReadBytes`, `SetOffset`,
  `Truncate`),
* `cmd/main.go` (`GetFileNamesWithMinMaxNameNum`, `ByteRecordingToFileBuffered`,
  `ByteRecordingToFile`, `SwapTwoFiles`).

Sequential code is embedded as functions. The goroutines of `SwapTwoFiles` are embedded as an
interleaving transition system: every thread has a program counter naming the next
synchronisation or I/O action it performs (channel operation, `select` on `errCh`, `WaitGroup`
operation, file system call); the thread-local statements between two such actions are executed
together with the action that precedes them. A schedule is a list of thread identifiers.

Conventions.
* `int64` sizes and offsets are `Nat`: they start at `0` resp. at a file length and only grow by
  byte counts below the length of a file, so no wrap-around is modelled.
* An open `*os.File` is identified with the path it was opened with.
* Operating system faults are supplied by an explicit plan (`Faults`).
-/

namespace TestTask

/-! ## Go data -/

/-- A Go `byte`. -/
abbrev Byte := Fin 256

/-- A Go `string` or `[]byte`: a finite sequence of bytes. -/
abbrev GoString := List Byte

/-- The byte string of an ASCII literal. -/
def ascii (s : String) : GoString :=
  s.data.map (fun c => Fin.ofNat c.toNat)

/-- Go `error` values occurring in the program. -/
inductive GoError where
  /-- `ErrNoFiles` of package main. -/
  | ErrNoFiles
  /-- `ErrNotEnoughFiles` of package main. -/
  | ErrNotEnoughFiles
  /-- `ErrInvalidBlockSize` of package file_reader. -/
  | ErrInvalidBlockSize
  /-- `ErrInvalidFileName` of package file_reader. -/
  | ErrInvalidFileName
  /-- `io.EOF`. -/
  | EOF
  /-- An error reported by the operating system (open, stat, read, write, truncate). -/
  | os (code : Nat)
  deriving DecidableEq, Repr

/-- Go comparison `a < b` of strings: bytewise lexicographic. -/
def strLt : GoString → GoString → Bool
  | [], [] => false
  | [], _ :: _ => true
  | _ :: _, [] => false
  | a :: as, b :: bs => if a < b then true else if b < a then false else strLt as bs

/-- Go `s[0] == b` for a string known to be non-empty. -/
def headIs (s : GoString) (b : Byte) : Bool :=
  s.head? = some b

/-! ## File system -/

/-- The regular files of the file system, by path. -/
abbrev FS := GoString → Option (List Byte)

/-- Content of the file at a path (empty when there is none). -/
def FS.content (fs : FS) (p : GoString) : List Byte :=
  (fs p).getD []

/-- Replace the content of the file at a path. -/
def FS.store (fs : FS) (p : GoString) (c : List Byte) : FS :=
  fun q => if q = p then some c else fs q

/-- Result of `(*os.File).ReadAt(buf, off)` on a regular file with the given content:
number of bytes read, the buffer afterwards, and `io.EOF` exactly when fewer than `len(buf)`
bytes were available. -/
def readAt (content buf : List Byte) (off : Nat) : Nat × List Byte × Option GoError :=
  let got := (content.drop off).take buf.length
  (got.length, got ++ buf.drop got.length,
    if got.length < buf.length then some GoError.EOF else none)

/-- Content after a successful `(*os.File).WriteAt(data, off)`; a gap past the old end is
filled with zero bytes. -/
def writeAt (content data : List Byte) (off : Nat) : List Byte :=
  content.take off ++ List.replicate (off - content.length) 0 ++ data
    ++ content.drop (off + data.length)

/-- Content after a successful truncation to length `n` (extension pads with zero bytes). -/
def truncateTo (content : List Byte) (n : Nat) : List Byte :=
  content.take n ++ List.replicate (n - content.length) 0

/-- Plan of operating-system faults. `reads` and `writes` give, per file, the outcomes of
its successive `ReadAt` resp. `WriteAt` calls (`none` or an exhausted list: the call succeeds;
a failing read reports a byte count and an error other than `io.EOF`); the other components
say which paths fail to open, to stat and to truncate. -/
structure Faults where
  opens : GoString → Option GoError
  stats : GoString → Option GoError
  reads : GoString → List (Option (Nat × GoError))
  writes : GoString → List (Option GoError)
  truncs : GoString → Option GoError

/-- The plan without any fault. -/
def noFaults : Faults where
  opens := fun _ => Option.none
  stats := fun _ => Option.none
  reads := fun _ => []
  writes := fun _ => []
  truncs := fun _ => Option.none

/-- Take the outcome of the next call on path `p` out of a plan. -/
def nextOutcome {α : Type} (plan : GoString → List (Option α)) (p : GoString) :
    Option α × (GoString → List (Option α)) :=
  match plan p with
  | [] => (Option.none, plan)
  | o :: rest => (o, fun q => if q = p then rest else plan q)

/-! ## `file_reader.FileReader` -/

/-- The struct `FileReader` (fields `file`/`name` are the path; `label` is unused). -/
structure FileReader where
  name : GoString
  size : Nat
  offset : Nat
  eof : Bool
  buf : List Byte
  deriving DecidableEq, Repr

/-- `os.OpenFile(fileName, os.O_RDWR, 0)`: fails when there is no such file or by plan. -/
def openFile (fs : FS) (ft : Faults) (fileName : GoString) : Option GoError :=
  match fs fileName with
  | Option.none => some (GoError.os 2)
  | some _ => ft.opens fileName

/-- `NewFileReader(fileName, readBlockSize)`. -/
def NewFileReader (fs : FS) (ft : Faults) (fileName : GoString) (readBlockSize : Int) :
    Except GoError FileReader :=
  if fileName.length = 0 then
    Except.error GoError.ErrInvalidFileName
  else if readBlockSize < 1 then
    Except.error GoError.ErrInvalidBlockSize
  else
    match openFile fs ft fileName with
    | some err => Except.error err
    | Option.none =>
      match ft.stats fileName with
      | some err => Except.error err
      | Option.none =>
        Except.ok
          { name := fileName
            size := (fs.content fileName).length
            offset := 0
            eof := false
            buf := List.replicate readBlockSize.toNat 0 }

/-- `(*FileReader).ReadBytes()`, given the result `(n, buffer afterwards, err)` of
`r.file.ReadAt(r.buf, r.offset)`. Returns the updated reader and `(n, slice, err)`, where the
slice is `nil` (`none`) on an error other than `io.EOF`. -/
def FileReader.ReadBytes (r : FileReader) (rd : Nat × List Byte × Option GoError) :
    FileReader × (Nat × Option (List Byte) × Option GoError) :=
  let n := rd.1
  let err := rd.2.2
  if err ≠ Option.none ∧ err ≠ some GoError.EOF then
    ({ r with buf := rd.2.1 }, (n, Option.none, err))
  else
    let eof1 := if err = some GoError.EOF ∧ n = 0 then true else r.eof
    let offset := r.offset + n
    let eof2 := if offset > r.size then true else eof1
    ({ r with buf := rd.2.1, offset := offset, eof := eof2 }, (n, some rd.2.1, err))

/-- Result of `r.file.ReadAt(r.buf, r.offset)` under the next planned outcome for the file. -/
def FileReader.sysRead (r : FileReader) (fs : FS) (fault : Option (Nat × GoError)) :
    Nat × List Byte × Option GoError :=
  match fault with
  | some (n, err) => (n, r.buf, some err)
  | Option.none => readAt (fs.content r.name) r.buf r.offset

/-- `(*FileReader).EOF()`. -/
def FileReader.EOF (r : FileReader) : Bool :=
  r.eof

/-- `(*FileReader).Size()`. -/
def FileReader.Size (r : FileReader) : Nat :=
  r.size

/-- `(*FileReader).SetOffset(newOffset)`. -/
def FileReader.SetOffset (r : FileReader) (newOffset : Int) : FileReader :=
  if newOffset ≥ 0 then { r with offset := newOffset.toNat } else r

/-- `(*FileReader).Truncate(newSize)`: the file system afterwards, the reader afterwards and the
error. A negative size is rejected by the operating system. -/
def FileReader.Truncate (r : FileReader) (fs : FS) (ft : Faults) (newSize : Int) :
    FS × FileReader × Option GoError :=
  if newSize < 0 then (fs, r, some (GoError.os 22))
  else
    match ft.truncs r.name with
    | some err => (fs, r, some err)
    | Option.none =>
      (fs.store r.name (truncateTo (fs.content r.name) newSize.toNat),
        { r with size := newSize.toNat }, Option.none)

/-- One call of `ReadBytes` as seen by its caller: the offset it read at, the returned count
and error, and the returned slice cut to the count (`batch[:n]`). -/
structure ReadCall where
  offset : Nat
  bytesRead : Nat
  err : Option GoError
  block : List Byte
  deriving DecidableEq, Repr

/-- The loop `for !r.EOF() { n, batch, err := r.ReadBytes(); ... batch[:n] ... }` on a file whose
content does not change, cut off after `fuel` calls: the calls made, in order, and the reader
afterwards. -/
def readLoop (content : List Byte) : Nat → FileReader → List ReadCall × FileReader
  | 0, r => ([], r)
  | fuel + 1, r =>
    if r.EOF then ([], r)
    else
      let res := r.ReadBytes (readAt content r.buf r.offset)
      let call : ReadCall :=
        { offset := r.offset
          bytesRead := res.2.1
          err := res.2.2.2
          block := (res.2.2.1.getD []).take res.2.1 }
      let rest := readLoop content fuel res.1
      (call :: rest.1, rest.2)

/-! ## `GetFileNamesWithMinMaxNameNum` -/

/-- An entry of `f.Readdir(-1)`: `Name()` and `IsDir()`. -/
structure FileInfo where
  name : GoString
  isDir : Bool
  deriving DecidableEq, Repr

/-- The class `[0-9]`. -/
def isDigit (b : Byte) : Bool :=
  decide (48 ≤ b.val ∧ b.val ≤ 57)

/-- A UTF-8 continuation byte. -/
def isCont (b : Byte) : Bool :=
  decide (128 ≤ b.val ∧ b.val ≤ 191)

/-- What the regular expression `.` consumes in front of the literal `log`: the bytes that
`utf8.DecodeRune` takes as one rune other than a newline, that is a well-formed UTF-8 sequence
or a single byte (a byte that starts no well-formed sequence is read as `U+FFFD` of width 1). -/
def isRuneNotNL (m : GoString) : Bool :=
  match m with
  | [a] => decide (a.val ≠ 10)
  | [a, b] => decide (194 ≤ a.val ∧ a.val ≤ 223) && isCont b
  | [a, b, c] =>
    (decide (a.val = 224) && decide (160 ≤ b.val ∧ b.val ≤ 191) && isCont c)
    || (decide ((225 ≤ a.val ∧ a.val ≤ 236) ∨ a.val = 238 ∨ a.val = 239) && isCont b && isCont c)
    || (decide (a.val = 237) && decide (128 ≤ b.val ∧ b.val ≤ 159) && isCont c)
  | [a, b, c, d] =>
    (decide (a.val = 240) && decide (144 ≤ b.val ∧ b.val ≤ 191) && isCont c && isCont d)
    || (decide (241 ≤ a.val ∧ a.val ≤ 243) && isCont b && isCont c && isCont d)
    || (decide (a.val = 244) && decide (128 ≤ b.val ∧ b.val ≤ 143) && isCont c && isCont d)
  | _ => false

/-- `regexp.MustCompile("^[0-9]+.log$").MatchString`: one or more digits, one rune other than a
newline (of `k` bytes, `1 ≤ k ≤ 4`), then `log`. -/
def matchDigitsAnyLog (body : GoString) : Bool :=
  [1, 2, 3, 4].any fun k =>
    let d := body.length - 3 - k
    decide (k + 4 ≤ body.length)
      && (body.take d).all isDigit
      && isRuneNotNL ((body.drop d).take k)
      && decide (body.drop (d + k) = ascii "log")

/-- `numsReg.MatchString(fileName)`: the expression is `^-?[0-9]+.log$` when negative names are
allowed and `^[0-9]+.log$` otherwise. -/
def numsRegMatch (allowNegativeNames : Bool) (fileName : GoString) : Bool :=
  if allowNegativeNames then
    match fileName with
    | 45 :: rest => matchDigitsAnyLog rest
    | _ => matchDigitsAnyLog fileName
  else matchDigitsAnyLog fileName

/-- Body of the loop `for _, file := range fileInfo` on the pair `(minName, maxName)`
(the counter `count` is never read and is left out). -/
def scanFile (allowNegativeNames : Bool) (st : GoString × GoString) (file : FileInfo) :
    GoString × GoString :=
  if file.isDir then st
  else
    let fileName := file.name
    if !numsRegMatch allowNegativeNames fileName then st
    else
      let minName := if st.1 = [] ∨ st.2 = [] then fileName else st.1
      let maxName := if st.1 = [] ∨ st.2 = [] then fileName else st.2
      if allowNegativeNames then
        let newMin :=
          if headIs fileName 45 && headIs minName 45 then
            if decide (fileName.length ≥ minName.length) && strLt minName fileName then fileName
            else minName
          else if headIs fileName 45 then fileName
          else if headIs minName 45 then minName
          else if decide (fileName.length < minName.length)
              || (decide (fileName.length = minName.length) && strLt fileName minName) then
            fileName
          else minName
        let newMax :=
          if headIs fileName 45 && headIs maxName 45 then
            if decide (fileName.length ≤ maxName.length) && strLt fileName maxName then fileName
            else maxName
          else if headIs fileName 45 then maxName
          else if headIs maxName 45 then fileName
          else if decide (fileName.length > maxName.length)
              || (decide (fileName.length = maxName.length) && strLt maxName fileName) then
            fileName
          else maxName
        (newMin, newMax)
      else
        if decide (fileName.length < minName.length)
            || (decide (fileName.length = minName.length) && strLt fileName minName) then
          (fileName, maxName)
        else if decide (fileName.length > maxName.length)
            || (decide (fileName.length = maxName.length) && strLt maxName fileName) then
          (minName, fileName)
        else (minName, maxName)

/-- `GetFileNamesWithMinMaxNameNum(filesPath, allowNegativeNames)`, given the outcome of opening
the directory and listing it with `Readdir(-1)`. -/
def GetFileNamesWithMinMaxNameNum (readdir : Except GoError (List FileInfo))
    (allowNegativeNames : Bool) : GoString × GoString × Option GoError :=
  match readdir with
  | Except.error err => ([], [], some err)
  | Except.ok fileInfo =>
    let st := fileInfo.foldl (scanFile allowNegativeNames) ([], [])
    if st.1 = [] ∨ st.2 = [] then ([], [], some GoError.ErrNoFiles)
    else if st.1 = st.2 then ([], [], some GoError.ErrNotEnoughFiles)
    else (st.1, st.2, Option.none)

/-- Value of a string of decimal digits. -/
def decValue (d : GoString) : Nat :=
  d.foldl (fun acc b => 10 * acc + (b.val - 48)) 0

/-- A decimal number without superfluous leading zeros: at least one digit, only digits, and no
leading `0` unless it is the only digit. -/
def isCanonicalDec (d : GoString) : Prop :=
  d ≠ [] ∧ (∀ b ∈ d, isDigit b = true) ∧ (d.length = 1 ∨ d.head? ≠ some 48)

/-- A name of the form `<n>.log` with `n` a decimal number without superfluous leading zeros. -/
def isDecLog (name : GoString) : Prop :=
  ∃ d, isCanonicalDec d ∧ name = d ++ ascii ".log"

/-- The number `n` of a name `<n>.log`. -/
def logValue (name : GoString) : Nat :=
  decValue (name.take (name.length - 4))

/-- The comparison `len(x) < len(y) || (len(x) == len(y) && x < y)` used by the code. -/
def shortLexLt (x y : GoString) : Bool :=
  decide (x.length < y.length) || (decide (x.length = y.length) && strLt x y)

/-- A directory entry that the scan with `allowNegativeNames = false` takes into account: not a
directory, and the name matches `^[0-9]+.log$`. -/
def countsPlain (f : FileInfo) : Prop :=
  f.isDir = false ∧ numsRegMatch false f.name = true

/-- State of the scan with `allowNegativeNames = false` after the entries `seen`: nothing
taken into account yet, or `minName` and `maxName` are names taken into account that bound the
numbers of all of them. -/
def ScanInv (seen : List FileInfo) (st : GoString × GoString) : Prop :=
  (st = ([], []) ∧ ∀ m ∈ seen, ¬ countsPlain m)
  ∨ ((∃ a ∈ seen, countsPlain a ∧ a.name = st.1) ∧ (∃ b ∈ seen, countsPlain b ∧ b.name = st.2)
      ∧ ∀ m ∈ seen, countsPlain m →
          logValue st.1 ≤ logValue m.name ∧ logValue m.name ≤ logValue st.2)

/-- A regular file named by an ASCII literal. -/
def regular (s : String) : FileInfo :=
  { name := ascii s, isDir := false }

/-- A directory named by an ASCII literal. -/
def directory (s : String) : FileInfo :=
  { name := ascii s, isDir := true }

/-- A listing with a directory, a name with a dash and three names `<n>.log`, two of them too
long for a machine integer. -/
def sampleListing : List FileInfo :=
  [ regular "12345678901011121314151617181920.log", directory "3.log", regular "-7.log",
    regular "5.log", regular "12345678901011121314151617181919.log" ]

/-! ## State shared by the goroutines -/

/-- A call `dstFile.WriteAt(data, off)`. -/
structure WriteCall where
  dst : GoString
  off : Nat
  data : List Byte
  deriving DecidableEq, Repr

/-- What the goroutines share: the file system, the error channel `errCh` (capacity 1, so at
most one pending error), the counter of the wait group `recordWg`, the remaining fault plan,
whether some goroutine has panicked, and (as a record only, read by no step) the `WriteAt` calls
issued so far, oldest first. -/
structure World where
  fs : FS
  errCh : Option GoError
  recordWg : Int
  faults : Faults
  panicked : Bool
  log : List WriteCall

/-- `dstFile.WriteAt(data, off)`: the world afterwards and the error. A failing call leaves the
content unchanged. -/
def World.sysWrite (w : World) (dst : GoString) (data : List Byte) (off : Nat) :
    World × Option GoError :=
  let o := nextOutcome w.faults.writes dst
  ({ w with fs := match o.1 with
                  | some _ => w.fs
                  | Option.none => w.fs.store dst (writeAt (w.fs.content dst) data off)
            faults := { w.faults with writes := o.2 }
            log := w.log ++ [{ dst := dst, off := off, data := data }] }, o.1)

/-- `wg.Done()` on `recordWg` (a negative counter is a panic). -/
def World.recordDone (w : World) : World :=
  { w with recordWg := w.recordWg - 1, panicked := w.panicked || decide (w.recordWg - 1 < 0) }

/-! ## The sinks `ByteRecordingToFileBuffered` and `ByteRecordingToFile` -/

/-- Program counter of a sink goroutine: the action it performs next. -/
inductive SinkPc where
  /-- At `for ch := range bytesToWrite`: waits for a byte or for the close of the stream. -/
  | recv
  /-- Holds the byte `ch` just received, at the `select` on `errCh`. -/
  | check (ch : Byte)
  /-- Has taken `err` out of `errCh`, at `errCh <- err` inside the `select`. -/
  | redeposit (err : GoError)
  /-- The block is complete, at `dstFile.WriteAt(buf, chIndex)`. -/
  | write
  /-- The write failed with `err`, at `errCh <- err`. -/
  | deposit (err : GoError)
  /-- The stream is closed with a non-empty short block, at `dstFile.WriteAt(shortBuf, chIndex)`. -/
  | flush
  /-- At `wg.Done()`. -/
  | done
  /-- The function has returned. -/
  | returned
  deriving DecidableEq, Repr

/-- Locals of `ByteRecordingToFileBuffered`. -/
structure Sink where
  dstFile : GoString
  writeBlockSize : Int
  chIndex : Nat
  buf : List Byte
  currSymbol : Nat
  pc : SinkPc

/-- Entry of `ByteRecordingToFileBuffered` up to the first receive (`make` of a negative length
panics, which `SwapTwoFiles.start` and `ByteRecordingToFileBuffered` account for). -/
def Sink.init (dstFile : GoString) (writeBlockSize : Int) : Sink :=
  { dstFile := dstFile
    writeBlockSize := writeBlockSize
    chIndex := 0
    buf := List.replicate writeBlockSize.toNat 0
    currSymbol := 0
    pc := SinkPc.recv }

/-- The sink receives the byte `ch` from its stream (its half of the rendezvous). -/
def Sink.deliver (k : Sink) (ch : Byte) : Sink :=
  { k with pc := SinkPc.check ch }

/-- One action of `ByteRecordingToFileBuffered` that needs no sender; `closed` says whether its
inbound stream has been closed. `none`: the goroutine is blocked or has returned. -/
def Sink.step (closed : Bool) (k : Sink) (w : World) : Option (Sink × World) :=
  if w.panicked then Option.none
  else
    match k.pc with
    | SinkPc.recv =>
      if closed then
        some ({ k with pc := if 0 < k.currSymbol ∧ (k.currSymbol : Int) < k.writeBlockSize
                              then SinkPc.flush else SinkPc.done }, w)
      else Option.none
    | SinkPc.check ch =>
      match w.errCh with
      | some err => some ({ k with pc := SinkPc.redeposit err }, { w with errCh := Option.none })
      | Option.none =>
        if k.currSymbol < k.buf.length then
          some ({ k with buf := k.buf.set k.currSymbol ch
                         currSymbol := k.currSymbol + 1
                         pc := if ((k.currSymbol + 1 : Nat) : Int) = k.writeBlockSize
                                then SinkPc.write else SinkPc.recv }, w)
        else some (k, { w with panicked := true })
    | SinkPc.redeposit err =>
      match w.errCh with
      | Option.none => some ({ k with pc := SinkPc.done }, { w with errCh := some err })
      | some _ => Option.none
    | SinkPc.write =>
      let res := w.sysWrite k.dstFile k.buf k.chIndex
      match res.2 with
      | some err => some ({ k with pc := SinkPc.deposit err }, res.1)
      | Option.none =>
        some ({ k with chIndex := k.chIndex + k.writeBlockSize.toNat
                       currSymbol := 0
                       pc := SinkPc.recv }, res.1)
    | SinkPc.deposit err =>
      match w.errCh with
      | Option.none => some ({ k with pc := SinkPc.done }, { w with errCh := some err })
      | some _ => Option.none
    | SinkPc.flush =>
      let res := w.sysWrite k.dstFile (k.buf.take k.currSymbol) k.chIndex
      some ({ k with chIndex := k.chIndex + k.currSymbol, pc := SinkPc.done }, res.1)
    | SinkPc.done => some ({ k with pc := SinkPc.returned }, w.recordDone)
    | SinkPc.returned => Option.none

/-- The positioned writes that put `data` at offset `c` in blocks of `w` bytes: the `i`-th
at offset `c + i * w` carrying `data[i*w : min((i+1)*w, len(data))]`, `ceil(len(data) / w)` in
all. -/
def blockWrites (dst : GoString) (w c : Nat) (data : List Byte) : List WriteCall :=
  (List.range ((data.length + w - 1) / w)).map
    fun i => WriteCall.mk dst (c + i * w) ((data.drop (i * w)).take w)

/-- A world with the files `a` (seven bytes) and `b` (empty), an empty error channel and one
pending `wg.Add(1)`. -/
def sampleWorld : World :=
  { fs := fun p => if p = ascii "a" then some [9, 9, 9, 9, 9, 9, 9]
                   else if p = ascii "b" then some [] else Option.none
    errCh := Option.none
    recordWg := 1
    faults := noFaults
    panicked := false
    log := [] }

/-- Locals of `ByteRecordingToFile`. -/
structure Recorder where
  dstFile : GoString
  chIndex : Nat
  buf : List Byte
  pc : SinkPc

/-- Entry of `ByteRecordingToFile` up to the first receive. -/
def Recorder.init (dstFile : GoString) : Recorder :=
  { dstFile := dstFile, chIndex := 0, buf := List.replicate 1 0, pc := SinkPc.recv }

/-- The recorder receives the byte `ch` from its stream. -/
def Recorder.deliver (k : Recorder) (ch : Byte) : Recorder :=
  { k with pc := SinkPc.check ch }

/-- One action of `ByteRecordingToFile` that needs no sender (it has no `flush` action). -/
def Recorder.step (closed : Bool) (k : Recorder) (w : World) : Option (Recorder × World) :=
  if w.panicked then Option.none
  else
    match k.pc with
    | SinkPc.recv => if closed then some ({ k with pc := SinkPc.done }, w) else Option.none
    | SinkPc.check ch =>
      match w.errCh with
      | some err => some ({ k with pc := SinkPc.redeposit err }, { w with errCh := Option.none })
      | Option.none =>
        if 0 < k.buf.length then
          some ({ k with buf := k.buf.set 0 ch, pc := SinkPc.write }, w)
        else some (k, { w with panicked := true })
    | SinkPc.redeposit err =>
      match w.errCh with
      | Option.none => some ({ k with pc := SinkPc.done }, { w with errCh := some err })
      | some _ => Option.none
    | SinkPc.write =>
      let res := w.sysWrite k.dstFile k.buf k.chIndex
      match res.2 with
      | some err => some ({ k with pc := SinkPc.deposit err }, res.1)
      | Option.none => some ({ k with chIndex := k.chIndex + 1, pc := SinkPc.recv }, res.1)
    | SinkPc.deposit err =>
      match w.errCh with
      | Option.none => some ({ k with pc := SinkPc.done }, { w with errCh := some err })
      | some _ => Option.none
    | SinkPc.flush => Option.none
    | SinkPc.done => some ({ k with pc := SinkPc.returned }, w.recordDone)
    | SinkPc.returned => Option.none

/-- The recorder `k` and the buffered sink `s` with block size 1 are at the same point: same
destination, offset and program counter; while waiting for or holding a byte the block of the
sink is empty, and in front of the write both hold the same one-byte buffer. -/
def SameSink (k : Recorder) (s : Sink) : Prop :=
  s.dstFile = k.dstFile ∧ s.writeBlockSize = 1 ∧ s.chIndex = k.chIndex ∧ s.pc = k.pc
    ∧ s.buf.length = 1 ∧ k.buf.length = 1
    ∧ match k.pc with
      | SinkPc.recv => s.currSymbol = 0
      | SinkPc.check _ => s.currSymbol = 0
      | SinkPc.write => s.buf = k.buf
      | SinkPc.flush => False
      | _ => True

/-- Let a sink act on its own until it blocks or returns, at most `n` actions. -/
def Sink.settle (closed : Bool) : Nat → Sink → World → Sink × World
  | 0, k, w => (k, w)
  | n + 1, k, w =>
    match k.step closed w with
    | Option.none => (k, w)
    | some kw => Sink.settle closed n kw.1 kw.2

/-- Run a sink against a producer that sends the given bytes and then closes the stream, nothing
else touching the world. After a byte the sink acts at most 4 times before it waits again or
returns, after the close at most 3 times. Bytes offered to a sink that has returned are never
received. -/
def Sink.feed : List Byte → Sink → World → Sink × World
  | [], k, w => Sink.settle true 3 k w
  | ch :: rest, k, w =>
    if k.pc = SinkPc.recv ∧ w.panicked = false then
      let kw := Sink.settle false 4 (k.deliver ch) w
      Sink.feed rest kw.1 kw.2
    else (k, w)

/-- Let a recorder act on its own until it blocks or returns, at most `n` actions. -/
def Recorder.settle (closed : Bool) : Nat → Recorder → World → Recorder × World
  | 0, k, w => (k, w)
  | n + 1, k, w =>
    match k.step closed w with
    | Option.none => (k, w)
    | some kw => Recorder.settle closed n kw.1 kw.2

/-- Run a recorder against a producer that sends the given bytes and then closes the stream. -/
def Recorder.feed : List Byte → Recorder → World → Recorder × World
  | [], k, w => Recorder.settle true 3 k w
  | ch :: rest, k, w =>
    if k.pc = SinkPc.recv ∧ w.panicked = false then
      let kw := Recorder.settle false 4 (k.deliver ch) w
      Recorder.feed rest kw.1 kw.2
    else (k, w)

/-- `ByteRecordingToFileBuffered(dstFile, bytesToWrite, writeBlockSize, errCh, wg)` run to its
end on a stream that carries `bytesToWrite` and is then closed. -/
def ByteRecordingToFileBuffered (dstFile : GoString) (bytesToWrite : List Byte)
    (writeBlockSize : Int) (w : World) : Sink × World :=
  if writeBlockSize < 0 then (Sink.init dstFile writeBlockSize, { w with panicked := true })
  else Sink.feed bytesToWrite (Sink.init dstFile writeBlockSize) w

/-- `ByteRecordingToFile(dstFile, bytesToWrite, errCh, wg)` run to its end on a stream that
carries `bytesToWrite` and is then closed. -/
def ByteRecordingToFile (dstFile : GoString) (bytesToWrite : List Byte) (w : World) :
    Recorder × World :=
  Recorder.feed bytesToWrite (Recorder.init dstFile) w

/-! ## `SwapTwoFiles` -/

/-- Program counter of the goroutine running `SwapTwoFiles`: the action it performs next. -/
inductive MainPc where
  /-- At `firstFileReader.ReadBytes()`. -/
  | readFirst
  /-- At `close(symbolsFromFirstFile)`. -/
  | closeFirst
  /-- At `secondFileReader.ReadBytes()`. -/
  | readSecond
  /-- At `close(symbolsFromSecondFile)`. -/
  | closeSecond
  /-- At `sendBytesWg.Add(1)` and the `go` statement of the forwarding goroutine. -/
  | spawn
  /-- In the loop over `secondText` with index `i`, at the `select` on `errCh`. -/
  | chk (i : Nat)
  /-- Has taken `err` out of `errCh`, at `errCh <- err` before `break runtimeError`. -/
  | redep (err : GoError)
  /-- At `symbolsFromSecondFile <- secondText[i]`. -/
  | send (i : Nat)
  /-- At `sendBytesWg.Wait()`. -/
  | waitSend
  /-- At the `select` on `errCh` that ends a round. -/
  | roundCheck
  /-- At `recordWg.Wait()`. -/
  | waitRecord
  /-- At `os.Truncate` of the first file. -/
  | truncFirst
  /-- At `os.Truncate` of the second file. -/
  | truncSecond
  /-- At the last `select` on `errCh`. -/
  | finalCheck
  /-- `SwapTwoFiles` has returned `err`. -/
  | returned (err : Option GoError)
  deriving DecidableEq, Repr

/-- Program counter of the forwarding goroutine of a round (the function literal that sends
`firstText`). -/
inductive FwdPc where
  /-- In the loop with index `i`, at the `select` on `errCh`. -/
  | chk (i : Nat)
  /-- Has taken `err` out of `errCh`, at `errCh <- *err`. -/
  | redep (err : GoError)
  /-- At `symbolsFromFirstFile <- firstText[i]`. -/
  | send (i : Nat)
  /-- At `sendBytesWg.Done()`. -/
  | done
  deriving DecidableEq, Repr

/-- State of a running `SwapTwoFiles`: the shared world, the two readers, the variables
`firstL`, `firstText`, `secondL`, `secondText` (a `nil` slice is `none`), whether the channels
`symbolsFromFirstFile` and `symbolsFromSecondFile` are closed, the counter of `sendBytesWg`, and
the four goroutines. `sinkFirst` writes the first file and receives from
`symbolsFromSecondFile`; `sinkSecond` writes the second file and receives from
`symbolsFromFirstFile`. The variable `err` is left out: what `SwapTwoFiles` returns is read from
`errCh` by the last `select` alone. -/
structure State where
  world : World
  first : FileReader
  second : FileReader
  firstL : Nat
  firstText : Option (List Byte)
  secondL : Nat
  secondText : Option (List Byte)
  closedFirst : Bool
  closedSecond : Bool
  sendBytesWg : Int
  pc : MainPc
  fwd : Option FwdPc
  sinkFirst : Sink
  sinkSecond : Sink

/-- The goroutines. -/
inductive Tid where
  | main
  | fwd
  | sinkFirst
  | sinkSecond
  deriving DecidableEq, Repr

/-- Control is in front of the loop over `secondText`: `if !secondFileReader.EOF() { for i := 0;
i < secondL; i++ {...} }`, then `sendBytesWg.Wait()`. -/
def State.toForwardSecond (s : State) : State :=
  { s with pc := if !s.second.EOF ∧ 0 < s.secondL then MainPc.chk 0 else MainPc.waitSend }

/-- Control is at `sendBytesWg := &sync.WaitGroup{}`, followed by `if !firstFileReader.EOF()`
in front of the `go` statement. -/
def State.toSpawn (s : State) : State :=
  let s1 := { s with sendBytesWg := 0 }
  if !s1.first.EOF then { s1 with pc := MainPc.spawn } else s1.toForwardSecond

/-- Control is at the second `if !secondFileReader.EOF()` of the loop body. -/
def State.toReadSecond (s : State) : State :=
  if !s.second.EOF then { s with pc := MainPc.readSecond } else s.toSpawn

/-- Control is at the loop condition `!firstFileReader.EOF() || !secondFileReader.EOF()`. -/
def State.toLoop (s : State) : State :=
  if !s.first.EOF ∨ !s.second.EOF then
    if !s.first.EOF then { s with pc := MainPc.readFirst } else s.toReadSecond
  else { s with pc := MainPc.waitRecord }

/-- Mark the program as crashed by a panic. -/
def State.panic (s : State) : State :=
  { s with world := { s.world with panicked := true } }

/-- `os.Truncate(name, size)`, its error being discarded. -/
def World.sysTruncate (w : World) (name : GoString) (size : Nat) : World :=
  { w with fs := match w.fs name, w.faults.truncs name with
                 | some content, Option.none => w.fs.store name (truncateTo content size)
                 | _, _ => w.fs }

/-- One action of the goroutine running `SwapTwoFiles`. -/
def stepMain (s : State) : Option State :=
  match s.pc with
  | MainPc.readFirst =>
    let o := nextOutcome s.world.faults.reads s.first.name
    let res := s.first.ReadBytes (s.first.sysRead s.world.fs o.1)
    let s1 := { s with world := { s.world with faults := { s.world.faults with reads := o.2 } }
                       first := res.1
                       firstL := res.2.1
                       firstText := res.2.2.1 }
    some (if s1.first.EOF then { s1 with pc := MainPc.closeFirst } else s1.toReadSecond)
  | MainPc.closeFirst =>
    if s.closedFirst then some s.panic
    else some ({ s with closedFirst := true }).toReadSecond
  | MainPc.readSecond =>
    let o := nextOutcome s.world.faults.reads s.second.name
    let res := s.second.ReadBytes (s.second.sysRead s.world.fs o.1)
    let s1 := { s with world := { s.world with faults := { s.world.faults with reads := o.2 } }
                       second := res.1
                       secondL := res.2.1
                       secondText := res.2.2.1 }
    some (if s1.second.EOF then { s1 with pc := MainPc.closeSecond } else s1.toSpawn)
  | MainPc.closeSecond =>
    if s.closedSecond then some s.panic
    else some ({ s with closedSecond := true }).toSpawn
  | MainPc.spawn =>
    some ({ s with sendBytesWg := s.sendBytesWg + 1
                   fwd := some (if 0 < s.firstL then FwdPc.chk 0 else FwdPc.done) }).toForwardSecond
  | MainPc.chk i =>
    match s.world.errCh with
    | some err => some { s with world := { s.world with errCh := Option.none }
                                pc := MainPc.redep err }
    | Option.none => some { s with pc := MainPc.send i }
  | MainPc.redep err =>
    match s.world.errCh with
    | Option.none => some { s with world := { s.world with errCh := some err }
                                   pc := MainPc.waitRecord }
    | some _ => Option.none
  | MainPc.send i =>
    match s.secondText.bind (fun t => t[i]?) with
    | Option.none => some s.panic
    | some ch =>
      if s.closedSecond then some s.panic
      else if s.sinkFirst.pc = SinkPc.recv then
        some { s with sinkFirst := s.sinkFirst.deliver ch
                      pc := if i + 1 < s.secondL then MainPc.chk (i + 1) else MainPc.waitSend }
      else Option.none
  | MainPc.waitSend =>
    if s.sendBytesWg = 0 then some { s with pc := MainPc.roundCheck } else Option.none
  | MainPc.roundCheck =>
    match s.world.errCh with
    | some _ => some { s with world := { s.world with errCh := Option.none }
                              pc := MainPc.waitRecord }
    | Option.none => some s.toLoop
  | MainPc.waitRecord =>
    if s.world.recordWg = 0 then some { s with pc := MainPc.truncFirst } else Option.none
  | MainPc.truncFirst =>
    some { s with world := s.world.sysTruncate s.first.name s.second.Size
                  pc := MainPc.truncSecond }
  | MainPc.truncSecond =>
    some { s with world := s.world.sysTruncate s.second.name s.first.Size
                  pc := MainPc.finalCheck }
  | MainPc.finalCheck =>
    match s.world.errCh with
    | some err => some { s with world := { s.world with errCh := Option.none }
                                pc := MainPc.returned (some err) }
    | Option.none => some { s with pc := MainPc.returned Option.none }
  | MainPc.returned _ => Option.none

/-- One action of the forwarding goroutine. It reads `firstL` and `firstText` of the enclosing
function. -/
def stepFwd (s : State) : Option State :=
  match s.fwd with
  | Option.none => Option.none
  | some (FwdPc.chk i) =>
    match s.world.errCh with
    | some err => some { s with world := { s.world with errCh := Option.none }
                                fwd := some (FwdPc.redep err) }
    | Option.none => some { s with fwd := some (FwdPc.send i) }
  | some (FwdPc.redep err) =>
    match s.world.errCh with
    | Option.none => some { s with world := { s.world with errCh := some err }
                                   fwd := some FwdPc.done }
    | some _ => Option.none
  | some (FwdPc.send i) =>
    match s.firstText.bind (fun t => t[i]?) with
    | Option.none => some s.panic
    | some ch =>
      if s.closedFirst then some s.panic
      else if s.sinkSecond.pc = SinkPc.recv then
        some { s with sinkSecond := s.sinkSecond.deliver ch
                      fwd := some (if i + 1 < s.firstL then FwdPc.chk (i + 1) else FwdPc.done) }
      else Option.none
  | some FwdPc.done =>
    some { s with world := { s.world with panicked := decide (s.sendBytesWg - 1 < 0) }
                  sendBytesWg := s.sendBytesWg - 1
                  fwd := Option.none }

/-- One action of goroutine `t`; `none` when `t` is blocked, has finished, or the program has
crashed. -/
def step (t : Tid) (s : State) : Option State :=
  if s.world.panicked then Option.none
  else
    match t with
    | Tid.main => stepMain s
    | Tid.fwd => stepFwd s
    | Tid.sinkFirst =>
      (s.sinkFirst.step s.closedSecond s.world).map
        fun kw => { s with sinkFirst := kw.1, world := kw.2 }
    | Tid.sinkSecond =>
      (s.sinkSecond.step s.closedFirst s.world).map
        fun kw => { s with sinkSecond := kw.1, world := kw.2 }

/-- Run a schedule: each entry lets the named goroutine perform one action, and is skipped when
that goroutine cannot act. -/
def exec : List Tid → State → State
  | [], s => s
  | t :: rest, s =>
    match step t s with
    | some s1 => exec rest s1
    | Option.none => exec rest s

/-- Number of entries of a schedule that are not skipped. -/
def actions : List Tid → State → Nat
  | [], _ => 0
  | t :: rest, s =>
    match step t s with
    | some s1 => actions rest s1 + 1
    | Option.none => actions rest s

/-- `SwapTwoFiles` up to the start of its loop: the error it returns at once, or the state in
which the two sinks have been started. -/
def SwapTwoFiles.start (fs : FS) (ft : Faults) (path firstName secondName : GoString)
    (readBlockSize writeBlockSize : Int) : Except GoError State :=
  match NewFileReader fs ft (path ++ firstName) readBlockSize with
  | Except.error err => Except.error err
  | Except.ok firstFileReader =>
    match NewFileReader fs ft (path ++ secondName) readBlockSize with
    | Except.error err => Except.error err
    | Except.ok secondFileReader =>
      let s : State :=
        { world := { fs := fs, errCh := Option.none, recordWg := 2, faults := ft,
                     panicked := decide (writeBlockSize < 0), log := [] }
          first := firstFileReader
          second := secondFileReader
          firstL := 0
          firstText := Option.none
          secondL := 0
          secondText := Option.none
          closedFirst := false
          closedSecond := false
          sendBytesWg := 0
          pc := MainPc.readFirst
          fwd := Option.none
          sinkFirst := Sink.init firstFileReader.name writeBlockSize
          sinkSecond := Sink.init secondFileReader.name writeBlockSize }
      Except.ok s.toLoop

/-- What a run of `SwapTwoFiles` under a schedule has produced. -/
inductive Outcome where
  /-- `SwapTwoFiles` has not returned (yet). -/
  | running
  /-- `SwapTwoFiles` has returned this error (`none` is `nil`). -/
  | returned (err : Option GoError)
  deriving DecidableEq, Repr

/-- Outcome recorded in a state. -/
def State.outcome (s : State) : Outcome :=
  match s.pc with
  | MainPc.returned err => Outcome.returned err
  | _ => Outcome.running

/-- `SwapTwoFiles(path, firstName, secondName, readBlockSize, writeBlockSize)` on the file system
`fs` with fault plan `ft`, its goroutines interleaved by the schedule `sched`: the file system
afterwards and the outcome. -/
def SwapTwoFiles (sched : List Tid) (fs : FS) (ft : Faults) (path firstName secondName : GoString)
    (readBlockSize writeBlockSize : Int) : FS × Outcome :=
  match SwapTwoFiles.start fs ft path firstName secondName readBlockSize writeBlockSize with
  | Except.error err => (fs, Outcome.returned (some err))
  | Except.ok s0 =>
    let s := exec sched s0
    (s.world.fs, s.outcome)

/-- A schedule that serves the goroutines in turn, `n` times. -/
def roundRobin (n : Nat) : List Tid :=
  (List.replicate n [Tid.main, Tid.fwd, Tid.sinkFirst, Tid.sinkSecond]).flatten

/-! ## Invariant and progress measure of a fault-free swap -/

/-- Number of bytes a sink has received so far. -/
def Sink.got (k : Sink) : Nat :=
  match k.pc with
  | SinkPc.recv => k.chIndex + k.currSymbol
  | SinkPc.write => k.chIndex + k.currSymbol
  | SinkPc.flush => k.chIndex + k.currSymbol
  | SinkPc.check _ => k.chIndex + k.currSymbol + 1
  | _ => k.chIndex

/-- A sink with block size `w` is consistent with the byte sequence `D` sent to it: it has
received a prefix of `D`, written the first `chIndex` bytes of it, and holds the following
`currSymbol` bytes in its buffer; once the stream is closed it has received all of `D`. -/
structure SinkOk (w : Nat) (D : List Byte) (closed : Bool) (k : Sink) : Prop where
  wbs : k.writeBlockSize = (w : Int)
  buflen : k.buf.length = w
  gotle : k.got ≤ D.length
  closedAll : closed = true → k.got = D.length
  pcok :
    match k.pc with
    | SinkPc.recv =>
      k.currSymbol < w ∧ k.buf.take k.currSymbol = (D.drop k.chIndex).take k.currSymbol
    | SinkPc.check ch =>
      k.currSymbol < w ∧ k.buf.take k.currSymbol = (D.drop k.chIndex).take k.currSymbol
        ∧ D[k.chIndex + k.currSymbol]? = some ch
    | SinkPc.write => k.currSymbol = w ∧ k.buf = (D.drop k.chIndex).take w
    | SinkPc.flush =>
      0 < k.currSymbol ∧ k.currSymbol < w
        ∧ k.buf.take k.currSymbol = (D.drop k.chIndex).take k.currSymbol ∧ closed = true
    | SinkPc.done => closed = true
    | SinkPc.returned => closed = true
    | SinkPc.redeposit _ => False
    | SinkPc.deposit _ => False

/-- Bytes of the block in `secondText` that the main goroutine has still to send. -/
def pendSecond (s : State) : Nat :=
  match s.pc with
  | MainPc.spawn => s.secondL
  | MainPc.chk i => s.secondL - i
  | MainPc.send i => s.secondL - i
  | _ => 0

/-- Bytes of the block in `firstText` that are still to be sent by the forwarding goroutine of
the round (running or still to be started). -/
def pendFirst (s : State) : Nat :=
  match s.fwd with
  | some (FwdPc.chk i) => s.firstL - i
  | some (FwdPc.send i) => s.firstL - i
  | some _ => 0
  | Option.none =>
    match s.pc with
    | MainPc.readSecond => s.firstL
    | MainPc.closeSecond => s.firstL
    | MainPc.spawn => s.firstL
    | _ => 0

/-- The first reader has been read in the current round. -/
def afterFirst (pc : MainPc) : Bool :=
  match pc with
  | MainPc.readFirst => false
  | _ => true

/-- The second reader has been read in the current round. -/
def afterSecond (pc : MainPc) : Bool :=
  match pc with
  | MainPc.readFirst => false
  | MainPc.closeFirst => false
  | MainPc.readSecond => false
  | _ => true

/-- The first file has been truncated. -/
def truncatedFirst (pc : MainPc) : Bool :=
  match pc with
  | MainPc.truncSecond => true
  | MainPc.finalCheck => true
  | MainPc.returned _ => true
  | _ => false

/-- The second file has been truncated. -/
def truncatedSecond (pc : MainPc) : Bool :=
  match pc with
  | MainPc.finalCheck => true
  | MainPc.returned _ => true
  | _ => false

/-- The loop of `SwapTwoFiles` has been left and `recordWg.Wait()` has returned. -/
def pastWait (pc : MainPc) : Bool :=
  match pc with
  | MainPc.truncFirst => true
  | MainPc.truncSecond => true
  | MainPc.finalCheck => true
  | MainPc.returned _ => true
  | _ => false

/-- The main goroutine is in or behind its own sending loop of a round, where the forwarding
goroutine of the round may be running. -/
def forwarding (pc : MainPc) : Bool :=
  match pc with
  | MainPc.chk _ => true
  | MainPc.send _ => true
  | MainPc.waitSend => true
  | _ => false

/-- A reader over the original content `D`, in a round that started at offset `base`: before the
end of the stream its offset is `base` capped by the length, or, once read in this round
(`after`), `base + r` capped; then the block just read, `blockL` bytes in `text`, is the content
between these two offsets. A reader at the end of the stream has its whole content behind
`base`. -/
structure ReaderOk (r : Nat) (D : List Byte) (base : Nat) (after : Bool) (rd : FileReader)
    (blockL : Nat) (text : Option (List Byte)) : Prop where
  size : rd.size = D.length
  buflen : rd.buf.length = r
  pos : rd.eof = false → rd.offset = min (base + (if after then r else 0)) D.length
  fin : rd.eof = true → D.length ≤ base
  block : rd.eof = false → after = true →
    blockL = rd.offset - min base D.length
      ∧ ∃ t, text = some t ∧ t.take blockL = (D.drop (min base D.length)).take blockL

/-- Invariant of a swap of the files `p1` (content `A`) and `p2` (content `B`) with block sizes
`r` and `w` in which no operation fails; `base` is the offset at which the current round
started. -/
structure Inv (p1 p2 : GoString) (A B : List Byte) (r w : Nat) (fs0 : FS) (base : Nat)
    (s : State) : Prop where
  errCh : s.world.errCh = none
  notPanicked : s.world.panicked = false
  faults : s.world.faults = noFaults
  others : ∀ q, q ≠ p1 → q ≠ p2 → s.world.fs q = fs0 q
  file1 : s.world.fs p1 = some (if truncatedFirst s.pc then B
            else B.take s.sinkFirst.chIndex ++ A.drop s.sinkFirst.chIndex)
  file2 : s.world.fs p2 = some (if truncatedSecond s.pc then A
            else A.take s.sinkSecond.chIndex ++ B.drop s.sinkSecond.chIndex)
  wg : s.world.recordWg = (if s.sinkFirst.pc = SinkPc.returned then 0 else 1)
          + (if s.sinkSecond.pc = SinkPc.returned then 0 else 1)
  name1 : s.first.name = p1
  name2 : s.second.name = p2
  reader1 : ReaderOk r A base (afterFirst s.pc) s.first s.firstL s.firstText
  reader2 : ReaderOk r B base (afterSecond s.pc) s.second s.secondL s.secondText
  dst1 : s.sinkFirst.dstFile = p1
  dst2 : s.sinkSecond.dstFile = p2
  sink1 : SinkOk w B s.closedSecond s.sinkFirst
  sink2 : SinkOk w A s.closedFirst s.sinkSecond
  got1e : s.second.eof = true → s.sinkFirst.got = B.length
  got1 : s.second.eof = false → s.sinkFirst.got + pendSecond s = s.second.offset
  got2e : s.first.eof = true → s.sinkSecond.got = A.length
  got2 : s.first.eof = false → s.sinkSecond.got + pendFirst s = s.first.offset
  closed1 : s.closedFirst = (s.first.eof && decide (s.pc ≠ MainPc.closeFirst))
  closed2 : s.closedSecond = (s.second.eof && decide (s.pc ≠ MainPc.closeSecond))
  pcok :
    match s.pc with
    | MainPc.readFirst => s.first.eof = false ∧ s.fwd = none
    | MainPc.closeFirst => s.first.eof = true ∧ s.fwd = none
    | MainPc.readSecond => s.second.eof = false ∧ s.fwd = none
    | MainPc.closeSecond => s.second.eof = true ∧ s.fwd = none
    | MainPc.spawn => s.first.eof = false ∧ s.fwd = none
    | MainPc.chk i => s.second.eof = false ∧ i < s.secondL
    | MainPc.send i => s.second.eof = false ∧ i < s.secondL
    | MainPc.redep _ => False
    | MainPc.waitSend => True
    | MainPc.roundCheck => s.fwd = none
    | MainPc.waitRecord => s.first.eof = true ∧ s.second.eof = true ∧ s.fwd = none
    | MainPc.truncFirst => s.first.eof = true ∧ s.second.eof = true ∧ s.fwd = none
    | MainPc.truncSecond => s.first.eof = true ∧ s.second.eof = true ∧ s.fwd = none
    | MainPc.finalCheck => s.first.eof = true ∧ s.second.eof = true ∧ s.fwd = none
    | MainPc.returned err =>
      err = none ∧ s.first.eof = true ∧ s.second.eof = true ∧ s.fwd = none
  past : pastWait s.pc = true →
    s.sinkFirst.pc = SinkPc.returned ∧ s.sinkSecond.pc = SinkPc.returned
  fwdok :
    match s.fwd with
    | Option.none => True
    | some (FwdPc.chk i) => s.first.eof = false ∧ i < s.firstL ∧ forwarding s.pc = true
    | some (FwdPc.send i) => s.first.eof = false ∧ i < s.firstL ∧ forwarding s.pc = true
    | some FwdPc.done => s.first.eof = false ∧ forwarding s.pc = true
    | some (FwdPc.redep _) => False
  sendWg : s.sendBytesWg = if s.fwd = none then 0 else 1

/-- Actions a sink still performs before it waits for its next byte, or returns. -/
def sinkWeight (pc : SinkPc) : Nat :=
  match pc with
  | SinkPc.recv => 3
  | SinkPc.check _ => 5
  | SinkPc.write => 4
  | SinkPc.flush => 2
  | SinkPc.done => 1
  | _ => 0

/-- Rank of the program counter of the main goroutine within a round and after the loop. -/
def mainWeight (pc : MainPc) : Nat :=
  match pc with
  | MainPc.closeFirst => 16
  | MainPc.closeSecond => 15
  | MainPc.spawn => 14
  | MainPc.chk _ => 9
  | MainPc.send _ => 8
  | MainPc.waitSend => 7
  | MainPc.roundCheck => 6
  | MainPc.readFirst => 5
  | MainPc.readSecond => 5
  | MainPc.waitRecord => 4
  | MainPc.truncFirst => 3
  | MainPc.truncSecond => 2
  | MainPc.finalCheck => 1
  | _ => 0

/-- Rank of the program counter of the forwarding goroutine. -/
def fwdWeight (pc : Option FwdPc) : Nat :=
  match pc with
  | some (FwdPc.chk _) => 3
  | some (FwdPc.send _) => 2
  | some FwdPc.done => 1
  | _ => 0

/-- Reads a reader can still make: none at the end of the stream, else one more than the bytes
in front of it. -/
def readsLeft (rd : FileReader) : Nat :=
  if rd.eof then 0 else rd.size - rd.offset + 1

/-- Bound on the number of actions the goroutines can still perform in a fault-free swap. -/
def stepsLeft (s : State) : Nat :=
  17 * (readsLeft s.first + readsLeft s.second) + mainWeight s.pc + fwdWeight s.fwd
    + (4 * (s.second.size - s.sinkFirst.got) + sinkWeight s.sinkFirst.pc)
    + (4 * (s.first.size - s.sinkSecond.got) + sinkWeight s.sinkSecond.pc)

/-! ## Sample inputs -/

/-- A file system with the files "a" and "b". -/
def twoFiles (a b : List Byte) : FS :=
  fun p => if p = ascii "a" then some a else if p = ascii "b" then some b else none

/-- Fault plan: the first `WriteAt` on the file "a" fails with an operating-system error. -/
def failFirstWrite : Faults :=
  { noFaults with writes := fun p => if p = ascii "a" then [some (GoError.os 5)] else [] }

/-- Fault plan: the first `ReadAt` on the file "a" reads nothing and fails with an
operating-system error. -/
def failFirstRead : Faults :=
  { noFaults with reads := fun p => if p = ascii "a" then [some (0, GoError.os 5)] else [] }

/-- A schedule for the swap of an empty file "a" with a one-byte file "b": the main goroutine
reads both files and sends the byte (5 actions), the sink of "a" takes it, writes and finishes
(4 actions), the main goroutine ends the round (2), the sink of "b" finishes (2), and the main
goroutine truncates and returns (4). -/
def writeFailureSchedule : List Tid :=
  [Tid.main, Tid.main, Tid.main, Tid.main, Tid.main,
   Tid.sinkFirst, Tid.sinkFirst, Tid.sinkFirst, Tid.sinkFirst,
   Tid.main, Tid.main,
   Tid.sinkSecond, Tid.sinkSecond,
   Tid.main, Tid.main, Tid.main, Tid.main]

/-- State of a swap after the schedule `sched`, if `SwapTwoFiles` got as far as its loop. -/
def SwapTwoFiles.stateAfter (sched : List Tid) (fs : FS) (ft : Faults)
    (path firstName secondName : GoString) (readBlockSize writeBlockSize : Int) : Option State :=
  match SwapTwoFiles.start fs ft path firstName secondName readBlockSize writeBlockSize with
  | Except.error _ => none
  | Except.ok s0 => some (exec sched s0)

/-! ## Readers over a changing file, sinks in an arbitrary environment -/

/-- The states of a reader after successive `ReadBytes` calls, the `i`-th call finding the file
system `envs[i].1` (another goroutine may have written to the file in between) and the planned
outcome `envs[i].2` of its `ReadAt`: `none`, the call is served from the file, or `some (n, code)`,
it fails after `n` bytes with the operating-system error `code` (`ReadAt` reports `io.EOF` only
for a short read from the file, never as a failure). -/
def FileReader.readStates : List (FS × Option (Nat × Nat)) → FileReader → List FileReader
  | [], _ => []
  | e :: rest, r =>
    let r1 := (r.ReadBytes (r.sysRead e.1 (e.2.map fun f => (f.1, GoError.os f.2)))).1
    r1 :: FileReader.readStates rest r1

/-- What happens to a sink goroutine, seen from the sink: its producer hands it a byte, it
performs one action of its own (`closed`: whether its stream has been closed by then), or the
other goroutines leave `errCh` in the given state. -/
inductive SinkEvent where
  | byte (ch : Byte)
  | act (closed : Bool)
  | signal (errCh : Option GoError)
  deriving DecidableEq, Repr

/-- Run a sink through a sequence of events. A byte is handed over only while the sink waits for
one; an action the sink cannot perform is skipped. -/
def Sink.run : List SinkEvent → Sink → World → Sink × World
  | [], k, W => (k, W)
  | SinkEvent.byte ch :: rest, k, W =>
    if k.pc = SinkPc.recv ∧ W.panicked = false then Sink.run rest (k.deliver ch) W
    else Sink.run rest k W
  | SinkEvent.act closed :: rest, k, W =>
    match k.step closed W with
    | some kw => Sink.run rest kw.1 kw.2
    | Option.none => Sink.run rest k W
  | SinkEvent.signal e :: rest, k, W => Sink.run rest k { W with errCh := e }

/-- Number of bytes carried by a list of `WriteAt` calls. -/
def bytesOf (calls : List WriteCall) : Nat :=
  (calls.map fun c => c.data.length).sum

/-- The sink is inside its receive loop or in front of the write of the last short block, where
`chIndex` is the offset of its next write. -/
def SinkPc.writing (pc : SinkPc) : Bool :=
  match pc with
  | SinkPc.recv => true
  | SinkPc.check _ => true
  | SinkPc.write => true
  | SinkPc.flush => true
  | _ => false

/-- Safety invariant of a sink with block size `w` writing `dst`, in a world whose log held
`log0` when the sink started: the buffer has `w` cells; the writes the sink has issued went to
`dst` at offsets that are multiples of `w`, carried at most `w` bytes each, and each was issued
at the offset equal to the number of bytes carried by the writes before it; while the sink is in
its loop or in front of its last write, `chIndex` equals the number of bytes these writes carried
and `currSymbol` is below `w` (equal to `w` in front of the write of a full block); `chIndex` is
a multiple of `w` unless the sink is past the write of a last short block, and then it is the end
of that write; and only `wg.Done()` can have panicked. -/
structure SinkSafe (w : Nat) (dst : GoString) (log0 : List WriteCall) (k : Sink) (W : World) :
    Prop where
  wbs : k.writeBlockSize = (w : Int)
  buflen : k.buf.length = w
  dstOk : k.dstFile = dst
  logOk : ∃ L, W.log = log0 ++ L
    ∧ (∀ c ∈ L, c.dst = dst ∧ w ∣ c.off ∧ c.data.length ≤ w)
    ∧ (k.pc.writing = true → bytesOf L = k.chIndex)
    ∧ (∀ i c, L[i]? = some c → c.off = bytesOf (L.take i))
    ∧ (w ∣ k.chIndex
        ∨ ((k.pc = SinkPc.done ∨ k.pc = SinkPc.returned)
            ∧ ∃ c, L.getLast? = some c ∧ 0 < c.data.length ∧ c.data.length < w
                ∧ k.chIndex = c.off + c.data.length))
  offsetOk : k.pc.writing = true → w ∣ k.chIndex
  indexOk :
    match k.pc with
    | SinkPc.recv => k.currSymbol < w
    | SinkPc.check _ => k.currSymbol < w
    | SinkPc.write => k.currSymbol = w
    | SinkPc.flush => 0 < k.currSymbol ∧ k.currSymbol < w
    | _ => True
  panicOk : W.panicked = true → k.pc = SinkPc.returned

/-- Fault plan: the `WriteAt` calls on the file `dst` have the outcomes `plan`, nothing else
fails. -/
def writePlan (dst : GoString) (plan : List (Option GoError)) : Faults :=
  { noFaults with writes := fun p => if p = dst then plan else [] }

/-- A schedule for the swap of an empty file "a" with a two-byte file "b", blocks of 2 resp. 1
bytes: the main goroutine reads both files, sends the first byte and passes the `select` in
front of the second byte (6 actions); the sink of "a" takes the first byte, writes, deposits the
error of the write and finishes (4 actions); the sink of "b" finishes (2 actions). -/
def blockedSendSchedule : List Tid :=
  [Tid.main, Tid.main, Tid.main, Tid.main, Tid.main, Tid.main,
   Tid.sinkFirst, Tid.sinkFirst, Tid.sinkFirst, Tid.sinkFirst,
   Tid.sinkSecond, Tid.sinkSecond]

/-! # Theorems -/

set_option linter.unusedTactic false
set_option linter.unreachableTactic false
set_option linter.unusedVariables false

/-! ## Lists -/

theorem take_min_length {α : Type} (l : List α) (n : Nat) :
    l.take (min n l.length) = l.take n := by
  rcases Nat.le_total n l.length with h | h
  · rw [Nat.min_eq_left h]
  · rw [Nat.min_eq_right h, List.take_length, List.take_of_length_le h]

/-! ## Block reader -/

/-- A call of `ReadBytes` at an offset inside or at the end of an unchanged file. -/
theorem ReadBytes_spec (content : List Byte) (r : FileReader)
    (hsize : r.size = content.length) (hoff : r.offset ≤ content.length)
    (hbuf : 0 < r.buf.length) (heof : r.eof = false) :
    (r.ReadBytes (readAt content r.buf r.offset)).2.1
        = min r.buf.length (content.length - r.offset)
    ∧ ((r.ReadBytes (readAt content r.buf r.offset)).2.2.1.getD []).take
          (r.ReadBytes (readAt content r.buf r.offset)).2.1
        = (content.drop r.offset).take r.buf.length
    ∧ (r.ReadBytes (readAt content r.buf r.offset)).1.offset
        = r.offset + min r.buf.length (content.length - r.offset)
    ∧ (r.ReadBytes (readAt content r.buf r.offset)).1.size = r.size
    ∧ (r.ReadBytes (readAt content r.buf r.offset)).1.buf.length = r.buf.length
    ∧ (r.ReadBytes (readAt content r.buf r.offset)).1.name = r.name
    ∧ ((r.ReadBytes (readAt content r.buf r.offset)).1.eof = true ↔ r.offset = content.length)
    ∧ (r.ReadBytes (readAt content r.buf r.offset)).2.2.2
        = if content.length - r.offset < r.buf.length then some GoError.EOF else none := by
  have hne : ¬ ((readAt content r.buf r.offset).2.2 ≠ none
        ∧ (readAt content r.buf r.offset).2.2 ≠ some GoError.EOF) := by
    simp only [readAt]; split_ifs <;> simp
  simp only [FileReader.ReadBytes, if_neg hne]
  simp only [readAt, List.length_take, List.length_drop, Option.getD_some, List.length_append]
  refine ⟨trivial, ?_, trivial, trivial, ?_, trivial, ?_, ?_⟩
  · rw [List.take_append_of_le_length (by simp)]
    simp
  · omega
  · simp only [heof, hsize]
    by_cases h : r.offset = content.length
    · have hm : r.buf.length ⊓ (content.length - r.offset) = 0 := by omega
      rw [hm]
      simp [h, hbuf]
    · have hm1 : 0 < r.buf.length ⊓ (content.length - r.offset) := by omega
      have hm2 : ¬ (r.offset + r.buf.length ⊓ (content.length - r.offset) > content.length) := by
        omega
      rw [if_neg hm2, if_neg (by rintro ⟨_, h0⟩; omega)]
      simp [h]
  · by_cases h : content.length - r.offset < r.buf.length
    · simp [h]
    · simp [h]

theorem readLoop_eof (content : List Byte) (fuel : Nat) (r : FileReader) (h : r.eof = true) :
    readLoop content fuel r = ([], r) := by
  cases fuel <;> simp [readLoop, FileReader.EOF, h]

/-- The read loop from any reader position inside the file. -/
theorem readLoop_from (content : List Byte) :
    ∀ (fuel : Nat) (r : FileReader), r.size = content.length → r.offset ≤ content.length →
      0 < r.buf.length → r.eof = false → content.length - r.offset + 1 ≤ fuel →
      (readLoop content fuel r).2.eof = true
      ∧ (∀ c ∈ (readLoop content fuel r).1,
            c.bytesRead = min r.buf.length (content.length - c.offset)
            ∧ c.block = (content.drop c.offset).take c.bytesRead
            ∧ c.err = (if c.bytesRead < r.buf.length then some GoError.EOF else none))
      ∧ ((readLoop content fuel r).1.map ReadCall.block).flatten = content.drop r.offset := by
  intro fuel
  induction fuel with
  | zero => intro r _ _ _ _ hf; omega
  | succ fuel ih =>
    intro r hsize hoff hbuf heof hf
    obtain ⟨hn, hblk, hoff', hsize', hbuf', _, heof', herr⟩ :=
      ReadBytes_spec content r hsize hoff hbuf heof
    simp only [readLoop, FileReader.EOF, heof, Bool.false_eq_true, if_false]
    generalize r.ReadBytes (readAt content r.buf r.offset) = res at *
    by_cases hend : r.offset = content.length
    · have he : res.1.eof = true := heof'.2 hend
      rw [readLoop_eof content fuel _ he]
      have hn0 : res.2.1 = 0 := by omega
      refine ⟨he, ?_, ?_⟩
      · intro c hc
        simp only [List.mem_singleton] at hc
        subst hc
        simp [hn0, herr, hend, hbuf]
      · simp [hn0, hend]
    · have hlt : r.offset < content.length := by omega
      have he : res.1.eof = false := by
        cases h : res.1.eof
        · rfl
        · exact absurd (heof'.1 h) hend
      have hih := ih res.1 (by rw [hsize', hsize])
        (by rw [hoff']; omega) (by rw [hbuf']; exact hbuf) he (by rw [hoff']; omega)
      obtain ⟨h1, h2, h3⟩ := hih
      have htk : (List.drop r.offset content).take r.buf.length
          = (List.drop r.offset content).take res.2.1 := by
        rw [hn, ← take_min_length _ r.buf.length, List.length_drop]
      refine ⟨h1, ?_, ?_⟩
      · intro c hc
        simp only [List.mem_cons] at hc
        rcases hc with hc | hc
        · subst hc
          simp only [hn, hblk, herr]
          refine ⟨trivial, ?_, ?_⟩
          · rw [← hn, ← htk, ← hblk]
          · by_cases hs : content.length - r.offset < r.buf.length
            · have : min r.buf.length (content.length - r.offset) < r.buf.length := by omega
              simp [hs, this]
            · have : ¬ min r.buf.length (content.length - r.offset) < r.buf.length := by omega
              simp [hs, this]
        · have := h2 c hc
          rw [hbuf'] at this
          exact this
      · simp only [List.map_cons, List.flatten_cons, h3, hblk, hoff']
        rw [← List.drop_drop, htk, hn, List.take_append_drop]

theorem NewFileReader_ok (fs : FS) (ft : Faults) (fileName : GoString) (readBlockSize : Int)
    (r : FileReader) (h : NewFileReader fs ft fileName readBlockSize = Except.ok r) :
    1 ≤ readBlockSize ∧ fileName ≠ [] ∧ r.name = fileName ∧ r.size = (fs.content fileName).length
      ∧ r.offset = 0 ∧ r.eof = false ∧ r.buf.length = readBlockSize.toNat
      ∧ (∃ c, fs fileName = some c) := by
  unfold NewFileReader at h
  split_ifs at h with h1 h2
  unfold openFile at h
  cases hf : fs fileName with
  | none => simp [hf] at h
  | some c =>
    simp only [hf] at h
    cases ho : ft.opens fileName with
    | some e => simp [ho] at h
    | none =>
      simp only [ho] at h
      cases hs : ft.stats fileName with
      | some e => simp [hs] at h
      | none =>
        simp only [hs, Except.ok.injEq] at h
        subst h
        refine ⟨by omega, ?_, rfl, rfl, rfl, rfl, by simp, c, rfl⟩
        intro hnil
        exact h1 (by simp [hnil])

/-- C4: On a file whose content does not change, the loop that calls `ReadBytes` on a
freshly opened reader until `EOF()` holds stops with `EOF()` true (any fuel above the file length
suffices); every call made at offset `o` returns `min(r, L - o)` bytes, the returned slice cut to
that count is exactly the content at `[o, o + bytesRead)`, also for the short block that comes
with `io.EOF`; and the delivered blocks concatenate to the whole content. -/
theorem readBytes_until_eof (fs : FS) (ft : Faults) (fileName : GoString) (readBlockSize : Int)
    (r : FileReader) (fuel : Nat)
    (hr : 1 ≤ readBlockSize)
    (hopen : NewFileReader fs ft fileName readBlockSize = Except.ok r)
    (hfuel : (fs.content fileName).length + 1 ≤ fuel) :
    (readLoop (fs.content fileName) fuel r).2.EOF = true
    ∧ (∀ c ∈ (readLoop (fs.content fileName) fuel r).1,
          c.bytesRead = min readBlockSize.toNat ((fs.content fileName).length - c.offset)
          ∧ c.block = ((fs.content fileName).drop c.offset).take c.bytesRead
          ∧ c.err = (if c.bytesRead < readBlockSize.toNat then some GoError.EOF else none))
    ∧ ((readLoop (fs.content fileName) fuel r).1.map ReadCall.block).flatten
        = fs.content fileName := by
  obtain ⟨_, _, _, hsize, hoff, heof, hbuf, _⟩ := NewFileReader_ok fs ft fileName readBlockSize r hopen
  have h := readLoop_from (fs.content fileName) fuel r hsize (by omega) (by omega) heof (by omega)
  rw [hbuf, hoff] at h
  simpa [FileReader.EOF] using h

/-- Witness of `readBytes_until_eof`: a file of five bytes read in blocks of two. -/
theorem readBytes_until_eof_witness :
    (readLoop ((twoFiles [1, 2, 3, 4, 5] []).content (ascii "a")) 6
        { name := ascii "a", size := 5, offset := 0, eof := false, buf := [0, 0] }).2.EOF = true
    ∧ (∀ c ∈ (readLoop ((twoFiles [1, 2, 3, 4, 5] []).content (ascii "a")) 6
          { name := ascii "a", size := 5, offset := 0, eof := false, buf := [0, 0] }).1,
          c.bytesRead = min (2 : Int).toNat
              (((twoFiles [1, 2, 3, 4, 5] []).content (ascii "a")).length - c.offset)
          ∧ c.block = (((twoFiles [1, 2, 3, 4, 5] []).content (ascii "a")).drop c.offset).take
              c.bytesRead
          ∧ c.err = (if c.bytesRead < (2 : Int).toNat then some GoError.EOF else none))
    ∧ ((readLoop ((twoFiles [1, 2, 3, 4, 5] []).content (ascii "a")) 6
          { name := ascii "a", size := 5, offset := 0, eof := false, buf := [0, 0] }).1.map
            ReadCall.block).flatten
        = (twoFiles [1, 2, 3, 4, 5] []).content (ascii "a") :=
  readBytes_until_eof (twoFiles [1, 2, 3, 4, 5] []) noFaults (ascii "a") 2
    { name := ascii "a", size := 5, offset := 0, eof := false, buf := [0, 0] } 6
    (by decide) rfl (by decide)

/-- The calls of the read loop on five bytes with block size two: the short block at offset 4
comes with `io.EOF`, and one more call returns nothing and sets the end-of-stream flag. -/
theorem readLoop_example :
    (readLoop [1, 2, 3, 4, 5] 6
        { name := ascii "a", size := 5, offset := 0, eof := false, buf := [0, 0] }).1
      = [ ReadCall.mk 0 2 none [1, 2], ReadCall.mk 2 2 none [3, 4],
          ReadCall.mk 4 1 (some GoError.EOF) [5], ReadCall.mk 5 0 (some GoError.EOF) [] ] := by
  decide

/-! ## C6 -/

/-- C6, as stated, fails: With `readBlockSize = 0` and an empty `path + firstName`,
`SwapTwoFiles` returns `ErrInvalidFileName`, not `ErrInvalidBlockSize`: `NewFileReader` tests
the name before the block size. -/
theorem SwapTwoFiles_blockSize_counterexample :
    (SwapTwoFiles [] (twoFiles [1] [2]) noFaults [] [] (ascii "b") 0 1).2
        = Outcome.returned (some GoError.ErrInvalidFileName)
    ∧ (SwapTwoFiles [] (twoFiles [1] [2]) noFaults [] [] (ascii "b") 0 1).2
        ≠ Outcome.returned (some GoError.ErrInvalidBlockSize) := by
  decide

/-- C6, amended: `NewFileReader` returns `ErrInvalidFileName` and no reader for the empty
path, and `ErrInvalidBlockSize` and no reader for a non-empty path with `blockSize < 1`, whatever
the file system holds (so before any file is opened). `SwapTwoFiles` with `readBlockSize < 1`
leaves the file system as it is and returns `ErrInvalidBlockSize` when `path + firstName` is not
empty, and `ErrInvalidFileName` when it is. -/
theorem NewFileReader_rejects (sched : List Tid) (fs : FS) (ft : Faults)
    (fileName path firstName secondName : GoString) (readBlockSize writeBlockSize : Int) :
    (fileName = [] →
      NewFileReader fs ft fileName readBlockSize = Except.error GoError.ErrInvalidFileName)
    ∧ (fileName ≠ [] → readBlockSize < 1 →
      NewFileReader fs ft fileName readBlockSize = Except.error GoError.ErrInvalidBlockSize)
    ∧ (readBlockSize < 1 → path ++ firstName ≠ [] →
      SwapTwoFiles sched fs ft path firstName secondName readBlockSize writeBlockSize
        = (fs, Outcome.returned (some GoError.ErrInvalidBlockSize)))
    ∧ (readBlockSize < 1 → path ++ firstName = [] →
      SwapTwoFiles sched fs ft path firstName secondName readBlockSize writeBlockSize
        = (fs, Outcome.returned (some GoError.ErrInvalidFileName))) := by
  have hname : ∀ n : GoString, n = [] →
      NewFileReader fs ft n readBlockSize = Except.error GoError.ErrInvalidFileName := by
    intro n hn
    simp [NewFileReader, hn]
  have hsize : ∀ n : GoString, n ≠ [] → readBlockSize < 1 →
      NewFileReader fs ft n readBlockSize = Except.error GoError.ErrInvalidBlockSize := by
    intro n hn hr
    have : ¬ n.length = 0 := by
      intro h0
      exact hn (List.length_eq_zero.mp h0)
    simp [NewFileReader, this, hr]
  refine ⟨hname fileName, hsize fileName, ?_, ?_⟩
  · intro hr hne
    simp only [SwapTwoFiles, SwapTwoFiles.start, hsize _ hne hr]
  · intro _ he
    simp only [SwapTwoFiles, SwapTwoFiles.start, hname _ he]

/-- Witness of `NewFileReader_rejects`. -/
theorem NewFileReader_rejects_witness :
    NewFileReader (twoFiles [1] [2]) noFaults [] 64 = Except.error GoError.ErrInvalidFileName
    ∧ NewFileReader (twoFiles [1] [2]) noFaults (ascii "a") 0
        = Except.error GoError.ErrInvalidBlockSize
    ∧ SwapTwoFiles (roundRobin 9) (twoFiles [1] [2]) noFaults [] (ascii "a") (ascii "b") 0 1
        = (twoFiles [1] [2], Outcome.returned (some GoError.ErrInvalidBlockSize))
    ∧ SwapTwoFiles (roundRobin 9) (twoFiles [1] [2]) noFaults [] [] (ascii "b") (-3) 1
        = (twoFiles [1] [2], Outcome.returned (some GoError.ErrInvalidFileName)) :=
  ⟨(NewFileReader_rejects [] (twoFiles [1] [2]) noFaults [] [] [] [] 64 1).1 rfl,
   (NewFileReader_rejects [] (twoFiles [1] [2]) noFaults (ascii "a") [] [] [] 0 1).2.1
      (by decide) (by decide),
   (NewFileReader_rejects (roundRobin 9) (twoFiles [1] [2]) noFaults [] [] (ascii "a")
      (ascii "b") 0 1).2.2.1 (by decide) (by decide),
   (NewFileReader_rejects (roundRobin 9) (twoFiles [1] [2]) noFaults [] [] []
      (ascii "b") (-3) 1).2.2.2 (by decide) (by decide)⟩

/-! ## C7, C9 -/

/-- C7, evaluated at a failing input: For the listing `-9.log`, `-10.log`, `5.log` with
negative names allowed the code returns `-9.log` as the minimum, although `-10.log` has the
smaller value: between two negative names the code replaces the minimum only if the new name is
also bytewise greater, which a longer name need not be. -/
theorem GetFileNames_negative_min_wrong :
    GetFileNamesWithMinMaxNameNum
        (Except.ok [regular "-9.log", regular "-10.log", regular "5.log"]) true
      = (ascii "-9.log", ascii "5.log", none) := by
  decide

/-- C9, evaluated at a failing input: Two names match the pattern of the mode (`-10.log` and
`-9.log`, negative names allowed), yet the code returns `ErrNotEnoughFiles`: neither name
replaces the other as minimum or maximum, so both stay equal to the first name. -/
theorem GetFileNames_two_negative_not_enough :
    numsRegMatch true (ascii "-10.log") = true ∧ numsRegMatch true (ascii "-9.log") = true
    ∧ GetFileNamesWithMinMaxNameNum (Except.ok [regular "-10.log", regular "-9.log"]) true
        = ([], [], some GoError.ErrNotEnoughFiles)
    ∧ GetFileNamesWithMinMaxNameNum (Except.ok [regular "-9.log", regular "-10.log"]) true
        = ([], [], some GoError.ErrNotEnoughFiles) := by
  decide

/-! ## Decimal names -/

theorem decValue_foldl (d : GoString) (acc : Nat) :
    d.foldl (fun acc b => 10 * acc + (b.val - 48)) acc
      = acc * 10 ^ d.length + decValue d := by
  induction d generalizing acc with
  | nil => simp [decValue]
  | cons a t ih =>
    simp only [List.foldl_cons, List.length_cons, decValue]
    rw [ih, ih (10 * 0 + (a.val - 48))]
    ring

theorem decValue_cons (a : Byte) (t : GoString) :
    decValue (a :: t) = (a.val - 48) * 10 ^ t.length + decValue t := by
  show List.foldl (fun acc b => 10 * acc + (b.val - 48)) (10 * 0 + (a.val - 48)) t = _
  rw [decValue_foldl]
  simp

theorem decValue_lt (d : GoString) (hd : ∀ b ∈ d, isDigit b = true) :
    decValue d < 10 ^ d.length := by
  induction d with
  | nil => simp [decValue]
  | cons a t ih =>
    rw [decValue_cons]
    have h1 := ih (fun b hb => hd b (List.mem_cons_of_mem _ hb))
    have h2 : isDigit a = true := hd a (List.mem_cons_self _ _)
    simp only [isDigit, decide_eq_true_eq] at h2
    have h3 : a.val - 48 ≤ 9 := by omega
    have h4 : (a.val - 48) * 10 ^ t.length ≤ 9 * 10 ^ t.length := Nat.mul_le_mul_right _ h3
    simp only [List.length_cons, pow_succ]
    omega

theorem strLt_irrefl (a : GoString) : strLt a a = false := by
  induction a with
  | nil => rfl
  | cons x t ih => simp [strLt, ih]

theorem strLt_total (a b : GoString) (hlen : a.length = b.length)
    (h1 : strLt a b = false) (h2 : strLt b a = false) : a = b := by
  induction a generalizing b with
  | nil =>
    cases b with
    | nil => rfl
    | cons y u => simp at hlen
  | cons x t ih =>
    cases b with
    | nil => simp at hlen
    | cons y u =>
      simp only [strLt] at h1 h2
      by_cases hxy : x < y
      · simp [hxy] at h1
      · by_cases hyx : y < x
        · simp [hyx] at h2
        · simp only [hxy, hyx, if_false] at h1 h2
          have : x = y := le_antisymm (not_lt.mp hyx) (not_lt.mp hxy)
          subst this
          rw [ih u (by simpa using hlen) h1 h2]

theorem strLt_append (a b s : GoString) (hlen : a.length = b.length) :
    strLt (a ++ s) (b ++ s) = strLt a b := by
  induction a generalizing b with
  | nil =>
    cases b with
    | nil => simp [strLt, strLt_irrefl]
    | cons y u => simp at hlen
  | cons x t ih =>
    cases b with
    | nil => simp at hlen
    | cons y u =>
      have := ih u (by simpa using hlen)
      show strLt (x :: (t ++ s)) (y :: (u ++ s)) = strLt (x :: t) (y :: u)
      simp only [strLt, this]

/-- On digit strings of equal length the bytewise order is the numeric order. -/
theorem strLt_iff_decValue (a b : GoString) (hlen : a.length = b.length)
    (ha : ∀ x ∈ a, isDigit x = true) (hb : ∀ x ∈ b, isDigit x = true) :
    strLt a b = true ↔ decValue a < decValue b := by
  induction a generalizing b with
  | nil =>
    cases b with
    | nil => simp [strLt, decValue]
    | cons y u => simp at hlen
  | cons x t ih =>
    cases b with
    | nil => simp at hlen
    | cons y u =>
      have hl : t.length = u.length := by simpa using hlen
      have hx : isDigit x = true := ha x (List.mem_cons_self _ _)
      have hy : isDigit y = true := hb y (List.mem_cons_self _ _)
      simp only [isDigit, decide_eq_true_eq] at hx hy
      have ht := decValue_lt t (fun b hb' => ha b (List.mem_cons_of_mem _ hb'))
      have hu := decValue_lt u (fun b hb' => hb b (List.mem_cons_of_mem _ hb'))
      have hih := ih u hl (fun b hb' => ha b (List.mem_cons_of_mem _ hb'))
        (fun b hb' => hb b (List.mem_cons_of_mem _ hb'))
      rw [decValue_cons, decValue_cons, hl]
      rw [hl] at ht
      simp only [strLt]
      by_cases hxy : x < y
      · have hv : x.val + 1 ≤ y.val := hxy
        have : (x.val - 48 + 1) * 10 ^ u.length ≤ (y.val - 48) * 10 ^ u.length :=
          Nat.mul_le_mul_right _ (by omega)
        rw [Nat.add_mul] at this
        simp only [hxy, if_true, true_iff]
        omega
      · by_cases hyx : y < x
        · have hv : y.val + 1 ≤ x.val := hyx
          have : (y.val - 48 + 1) * 10 ^ u.length ≤ (x.val - 48) * 10 ^ u.length :=
            Nat.mul_le_mul_right _ (by omega)
          rw [Nat.add_mul] at this
          simp only [hxy, hyx, if_false]
          constructor
          · intro h; exact absurd h (by simp)
          · intro h; omega
        · have : x = y := le_antisymm (not_lt.mp hyx) (not_lt.mp hxy)
          subst this
          simp only [hxy, if_false, hih]
          omega

/-- A number without leading zeros of at least two digits is at least `10 ^ (digits - 1)`. -/
theorem decValue_ge (d : GoString) (hd : isCanonicalDec d) (hlen : 2 ≤ d.length) :
    10 ^ (d.length - 1) ≤ decValue d := by
  obtain ⟨hne, hdig, hlead⟩ := hd
  cases d with
  | nil => exact absurd rfl hne
  | cons a t =>
    rw [decValue_cons]
    have ha : isDigit a = true := hdig a (List.mem_cons_self _ _)
    simp only [isDigit, decide_eq_true_eq] at ha
    have h0 : a ≠ 48 := by
      rcases hlead with h | h
      · simp at h; simp [h] at hlen
      · simpa using h
    have h1 : 1 ≤ a.val - 48 := by
      have : a.val ≠ 48 := fun h => h0 (Fin.ext h)
      omega
    have := Nat.mul_le_mul_right (10 ^ t.length) h1
    simp only [List.length_cons, Nat.add_sub_cancel]
    omega

/-- Numbers without leading zeros: fewer digits, smaller value. -/
theorem decValue_lt_of_length_lt (a b : GoString) (ha : isCanonicalDec a)
    (hb : isCanonicalDec b) (hlen : a.length < b.length) : decValue a < decValue b := by
  have h1 := decValue_lt a ha.2.1
  have hal : 1 ≤ a.length := by
    cases a with
    | nil => exact absurd rfl ha.1
    | cons _ _ => simp
  have h2 := decValue_ge b hb (by omega)
  have h3 : 10 ^ a.length ≤ 10 ^ (b.length - 1) :=
    Nat.pow_le_pow_right (by decide) (by omega)
  omega

theorem logValue_decLog (d : GoString) : logValue (d ++ ascii ".log") = decValue d := by
  have : (ascii ".log").length = 4 := by decide
  simp [logValue, this]

/-- On names `<n>.log` the comparison of the code is the numeric comparison. -/
theorem shortLexLt_iff (x y : GoString) (hx : isDecLog x) (hy : isDecLog y) :
    shortLexLt x y = true ↔ logValue x < logValue y := by
  obtain ⟨a, ha, rfl⟩ := hx
  obtain ⟨b, hb, rfl⟩ := hy
  rw [logValue_decLog, logValue_decLog]
  simp only [shortLexLt, List.length_append, Bool.or_eq_true, decide_eq_true_eq,
    Bool.and_eq_true, Nat.add_right_cancel_iff, add_lt_add_iff_right]
  rcases Nat.lt_trichotomy a.length b.length with h | h | h
  · have := decValue_lt_of_length_lt a b ha hb h
    constructor
    · intro _; exact this
    · intro _; exact Or.inl h
  · rw [strLt_append a b _ h, strLt_iff_decValue a b h ha.2.1 hb.2.1]
    constructor
    · rintro (h' | ⟨_, h'⟩)
      · omega
      · exact h'
    · intro h'; exact Or.inr ⟨h, h'⟩
  · have := decValue_lt_of_length_lt b a hb ha h
    constructor
    · rintro (h' | ⟨h', _⟩) <;> omega
    · intro h'; omega

theorem shortLexLt_total (x y : GoString) (h1 : shortLexLt x y = false)
    (h2 : shortLexLt y x = false) : x = y := by
  simp only [shortLexLt, Bool.or_eq_false_iff, decide_eq_false_iff_not, Bool.and_eq_false_iff,
    not_lt] at h1 h2
  have hl : x.length = y.length := by omega
  refine strLt_total x y hl ?_ ?_
  · rcases h1.2 with h | h
    · exact absurd hl h
    · exact h
  · rcases h2.2 with h | h
    · exact absurd hl.symm h
    · exact h

/-- Distinct names `<n>.log` have distinct numbers. -/
theorem logValue_injective (x y : GoString) (hx : isDecLog x) (hy : isDecLog y)
    (h : logValue x = logValue y) : x = y := by
  apply shortLexLt_total
  · cases hc : shortLexLt x y
    · rfl
    · have := (shortLexLt_iff x y hx hy).1 hc; omega
  · cases hc : shortLexLt y x
    · rfl
    · have := (shortLexLt_iff y x hy hx).1 hc; omega

/-! ## The scan without negative names -/

theorem matchDigitsAnyLog_decLog (d : GoString) (hd : isCanonicalDec d) :
    matchDigitsAnyLog (d ++ ascii ".log") = true := by
  have hl : (ascii ".log").length = 4 := by decide
  have hne : 1 ≤ d.length := by
    cases d with
    | nil => exact absurd rfl hd.1
    | cons _ _ => simp
  have hall : d.all isDigit = true := by
    rw [List.all_eq_true]
    exact hd.2.1
  simp only [matchDigitsAnyLog, List.any_cons, Bool.or_eq_true]
  left
  have e1 : (d ++ ascii ".log").length - 3 - 1 = d.length := by
    simp [hl]
  rw [e1]
  have e2 : (d ++ ascii ".log").take d.length = d := by simp
  have e3 : (d ++ ascii ".log").drop d.length = ascii ".log" := by simp
  have e4 : (d ++ ascii ".log").drop (d.length + 1) = ascii "log" := by
    rw [← List.drop_drop, e3]
    decide
  rw [e2, e3, e4, hall]
  have h5 : 1 + 4 ≤ (d ++ ascii ".log").length := by simp [hl]; omega
  have h6 : isRuneNotNL ((ascii ".log").take 1) = true := by decide
  simp only [List.length_append, hl] at h5
  simp [h6, hl]
  omega

theorem numsRegMatch_decLog (name : GoString) (h : isDecLog name) :
    numsRegMatch false name = true := by
  obtain ⟨d, hd, rfl⟩ := h
  simp [numsRegMatch, matchDigitsAnyLog_decLog d hd]

theorem matchDigitsAnyLog_head (body : GoString) (h : matchDigitsAnyLog body = true) :
    ∃ a t, body = a :: t ∧ isDigit a = true := by
  simp only [matchDigitsAnyLog, List.any_eq_true] at h
  obtain ⟨k, hk, hm⟩ := h
  simp only [Bool.and_eq_true, decide_eq_true_eq, List.all_eq_true] at hm
  obtain ⟨⟨⟨hlen, hdig⟩, _⟩, _⟩ := hm
  cases body with
  | nil => simp at hlen
  | cons a t =>
    refine ⟨a, t, rfl, hdig a ?_⟩
    have : (a :: t).length - 3 - k = (t.length - 3 - k) + 1 := by
      simp only [List.length_cons] at hlen ⊢
      omega
    rw [this]
    simp

theorem numsRegMatch_dash (name : GoString) (h : headIs name 45 = true) :
    numsRegMatch false name = false := by
  cases hm : numsRegMatch false name
  · rfl
  · simp only [numsRegMatch, Bool.false_eq_true, if_false] at hm
    obtain ⟨a, t, rfl, ha⟩ := matchDigitsAnyLog_head name hm
    simp only [headIs, List.head?_cons, Option.some.injEq, decide_eq_true_eq] at h
    subst h
    exact absurd ha (by decide)

theorem scanFile_skip (st : GoString × GoString) (f : FileInfo) (h : ¬ countsPlain f) :
    scanFile false st f = st := by
  unfold scanFile
  by_cases hd : f.isDir = true
  · simp [hd]
  · have hd' : f.isDir = false := by simpa using hd
    have hm : numsRegMatch false f.name = false := by
      cases hc : numsRegMatch false f.name
      · rfl
      · exact absurd ⟨hd', hc⟩ h
    simp [hd', hm]

theorem scanFile_counts (st : GoString × GoString) (f : FileInfo) (h : countsPlain f) :
    scanFile false st f =
      if shortLexLt f.name (if st.1 = [] ∨ st.2 = [] then f.name else st.1) = true then
        (f.name, if st.1 = [] ∨ st.2 = [] then f.name else st.2)
      else if shortLexLt (if st.1 = [] ∨ st.2 = [] then f.name else st.2) f.name = true then
        (if st.1 = [] ∨ st.2 = [] then f.name else st.1, f.name)
      else (if st.1 = [] ∨ st.2 = [] then f.name else st.1,
            if st.1 = [] ∨ st.2 = [] then f.name else st.2) := by
  unfold scanFile shortLexLt
  have e : ∀ a b : Nat, decide (a = b) = decide (b = a) := fun a b => by
    simp only [eq_comm]
  simp only [h.1, h.2, Bool.false_eq_true, if_false, Bool.not_true, gt_iff_lt, e f.name.length]

theorem isDecLog_ne_nil (name : GoString) (h : isDecLog name) : name ≠ [] := by
  obtain ⟨d, hd, rfl⟩ := h
  intro hnil
  have := congrArg List.length hnil
  simp at this
  exact hd.1 this.1

theorem shortLexLt_irrefl (x : GoString) : shortLexLt x x = false := by
  simp [shortLexLt, strLt_irrefl]

theorem scanInv_step (seen : List FileInfo) (st : GoString × GoString) (f : FileInfo)
    (hform : ∀ m ∈ seen ++ [f], countsPlain m → isDecLog m.name)
    (h : ScanInv seen st) : ScanInv (seen ++ [f]) (scanFile false st f) := by
  by_cases hf : countsPlain f
  · have hfd : isDecLog f.name := hform f (by simp) hf
    rw [scanFile_counts st f hf]
    rcases h with ⟨rfl, hnone⟩ | ⟨⟨a, ha, hac, hae⟩, ⟨b, hb, hbc, hbe⟩, hbd⟩
    · simp only [true_or, if_true, shortLexLt_irrefl, Bool.false_eq_true, if_false]
      right
      refine ⟨⟨f, by simp, hf, rfl⟩, ⟨f, by simp, hf, rfl⟩, ?_⟩
      intro m hm hmc
      rcases List.mem_append.1 hm with hm | hm
      · exact absurd hmc (hnone m hm)
      · simp only [List.mem_singleton] at hm
        subst hm
        exact ⟨le_refl _, le_refl _⟩
    · have had : isDecLog st.1 := hae ▸ hform a (by simp [ha]) hac
      have hbd' : isDecLog st.2 := hbe ▸ hform b (by simp [hb]) hbc
      have hne : ¬ (st.1 = [] ∨ st.2 = []) := by
        rintro (h | h)
        · exact isDecLog_ne_nil _ had h
        · exact isDecLog_ne_nil _ hbd' h
      simp only [hne, if_false]
      have hab := hbd a ha hac
      rw [hae] at hab
      right
      by_cases h1 : shortLexLt f.name st.1 = true
      · have h1' := (shortLexLt_iff _ _ hfd had).1 h1
        simp only [h1, if_true]
        refine ⟨⟨f, by simp, hf, rfl⟩, ⟨b, by simp [hb], hbc, hbe⟩, ?_⟩
        intro m hm hmc
        rcases List.mem_append.1 hm with hm | hm
        · have := hbd m hm hmc
          exact ⟨by omega, this.2⟩
        · simp only [List.mem_singleton] at hm
          subst hm
          exact ⟨le_refl _, by omega⟩
      · have h1' : ¬ logValue f.name < logValue st.1 :=
          fun h => h1 ((shortLexLt_iff _ _ hfd had).2 h)
        have h1f : shortLexLt f.name st.1 = false := by simpa using h1
        simp only [h1f, Bool.false_eq_true, if_false]
        by_cases h2 : shortLexLt st.2 f.name = true
        · have h2' := (shortLexLt_iff _ _ hbd' hfd).1 h2
          simp only [h2, if_true]
          refine ⟨⟨a, by simp [ha], hac, hae⟩, ⟨f, by simp, hf, rfl⟩, ?_⟩
          intro m hm hmc
          rcases List.mem_append.1 hm with hm | hm
          · have := hbd m hm hmc
            exact ⟨this.1, by omega⟩
          · simp only [List.mem_singleton] at hm
            subst hm
            exact ⟨by omega, le_refl _⟩
        · have h2' : ¬ logValue st.2 < logValue f.name :=
            fun h => h2 ((shortLexLt_iff _ _ hbd' hfd).2 h)
          have h2f : shortLexLt st.2 f.name = false := by simpa using h2
          simp only [h2f, Bool.false_eq_true, if_false]
          refine ⟨⟨a, by simp [ha], hac, hae⟩, ⟨b, by simp [hb], hbc, hbe⟩, ?_⟩
          intro m hm hmc
          rcases List.mem_append.1 hm with hm | hm
          · exact hbd m hm hmc
          · simp only [List.mem_singleton] at hm
            subst hm
            exact ⟨by omega, by omega⟩
  · rw [scanFile_skip st f hf]
    rcases h with ⟨rfl, hnone⟩ | ⟨⟨a, ha, hac, hae⟩, ⟨b, hb, hbc, hbe⟩, hbd⟩
    · left
      refine ⟨rfl, ?_⟩
      intro m hm
      rcases List.mem_append.1 hm with hm | hm
      · exact hnone m hm
      · simp only [List.mem_singleton] at hm
        subst hm
        exact hf
    · right
      refine ⟨⟨a, by simp [ha], hac, hae⟩, ⟨b, by simp [hb], hbc, hbe⟩, ?_⟩
      intro m hm hmc
      rcases List.mem_append.1 hm with hm | hm
      · exact hbd m hm hmc
      · simp only [List.mem_singleton] at hm
        subst hm
        exact absurd hmc hf

theorem scanInv_foldl (l : List FileInfo) :
    ∀ (seen : List FileInfo) (st : GoString × GoString),
      (∀ m ∈ seen ++ l, countsPlain m → isDecLog m.name) → ScanInv seen st →
      ScanInv (seen ++ l) (l.foldl (scanFile false) st) := by
  induction l with
  | nil => intro seen st _ h; simpa using h
  | cons f t ih =>
    intro seen st hform h
    have h1 := scanInv_step seen st f (fun m hm => hform m (by
      rcases List.mem_append.1 hm with hm | hm
      · simp [hm]
      · simp only [List.mem_singleton] at hm
        simp [hm])) h
    have h2 := ih (seen ++ [f]) (scanFile false st f) (by simpa using hform) h1
    simpa using h2

theorem foldl_filter_skip {α β : Type} (step : β → α → β) (p : α → Bool) (l : List α)
    (hskip : ∀ st a, p a = false → step st a = st) :
    ∀ st, (l.filter p).foldl step st = l.foldl step st := by
  induction l with
  | nil => intro st; rfl
  | cons a t ih =>
    intro st
    cases hp : p a
    · simp [List.filter, hp, hskip st a hp, ih]
    · simp [List.filter, hp, ih]

/-- C8, as stated, fails: The listing holds two names of the form `<n>.log` (5 and 6) and
the name `0001.log`, which matches the pattern too; the code compares lengths first and returns
`0001.log` as the maximum, not `6.log`. -/
theorem GetFileNames_plain_counterexample :
    GetFileNamesWithMinMaxNameNum
        (Except.ok [regular "5.log", regular "6.log", regular "0001.log"]) false
      = (ascii "5.log", ascii "0001.log", none)
    ∧ (GetFileNamesWithMinMaxNameNum
        (Except.ok [regular "5.log", regular "6.log", regular "0001.log"]) false).2.1
      ≠ ascii "6.log" := by
  decide

/-- C8, amended: Without negative names, in every listing directories and names that begin
with `-` are ignored (dropping them from the listing changes nothing); and for every listing, in
every order, in which each regular file whose name matches the pattern is named `<n>.log` with `n`
a decimal number without superfluous leading zeros: when two different such names are present,
the code returns no error, `minName` is a listed name `<n>.log` with the smallest number and
`maxName` one with the largest number. Numbers are unbounded naturals. -/
theorem GetFileNames_plain_minmax (fileInfo : List FileInfo) :
    GetFileNamesWithMinMaxNameNum (Except.ok fileInfo) false
        = GetFileNamesWithMinMaxNameNum
            (Except.ok (fileInfo.filter fun m => !m.isDir && !headIs m.name 45)) false
    ∧ ∀ f g : FileInfo, (∀ m ∈ fileInfo, countsPlain m → isDecLog m.name) →
        f ∈ fileInfo → g ∈ fileInfo → f.isDir = false → g.isDir = false →
        isDecLog f.name → isDecLog g.name → f.name ≠ g.name →
        ∃ a ∈ fileInfo, ∃ b ∈ fileInfo,
          a.isDir = false ∧ b.isDir = false ∧ isDecLog a.name ∧ isDecLog b.name
          ∧ GetFileNamesWithMinMaxNameNum (Except.ok fileInfo) false = (a.name, b.name, none)
          ∧ ∀ m ∈ fileInfo, m.isDir = false → isDecLog m.name →
              logValue a.name ≤ logValue m.name ∧ logValue m.name ≤ logValue b.name := by
  constructor
  · simp only [GetFileNamesWithMinMaxNameNum]
    rw [foldl_filter_skip (scanFile false) (fun m => !m.isDir && !headIs m.name 45) fileInfo]
    intro st m hm
    apply scanFile_skip
    rintro ⟨hd, hmatch⟩
    simp only [hd, Bool.not_false, Bool.true_and, Bool.not_eq_false'] at hm
    rw [numsRegMatch_dash m.name hm] at hmatch
    exact absurd hmatch (by simp)
  · intro f g hform hf hg hfr hgr hfd hgd hne
    have hinv := scanInv_foldl fileInfo [] ([], []) (by simpa using hform)
      (Or.inl ⟨rfl, by simp⟩)
    simp only [List.nil_append] at hinv
    have hfc : countsPlain f := ⟨hfr, numsRegMatch_decLog _ hfd⟩
    have hgc : countsPlain g := ⟨hgr, numsRegMatch_decLog _ hgd⟩
    rcases hinv with ⟨_, hnone⟩ | ⟨⟨a, ha, hac, hae⟩, ⟨b, hb, hbc, hbe⟩, hbd⟩
    · exact absurd hfc (hnone f hf)
    · have had : isDecLog a.name := hform a ha hac
      have hbd' : isDecLog b.name := hform b hb hbc
      refine ⟨a, ha, b, hb, hac.1, hbc.1, had, hbd', ?_, ?_⟩
      · simp only [GetFileNamesWithMinMaxNameNum]
        rw [← hae, ← hbe]
        have h1 : ¬ (a.name = [] ∨ b.name = []) := by
          rintro (h | h)
          · exact isDecLog_ne_nil _ had h
          · exact isDecLog_ne_nil _ hbd' h
        have h2 : a.name ≠ b.name := by
          intro hab
          have hF := hbd f hf hfc
          have hG := hbd g hg hgc
          rw [← hae, ← hbe, hab] at hF hG
          exact hne (logValue_injective _ _ hfd hgd (by omega))
        simp [h1, h2]
      · intro m hm hmr hmd
        have := hbd m hm ⟨hmr, numsRegMatch_decLog _ hmd⟩
        rw [← hae, ← hbe] at this
        exact this

theorem isDecLog_intro (d : String) (h1 : ascii d ≠ [])
    (h2 : ∀ b ∈ ascii d, isDigit b = true)
    (h3 : (ascii d).length = 1 ∨ (ascii d).head? ≠ some 48) :
    isDecLog (ascii d ++ ascii ".log") :=
  ⟨ascii d, ⟨h1, h2, h3⟩, rfl⟩

set_option maxRecDepth 100000 in
/-- Witness of `GetFileNames_plain_minmax` on `sampleListing`. -/
theorem GetFileNames_plain_minmax_witness :
    GetFileNamesWithMinMaxNameNum (Except.ok sampleListing) false
        = GetFileNamesWithMinMaxNameNum
            (Except.ok (sampleListing.filter fun m => !m.isDir && !headIs m.name 45)) false
    ∧ ∃ a ∈ sampleListing, ∃ b ∈ sampleListing,
        a.isDir = false ∧ b.isDir = false ∧ isDecLog a.name ∧ isDecLog b.name
        ∧ GetFileNamesWithMinMaxNameNum (Except.ok sampleListing) false = (a.name, b.name, none)
        ∧ ∀ m ∈ sampleListing, m.isDir = false → isDecLog m.name →
            logValue a.name ≤ logValue m.name ∧ logValue m.name ≤ logValue b.name :=
  ⟨(GetFileNames_plain_minmax sampleListing).1,
   (GetFileNames_plain_minmax sampleListing).2 (regular "5.log")
    (regular "12345678901011121314151617181919.log")
    (by
      intro m hm hc
      simp only [sampleListing, List.mem_cons, List.mem_singleton, List.not_mem_nil,
        or_false] at hm
      rcases hm with rfl | rfl | rfl | rfl | rfl
      · exact isDecLog_intro "12345678901011121314151617181920" (by decide) (by decide)
          (by decide)
      · exact absurd hc.1 (by decide)
      · exact absurd hc.2 (by decide)
      · exact isDecLog_intro "5" (by decide) (by decide) (by decide)
      · exact isDecLog_intro "12345678901011121314151617181919" (by decide) (by decide)
          (by decide))
    (by decide) (by decide) rfl rfl
    (isDecLog_intro "5" (by decide) (by decide) (by decide))
    (isDecLog_intro "12345678901011121314151617181919" (by decide) (by decide) (by decide))
    (by decide)⟩

set_option maxRecDepth 100000 in
/-- The result on `sampleListing`. -/
theorem GetFileNames_sample :
    GetFileNamesWithMinMaxNameNum (Except.ok sampleListing) false
      = (ascii "5.log", ascii "12345678901011121314151617181920.log", none) := by
  decide

/-! ## The sinks on their own -/

theorem sysWrite_ok (W : World) (dst : GoString) (data : List Byte) (off : Nat)
    (hplan : W.faults.writes dst = []) :
    W.sysWrite dst data off
      = ({ W with fs := W.fs.store dst (writeAt (W.fs.content dst) data off)
                  log := W.log ++ [{ dst := dst, off := off, data := data }] }, none) := by
  have : nextOutcome W.faults.writes dst = (none, W.faults.writes) := by
    simp [nextOutcome, hplan]
  simp [World.sysWrite, this]

/-- A byte that does not complete the block is stored. -/
theorem Sink.settle_store (k : Sink) (W : World) (ch : Byte)
    (herr : W.errCh = none) (hp : W.panicked = false)
    (hlt : k.currSymbol < k.buf.length)
    (hw : (k.currSymbol : Int) + 1 ≠ k.writeBlockSize) :
    Sink.settle false 4 (k.deliver ch) W
      = ({ k with buf := k.buf.set k.currSymbol ch, currSymbol := k.currSymbol + 1,
                  pc := SinkPc.recv }, W) := by
  simp [Sink.settle, Sink.step, Sink.deliver, herr, hp, hlt, hw]

/-- A byte that completes the block is stored and the block is written. -/
theorem Sink.settle_write (k : Sink) (W : World) (ch : Byte)
    (herr : W.errCh = none) (hp : W.panicked = false)
    (hlt : k.currSymbol < k.buf.length)
    (hw : (k.currSymbol : Int) + 1 = k.writeBlockSize)
    (hplan : W.faults.writes k.dstFile = []) :
    Sink.settle false 4 (k.deliver ch) W
      = ({ k with buf := k.buf.set k.currSymbol ch
                  chIndex := k.chIndex + k.writeBlockSize.toNat
                  currSymbol := 0
                  pc := SinkPc.recv },
         (W.sysWrite k.dstFile (k.buf.set k.currSymbol ch) k.chIndex).1) := by
  simp [Sink.settle, Sink.step, Sink.deliver, herr, hp, hlt, hw, sysWrite_ok, hplan]

/-- Close of the stream with an empty block: the sink signals completion and returns. -/
theorem Sink.settle_close_empty (k : Sink) (W : World) (hpc : k.pc = SinkPc.recv)
    (hp : W.panicked = false) (hj : k.currSymbol = 0) :
    Sink.settle true 3 k W = ({ k with pc := SinkPc.returned }, W.recordDone) := by
  simp [Sink.settle, Sink.step, hpc, hp, hj]

/-- Close of the stream with a short block: it is written, then the sink signals completion and
returns. -/
theorem Sink.settle_close_short (k : Sink) (W : World) (hpc : k.pc = SinkPc.recv)
    (hp : W.panicked = false) (hj : 0 < k.currSymbol)
    (hw : (k.currSymbol : Int) < k.writeBlockSize)
    (hplan : W.faults.writes k.dstFile = []) :
    Sink.settle true 3 k W
      = ({ k with chIndex := k.chIndex + k.currSymbol, pc := SinkPc.returned },
         (W.sysWrite k.dstFile (k.buf.take k.currSymbol) k.chIndex).1.recordDone) := by
  simp [Sink.settle, Sink.step, hpc, hp, hj, hw, sysWrite_ok, hplan]

theorem writeAt_inside (X data : List Byte) (c : Nat) (hc : c ≤ X.length) :
    writeAt X data c = X.take c ++ data ++ X.drop (c + data.length) := by
  simp [writeAt, Nat.sub_eq_zero_of_le hc]

theorem ceilDiv_add (w m : Nat) (hw : 1 ≤ w) : (w + m + w - 1) / w = (m + w - 1) / w + 1 := by
  have : w + m + w - 1 = (m + w - 1) + w := by omega
  rw [this, Nat.add_div_right _ (by omega)]

theorem ceilDiv_small (w j : Nat) (h0 : 0 < j) (hj : j ≤ w) : (j + w - 1) / w = 1 := by
  have h1 : j + w - 1 = (j - 1) + w := by omega
  rw [h1, Nat.add_div_right _ (by omega), Nat.div_eq_of_lt (by omega)]

theorem take_set_succ {α : Type} (l : List α) (j : Nat) (b : α) (h : j < l.length) :
    (l.set j b).take (j + 1) = l.take j ++ [b] := by
  induction l generalizing j with
  | nil => simp at h
  | cons a t ih =>
    cases j with
    | zero => simp
    | succ j =>
      simp only [List.length_cons, Nat.add_lt_add_iff_right] at h
      simp [ih j h]

theorem set_last {α : Type} (l : List α) (j : Nat) (b : α) (h : l.length = j + 1) :
    l.set j b = l.take j ++ [b] := by
  rw [← take_set_succ l j b (by omega), List.take_of_length_le (by simp [h])]

@[simp] theorem FS.content_store_same (fs : FS) (p : GoString) (c : List Byte) :
    (fs.store p c).content p = c := by
  simp [FS.content, FS.store]

theorem FS.store_other (fs : FS) (p q : GoString) (c : List Byte) (h : q ≠ p) :
    (fs.store p c) q = fs q := by
  simp [FS.store, h]

theorem FS.content_store_other (fs : FS) (p q : GoString) (c : List Byte) (h : q ≠ p) :
    (fs.store p c).content q = fs.content q := by
  simp [FS.content, FS.store, h]

theorem blockWrites_nil (dst : GoString) (w c : Nat) (hw : 1 ≤ w) :
    blockWrites dst w c [] = [] := by
  have hd : (w - 1) / w = 0 := Nat.div_eq_of_lt (by omega)
  simp [blockWrites, hd]

theorem blockWrites_short (dst : GoString) (w c : Nat) (data : List Byte)
    (h0 : 0 < data.length) (h1 : data.length ≤ w) :
    blockWrites dst w c data = [WriteCall.mk dst c data] := by
  have hd : (data.length + w - 1) / w = 1 := ceilDiv_small w data.length h0 h1
  have hr : List.range 1 = [0] := rfl
  simp [blockWrites, hd, hr, List.take_of_length_le h1]

theorem blockWrites_full (dst : GoString) (w c : Nat) (block rest : List Byte) (hw : 1 ≤ w)
    (hb : block.length = w) :
    blockWrites dst w c (block ++ rest)
      = WriteCall.mk dst c block :: blockWrites dst w (c + w) rest := by
  have hl : (block ++ rest).length = w + rest.length := by simp [hb]
  simp only [blockWrites]
  rw [hl, ceilDiv_add w rest.length hw, List.range_succ_eq_map, List.map_cons, List.map_map]
  congr 1
  · simp only [Nat.zero_mul, Nat.add_zero, List.drop_zero]
    rw [List.take_append_of_le_length (by omega), List.take_of_length_le (by omega)]
  · apply List.map_congr_left
    intro i _
    simp only [Function.comp, Nat.succ_eq_add_one]
    have e1 : c + (i + 1) * w = c + w + i * w := by ring
    have e2 : (i + 1) * w = block.length + i * w := by rw [hb]; ring
    rw [e1, e2, List.drop_append]

theorem overlay_step (X block rest : List Byte) (c : Nat) (hc : c ≤ X.length) :
    List.take (c + block.length) (X.take c ++ block ++ X.drop (c + block.length)) ++ rest
        ++ List.drop (c + block.length + rest.length)
            (X.take c ++ block ++ X.drop (c + block.length))
      = X.take c ++ (block ++ rest) ++ X.drop (c + (block ++ rest).length) := by
  have hl : (X.take c ++ block).length = c + block.length := by
    simp [List.length_take, Nat.min_eq_left hc]
  have t1 : List.take (c + block.length) (X.take c ++ block ++ X.drop (c + block.length))
      = X.take c ++ block := by
    rw [List.take_append_of_le_length (by omega), List.take_of_length_le (by omega)]
  have t2 : List.drop (c + block.length + rest.length)
      (X.take c ++ block ++ X.drop (c + block.length))
      = X.drop (c + (block ++ rest).length) := by
    rw [show c + block.length + rest.length = (X.take c ++ block).length + rest.length by omega,
      List.drop_append, List.drop_drop, List.length_append]
    congr 1
    omega
  rw [t1, t2]
  simp

/-- Run of the buffered sink from a waiting state, when nothing fails: with `data` the bytes in
the buffer followed by the bytes still to come, the writes issued are the blocks of `data`, at
consecutive multiples of the block size after `chIndex`. -/
theorem Sink.feed_spec (w : Nat) (hw : 1 ≤ w) :
    ∀ (rest : List Byte) (k : Sink) (W : World),
      k.pc = SinkPc.recv → k.writeBlockSize = (w : Int) → k.buf.length = w →
      k.currSymbol < w → k.chIndex ≤ (W.fs.content k.dstFile).length →
      W.errCh = none → W.panicked = false → W.faults.writes k.dstFile = [] →
      (Sink.feed rest k W).1.pc = SinkPc.returned
      ∧ (Sink.feed rest k W).2.log
          = W.log ++ blockWrites k.dstFile w k.chIndex (k.buf.take k.currSymbol ++ rest)
      ∧ (Sink.feed rest k W).2.fs.content k.dstFile
          = (W.fs.content k.dstFile).take k.chIndex ++ (k.buf.take k.currSymbol ++ rest)
              ++ (W.fs.content k.dstFile).drop
                  (k.chIndex + (k.buf.take k.currSymbol ++ rest).length)
      ∧ (∀ q, q ≠ k.dstFile → (Sink.feed rest k W).2.fs q = W.fs q)
      ∧ (Sink.feed rest k W).2.errCh = none
      ∧ (Sink.feed rest k W).2.recordWg = W.recordWg - 1
      ∧ (Sink.feed rest k W).2.panicked = decide (W.recordWg - 1 < 0)
      ∧ (Sink.feed rest k W).2.faults = W.faults := by
  intro rest
  induction rest with
  | nil =>
    intro k W hpc hwbs hbuf hj hc herr hp hplan
    have hlen : (k.buf.take k.currSymbol).length = k.currSymbol := by
      rw [List.length_take]; omega
    simp only [Sink.feed, List.append_nil]
    by_cases h0 : k.currSymbol = 0
    · rw [Sink.settle_close_empty k W hpc hp h0]
      simp [h0, World.recordDone, hp, herr, blockWrites_nil _ _ _ hw]
    · have hpos : 0 < k.currSymbol := by omega
      rw [Sink.settle_close_short k W hpc hp hpos (by rw [hwbs]; exact_mod_cast hj) hplan,
        sysWrite_ok W _ _ _ hplan,
        blockWrites_short _ w _ (k.buf.take k.currSymbol) (by omega) (by omega)]
      simp only [World.recordDone, FS.content_store_same, hp, herr, Bool.false_or, true_and,
        hlen, and_true]
      refine ⟨writeAt_inside _ _ _ hc ▸ (by rw [hlen]), ?_⟩
      intro q hq
      exact FS.store_other _ _ _ _ hq
  | cons b rest ih =>
    intro k W hpc hwbs hbuf hj hc herr hp hplan
    have hlen : (k.buf.take k.currSymbol).length = k.currSymbol := by
      rw [List.length_take]; omega
    by_cases hfull : k.currSymbol + 1 = w
    · -- the byte completes the block
      have hw' : (k.currSymbol : Int) + 1 = k.writeBlockSize := by rw [hwbs]; exact_mod_cast hfull
      have hset : k.buf.set k.currSymbol b = k.buf.take k.currSymbol ++ [b] :=
        set_last k.buf k.currSymbol b (by omega)
      have hstep : Sink.feed (b :: rest) k W = Sink.feed rest
          { k with buf := k.buf.set k.currSymbol b, chIndex := k.chIndex + w,
                   currSymbol := 0, pc := SinkPc.recv }
          { W with fs := W.fs.store k.dstFile
                      (writeAt (W.fs.content k.dstFile) (k.buf.set k.currSymbol b) k.chIndex),
                   log := W.log ++ [{ dst := k.dstFile, off := k.chIndex,
                                      data := k.buf.set k.currSymbol b }] } := by
        simp only [Sink.feed, hpc, hp, and_self, if_true]
        rw [Sink.settle_write k W b herr hp (by omega) hw' hplan, sysWrite_ok W _ _ _ hplan, hwbs]
        simp only [Int.toNat_ofNat, hp]
      have hblk : (k.buf.take k.currSymbol ++ [b]).length = w := by simp [hlen]; omega
      have hX : k.chIndex + w
          ≤ (writeAt (W.fs.content k.dstFile) (k.buf.set k.currSymbol b) k.chIndex).length := by
        rw [writeAt_inside _ _ _ hc, hset]
        simp only [List.length_append, List.length_take, hblk, Nat.min_eq_left hc]
        omega
      rw [hstep]
      obtain ⟨h1, h2, h3, h4, h5, h6, h7, h8⟩ := ih
        { k with buf := k.buf.set k.currSymbol b, chIndex := k.chIndex + w,
                 currSymbol := 0, pc := SinkPc.recv }
        { W with fs := W.fs.store k.dstFile
                    (writeAt (W.fs.content k.dstFile) (k.buf.set k.currSymbol b) k.chIndex),
                 log := W.log ++ [{ dst := k.dstFile, off := k.chIndex,
                                    data := k.buf.set k.currSymbol b }] }
        rfl hwbs (by simp [hbuf]) (by show 0 < w; omega)
        (by simpa using hX) herr hp hplan
      simp only [List.take_zero, List.nil_append, FS.content_store_same] at h2 h3
      have hdata : k.buf.take k.currSymbol ++ b :: rest
          = (k.buf.take k.currSymbol ++ [b]) ++ rest := by simp
      refine ⟨h1, ?_, ?_, ?_, h5, h6, h7, h8⟩
      · rw [h2, hdata, blockWrites_full _ w _ _ rest hw hblk, hset]
        simp
      · rw [h3, hdata, writeAt_inside _ _ _ hc, hset]
        have := overlay_step (W.fs.content k.dstFile) (k.buf.take k.currSymbol ++ [b]) rest
          k.chIndex hc
        simp only [hblk] at this ⊢
        exact this
      · intro q hq
        rw [h4 q hq]
        exact FS.store_other _ _ _ _ hq
    · -- the byte is stored
      have hw' : (k.currSymbol : Int) + 1 ≠ k.writeBlockSize := by
        rw [hwbs]; exact_mod_cast hfull
      have hstep : Sink.feed (b :: rest) k W = Sink.feed rest
          { k with buf := k.buf.set k.currSymbol b, currSymbol := k.currSymbol + 1,
                   pc := SinkPc.recv } W := by
        simp only [Sink.feed, hpc, hp, and_self, if_true]
        rw [Sink.settle_store k W b herr hp (by omega) hw']
      rw [hstep]
      obtain ⟨h1, h2, h3, h4, h5, h6, h7, h8⟩ := ih
        { k with buf := k.buf.set k.currSymbol b, currSymbol := k.currSymbol + 1,
                 pc := SinkPc.recv } W
        rfl hwbs (by simp [hbuf]) (by show k.currSymbol + 1 < w; omega) hc herr hp hplan
      have htk : (k.buf.set k.currSymbol b).take (k.currSymbol + 1) ++ rest
          = k.buf.take k.currSymbol ++ b :: rest := by
        rw [take_set_succ k.buf k.currSymbol b (by omega)]
        simp
      simp only [htk] at h2 h3
      exact ⟨h1, h2, h3, h4, h5, h6, h7, h8⟩

/-- C3: Fed a byte sequence `s` and then the close of the stream, with block size `w >= 1`,
an empty error channel and no failing write, `ByteRecordingToFileBuffered` returns after issuing
exactly `ceil(len(s) / w)` positioned writes, the `i`-th at offset `i * w` carrying
`s[i*w : min((i+1)*w, len(s))]` (so a final short block is written once and unpadded); afterwards
the destination holds `s` followed by its old bytes from offset `len(s)` on, no other file has
changed, the error channel is still empty and completion has been signalled once. -/
theorem ByteRecordingToFileBuffered_writes (dstFile : GoString) (s : List Byte)
    (writeBlockSize : Int) (W : World)
    (hw : 1 ≤ writeBlockSize) (herr : W.errCh = none) (hp : W.panicked = false)
    (hplan : W.faults.writes dstFile = []) :
    (ByteRecordingToFileBuffered dstFile s writeBlockSize W).1.pc = SinkPc.returned
    ∧ (ByteRecordingToFileBuffered dstFile s writeBlockSize W).2.log
        = W.log ++ (List.range ((s.length + writeBlockSize.toNat - 1) / writeBlockSize.toNat)).map
            (fun i => WriteCall.mk dstFile (i * writeBlockSize.toNat)
              ((s.drop (i * writeBlockSize.toNat)).take writeBlockSize.toNat))
    ∧ (ByteRecordingToFileBuffered dstFile s writeBlockSize W).2.fs.content dstFile
        = s ++ (W.fs.content dstFile).drop s.length
    ∧ (∀ q, q ≠ dstFile →
        (ByteRecordingToFileBuffered dstFile s writeBlockSize W).2.fs q = W.fs q)
    ∧ (ByteRecordingToFileBuffered dstFile s writeBlockSize W).2.errCh = none
    ∧ (ByteRecordingToFileBuffered dstFile s writeBlockSize W).2.recordWg = W.recordWg - 1 := by
  have hneg : ¬ writeBlockSize < 0 := by omega
  have hcast : writeBlockSize = ((writeBlockSize.toNat : Nat) : Int) := by
    rw [Int.toNat_of_nonneg (by omega)]
  have hw1 : 1 ≤ writeBlockSize.toNat := by omega
  simp only [ByteRecordingToFileBuffered, if_neg hneg]
  obtain ⟨h1, h2, h3, h4, h5, h6, _, _⟩ := Sink.feed_spec writeBlockSize.toNat hw1 s
    (Sink.init dstFile writeBlockSize) W rfl hcast (by simp [Sink.init])
    (by show 0 < writeBlockSize.toNat; omega) (Nat.zero_le _) herr hp hplan
  simp only [Sink.init, List.take_zero, List.nil_append, List.take_zero, Nat.zero_add,
    blockWrites] at h1 h2 h3 h4 h5 h6
  refine ⟨h1, ?_, ?_, h4, h5, h6⟩
  · simpa [Sink.init] using h2
  · simpa [Sink.init] using h3

/-- Witness of `ByteRecordingToFileBuffered_writes`: five bytes in blocks of two over a file of
seven bytes. -/
theorem ByteRecordingToFileBuffered_writes_witness :
    (ByteRecordingToFileBuffered (ascii "a") [1, 2, 3, 4, 5] 2 sampleWorld).1.pc
        = SinkPc.returned
    ∧ (ByteRecordingToFileBuffered (ascii "a") [1, 2, 3, 4, 5] 2 sampleWorld).2.log
        = sampleWorld.log
          ++ (List.range ((([1, 2, 3, 4, 5] : List Byte).length + (2 : Int).toNat - 1)
                / (2 : Int).toNat)).map
            (fun i => WriteCall.mk (ascii "a") (i * (2 : Int).toNat)
              ((([1, 2, 3, 4, 5] : List Byte).drop (i * (2 : Int).toNat)).take (2 : Int).toNat))
    ∧ (ByteRecordingToFileBuffered (ascii "a") [1, 2, 3, 4, 5] 2 sampleWorld).2.fs.content
          (ascii "a")
        = [1, 2, 3, 4, 5] ++ (sampleWorld.fs.content (ascii "a")).drop
            ([1, 2, 3, 4, 5] : List Byte).length
    ∧ (∀ q, q ≠ ascii "a" →
        (ByteRecordingToFileBuffered (ascii "a") [1, 2, 3, 4, 5] 2 sampleWorld).2.fs q
          = sampleWorld.fs q)
    ∧ (ByteRecordingToFileBuffered (ascii "a") [1, 2, 3, 4, 5] 2 sampleWorld).2.errCh = none
    ∧ (ByteRecordingToFileBuffered (ascii "a") [1, 2, 3, 4, 5] 2 sampleWorld).2.recordWg
        = sampleWorld.recordWg - 1 :=
  ByteRecordingToFileBuffered_writes (ascii "a") [1, 2, 3, 4, 5] 2 sampleWorld
    (by decide) rfl rfl rfl

/-- The run of the witness, evaluated: three writes, the last one short. -/
theorem ByteRecordingToFileBuffered_example :
    (ByteRecordingToFileBuffered (ascii "a") [1, 2, 3, 4, 5] 2 sampleWorld).2.log
        = [WriteCall.mk (ascii "a") 0 [1, 2], WriteCall.mk (ascii "a") 2 [3, 4],
           WriteCall.mk (ascii "a") 4 [5]]
    ∧ (ByteRecordingToFileBuffered (ascii "a") [1, 2, 3, 4, 5] 2 sampleWorld).2.fs (ascii "a")
        = some [1, 2, 3, 4, 5, 9, 9] := by
  decide

/-! ## The unbuffered recorder against the buffered sink with block size 1 -/

theorem set_zero_single {α : Type} (l : List α) (b : α) (h : l.length = 1) : l.set 0 b = [b] := by
  match l, h with
  | [a], _ => rfl

/-- One action of the recorder and of the sink with block size 1 from corresponding states:
both are blocked, or both act, with the same effect on the world, and correspond again. -/
theorem SameSink.step_same (closed : Bool) (k : Recorder) (s : Sink) (W : World) (h : SameSink k s) :
    (k.step closed W = none ∧ s.step closed W = none)
    ∨ ∃ k1 s1 W1, k.step closed W = some (k1, W1) ∧ s.step closed W = some (s1, W1)
        ∧ SameSink k1 s1 := by
  obtain ⟨hd, hw, hc, hpc, hsb, hkb, hm⟩ := h
  unfold Recorder.step Sink.step
  by_cases hp : W.panicked = true
  · left; simp [hp]
  · simp only [hp, Bool.false_eq_true, if_false, hpc]
    cases hk : k.pc with
    | recv =>
      simp only [hk] at hm
      cases closed
      · left; simp
      · right
        refine ⟨_, _, _, rfl, rfl, ?_⟩
        simp [SameSink, hd, hw, hc, hsb, hkb, hm]
    | check ch =>
      simp only [hk] at hm
      right
      cases he : W.errCh with
      | some e =>
        refine ⟨_, _, _, rfl, rfl, ?_⟩
        simp [SameSink, hd, hw, hc, hsb, hkb]
      | none =>
        simp only [hm, hsb, hkb, Nat.lt_one_iff, if_true, Nat.zero_lt_one, hw]
        refine ⟨_, _, _, rfl, rfl, ?_⟩
        simp [SameSink, hd, hw, hc, hsb, hkb, set_zero_single _ ch hsb, set_zero_single _ ch hkb]
    | redeposit e =>
      cases he : W.errCh with
      | some e' => left; simp
      | none =>
        right
        refine ⟨_, _, _, rfl, rfl, ?_⟩
        simp [SameSink, hd, hw, hc, hsb, hkb]
    | write =>
      simp only [hk] at hm
      right
      rw [hd, hc, hm]
      cases hr : (W.sysWrite k.dstFile k.buf k.chIndex).2 with
      | some e =>
        refine ⟨_, _, _, rfl, rfl, ?_⟩
        simp [SameSink, hd, hw, hc, hsb, hkb]
      | none =>
        refine ⟨_, _, _, rfl, rfl, ?_⟩
        simp [SameSink, hd, hw, hc, hsb, hkb]
    | deposit e =>
      cases he : W.errCh with
      | some e' => left; simp
      | none =>
        right
        refine ⟨_, _, _, rfl, rfl, ?_⟩
        simp [SameSink, hd, hw, hc, hsb, hkb]
    | flush => simp only [hk] at hm
    | done =>
      right
      refine ⟨_, _, _, rfl, rfl, ?_⟩
      simp [SameSink, hd, hw, hc, hsb, hkb]
    | returned => left; simp

theorem SameSink.settle (closed : Bool) (n : Nat) :
    ∀ (k : Recorder) (s : Sink) (W : World), SameSink k s →
      (Recorder.settle closed n k W).2 = (Sink.settle closed n s W).2
      ∧ SameSink (Recorder.settle closed n k W).1 (Sink.settle closed n s W).1 := by
  induction n with
  | zero => intro k s W h; exact ⟨rfl, h⟩
  | succ n ih =>
    intro k s W h
    rcases SameSink.step_same closed k s W h with ⟨h1, h2⟩ | ⟨k1, s1, W1, h1, h2, h3⟩
    · simp only [Recorder.settle, Sink.settle, h1, h2]
      exact ⟨trivial, h⟩
    · simp only [Recorder.settle, Sink.settle, h1, h2]
      exact ih k1 s1 W1 h3

theorem SameSink.feed (bytes : List Byte) :
    ∀ (k : Recorder) (s : Sink) (W : World), SameSink k s →
      (Recorder.feed bytes k W).2 = (Sink.feed bytes s W).2
      ∧ SameSink (Recorder.feed bytes k W).1 (Sink.feed bytes s W).1 := by
  induction bytes with
  | nil => intro k s W h; exact SameSink.settle true 3 k s W h
  | cons b rest ih =>
    intro k s W h
    have hpc : s.pc = k.pc := h.2.2.2.1
    simp only [Recorder.feed, Sink.feed, hpc]
    by_cases hc : k.pc = SinkPc.recv ∧ W.panicked = false
    · simp only [hc, and_self, if_true]
      have hd : SameSink (k.deliver b) (s.deliver b) := by
        obtain ⟨h1, h2, h3, h4, h5, h6, h7⟩ := h
        rw [hc.1] at h7
        exact ⟨h1, h2, h3, rfl, h5, h6, h7⟩
      obtain ⟨e1, e2⟩ := SameSink.settle false 4 _ _ W hd
      rw [e1]
      exact ih _ _ _ e2
    · simp only [hc, if_false]
      exact ⟨trivial, h⟩

theorem sysWrite_log (W : World) (dst : GoString) (data : List Byte) (off : Nat) :
    (W.sysWrite dst data off).1.log = W.log ++ [WriteCall.mk dst off data]
    ∧ (W.sysWrite dst data off).1.panicked = W.panicked
    ∧ (W.sysWrite dst data off).1.errCh = W.errCh := by
  simp [World.sysWrite]

theorem Recorder.feed_returned (rest : List Byte) (k : Recorder) (W : World)
    (h : k.pc = SinkPc.returned) : Recorder.feed rest k W = (k, W) := by
  cases rest with
  | nil => simp [Recorder.feed, Recorder.settle, Recorder.step, h]
  | cons b rest => simp [Recorder.feed, h]

/-- What the recorder does with one byte: it returns without a write (an error was pending), or
it writes the byte alone at `chIndex` and then either returns (the write failed) or waits for the
next byte with `chIndex` advanced by one. -/
theorem Recorder.settle_byte (k : Recorder) (W : World) (b : Byte) (hb : k.buf.length = 1)
    (hp : W.panicked = false) :
    ((Recorder.settle false 4 (k.deliver b) W).1.pc = SinkPc.returned
      ∧ (Recorder.settle false 4 (k.deliver b) W).2.log = W.log)
    ∨ ((Recorder.settle false 4 (k.deliver b) W).1.pc = SinkPc.returned
      ∧ (Recorder.settle false 4 (k.deliver b) W).2.log
          = W.log ++ [WriteCall.mk k.dstFile k.chIndex [b]])
    ∨ ((Recorder.settle false 4 (k.deliver b) W).1.pc = SinkPc.recv
      ∧ (Recorder.settle false 4 (k.deliver b) W).1.chIndex = k.chIndex + 1
      ∧ (Recorder.settle false 4 (k.deliver b) W).1.dstFile = k.dstFile
      ∧ (Recorder.settle false 4 (k.deliver b) W).1.buf.length = 1
      ∧ (Recorder.settle false 4 (k.deliver b) W).2.log
          = W.log ++ [WriteCall.mk k.dstFile k.chIndex [b]]) := by
  have hset : k.buf.set 0 b = [b] := set_zero_single _ _ hb
  cases he : W.errCh with
  | some e =>
    left
    simp [Recorder.settle, Recorder.step, Recorder.deliver, hp, he, World.recordDone]
  | none =>
    right
    cases hr : (nextOutcome W.faults.writes k.dstFile).1 with
    | some e =>
      left
      simp [Recorder.settle, Recorder.step, Recorder.deliver, hp, he, hb, hset, World.sysWrite,
        hr, World.recordDone]
    | none =>
      right
      simp [Recorder.settle, Recorder.step, Recorder.deliver, hp, he, hb, hset, World.sysWrite,
        hr]

/-- The recorder writes byte `i` alone at offset `chIndex + i`, up to some byte of the stream. -/
theorem Recorder.feed_log (rest : List Byte) :
    ∀ (k : Recorder) (W : World), k.buf.length = 1 →
      k.pc = SinkPc.recv ∨ k.pc = SinkPc.returned →
      ∃ n, n ≤ rest.length
        ∧ (Recorder.feed rest k W).2.log
            = W.log ++ (List.range n).map
                (fun i => WriteCall.mk k.dstFile (k.chIndex + i) ((rest.drop i).take 1)) := by
  induction rest with
  | nil =>
    intro k W _ hpc
    refine ⟨0, le_refl _, ?_⟩
    rcases hpc with hpc | hpc
    · by_cases hp : W.panicked = true
      · simp [Recorder.feed, Recorder.settle, Recorder.step, hp]
      · simp [Recorder.feed, Recorder.settle, Recorder.step, hp, hpc, World.recordDone]
    · simp [Recorder.feed_returned _ _ _ hpc]
  | cons b rest ih =>
    intro k W hb hpc
    rcases hpc with hpc | hpc
    · by_cases hp : W.panicked = false
      · simp only [Recorder.feed, hpc, hp, and_self, if_true]
        rcases Recorder.settle_byte k W b hb hp with ⟨h1, h2⟩ | ⟨h1, h2⟩ | ⟨h1, h2, h3, h4, h5⟩
        · refine ⟨0, Nat.zero_le _, ?_⟩
          rw [Recorder.feed_returned _ _ _ h1, h2]
          simp
        · refine ⟨1, by simp, ?_⟩
          rw [Recorder.feed_returned _ _ _ h1, h2]
          simp [List.range_succ]
        · obtain ⟨n, hn, hlog⟩ := ih (Recorder.settle false 4 (k.deliver b) W).1
            (Recorder.settle false 4 (k.deliver b) W).2 h4 (Or.inl h1)
          refine ⟨n + 1, by simpa using hn, ?_⟩
          rw [hlog, h5, h2, h3, List.range_succ_eq_map, List.map_cons, List.map_map,
            List.append_assoc]
          congr 1
          simp only [List.singleton_append, Nat.add_zero, List.drop_zero, List.take_succ_cons,
            List.take_zero]
          congr 1
          apply List.map_congr_left
          intro i _
          simp only [Function.comp, Nat.succ_eq_add_one, List.drop_succ_cons]
          congr 1
          omega
      · refine ⟨0, Nat.zero_le _, ?_⟩
        simp [Recorder.feed, hp]
    · refine ⟨0, Nat.zero_le _, ?_⟩
      simp [Recorder.feed_returned _ _ _ hpc]

/-- C10: On every inbound byte sequence, from every state of the error channel and under
every plan of failing writes, `ByteRecordingToFile` and `ByteRecordingToFileBuffered` with
`writeBlockSize = 1` leave the same world - the same sequence of positioned writes, the same file
contents, the same error channel, the same counter of the wait group - and end at the same point
with the same write offset; the writes put byte `i` alone at offset `i`, for the bytes up to the
point where the sink stopped. -/
theorem ByteRecordingToFile_eq_buffered_one (dstFile : GoString) (bytesToWrite : List Byte)
    (W : World) :
    (ByteRecordingToFile dstFile bytesToWrite W).2
        = (ByteRecordingToFileBuffered dstFile bytesToWrite 1 W).2
    ∧ (ByteRecordingToFile dstFile bytesToWrite W).1.pc
        = (ByteRecordingToFileBuffered dstFile bytesToWrite 1 W).1.pc
    ∧ (ByteRecordingToFile dstFile bytesToWrite W).1.chIndex
        = (ByteRecordingToFileBuffered dstFile bytesToWrite 1 W).1.chIndex
    ∧ ∃ n, n ≤ bytesToWrite.length
        ∧ (ByteRecordingToFileBuffered dstFile bytesToWrite 1 W).2.log
            = W.log ++ (List.range n).map
                (fun i => WriteCall.mk dstFile i ((bytesToWrite.drop i).take 1)) := by
  have h0 : SameSink (Recorder.init dstFile) (Sink.init dstFile 1) := by
    simp [SameSink, Recorder.init, Sink.init]
  obtain ⟨e1, e2⟩ := SameSink.feed bytesToWrite _ _ W h0
  have hneg : ¬ (1 : Int) < 0 := by decide
  simp only [ByteRecordingToFile, ByteRecordingToFileBuffered, if_neg hneg]
  refine ⟨e1, e2.2.2.2.1.symm, e2.2.2.1.symm, ?_⟩
  obtain ⟨n, hn, hlog⟩ := Recorder.feed_log bytesToWrite (Recorder.init dstFile) W
    (by simp [Recorder.init]) (Or.inl rfl)
  refine ⟨n, hn, ?_⟩
  rw [← e1, hlog]
  simp [Recorder.init]

/-- The two sinks on three bytes when the second write fails: both stop after two writes with
the error in the error channel. -/
theorem ByteRecordingToFile_example :
    (ByteRecordingToFile (ascii "a") [1, 2, 3]
        { sampleWorld with faults := { noFaults with writes := fun _ => [none, some (GoError.os 5)] } }).2.log
      = [WriteCall.mk (ascii "a") 0 [1], WriteCall.mk (ascii "a") 1 [2]]
    ∧ (ByteRecordingToFileBuffered (ascii "a") [1, 2, 3] 1
        { sampleWorld with faults := { noFaults with writes := fun _ => [none, some (GoError.os 5)] } }).2.errCh
      = some (GoError.os 5) := by
  decide

/-! ## Files under overwriting -/

theorem overlay_length (D O : List Byte) (c : Nat) (hc : c ≤ D.length) :
    (D.take c ++ O.drop c).length = max c O.length := by
  simp only [List.length_append, List.length_take, List.length_drop]
  omega

/-- Behind the written part an overwritten file still shows its old content. -/
theorem overlay_drop (D O : List Byte) (c o : Nat) (hc : c ≤ D.length) (hco : c ≤ o) :
    (D.take c ++ O.drop c).drop o = O.drop o := by
  have hl : (D.take c).length = c := by simp [List.length_take, Nat.min_eq_left hc]
  have : o = (D.take c).length + (o - c) := by omega
  rw [this, List.drop_append, List.drop_drop, hl, show c + (o - c) = o by omega]

/-- Writing the next block of `D` extends the written part. -/
theorem overlay_write (D O : List Byte) (c m : Nat) (hm : c + m ≤ D.length) :
    writeAt (D.take c ++ O.drop c) ((D.drop c).take m) c
      = D.take (c + m) ++ O.drop (c + m) := by
  have hl : (D.take c).length = c := by simp [List.length_take]; omega
  have hd : ((D.drop c).take m).length = m := by simp [List.length_take]; omega
  have hX : c ≤ (D.take c ++ O.drop c).length := by simp [hl]
  simp only [writeAt, Nat.sub_eq_zero_of_le hX, List.replicate_zero, List.append_nil, hd]
  rw [List.take_append_of_le_length (by omega), List.take_of_length_le (by omega),
    overlay_drop D O c (c + m) (by omega) (by omega), List.take_add]

theorem overlay_truncate (D O : List Byte) :
    truncateTo (D.take D.length ++ O.drop D.length) D.length = D := by
  simp [truncateTo]

/-- Storing the next byte of `D` extends the part of `D` held in the buffer. -/
theorem buffer_store (D buf : List Byte) (c j : Nat) (ch : Byte) (hj : j < buf.length)
    (hbuf : buf.take j = (D.drop c).take j) (hch : D[c + j]? = some ch) :
    (buf.set j ch).take (j + 1) = (D.drop c).take (j + 1) := by
  have h1 : (buf.set j ch).take (j + 1) = buf.take j ++ [ch] := by
    clear hbuf hch
    induction buf generalizing j with
    | nil => simp at hj
    | cons a t ih =>
      cases j with
      | zero => simp
      | succ j =>
        simp only [List.length_cons, Nat.add_lt_add_iff_right] at hj
        simp [ih j hj]
  have h2 : (D.drop c)[j]? = some ch := by
    rw [List.getElem?_drop]; exact hch
  rw [h1, hbuf, List.take_succ, h2]
  rfl

/-- The `i`-th byte of a block read at offset `o` is byte `o + i` of the content. -/
theorem block_get (D t : List Byte) (o L i : Nat) (ht : t.take L = (D.drop o).take L)
    (hi : i < L) (hL : o + L ≤ D.length) :
    ∃ ch, t[i]? = some ch ∧ D[o + i]? = some ch := by
  have hlt : o + i < D.length := by omega
  refine ⟨D[o + i], ?_, List.getElem?_eq_getElem hlt⟩
  have h1 : (t.take L)[i]? = t[i]? := List.getElem?_take_of_lt hi
  have h2 : ((D.drop o).take L)[i]? = (D.drop o)[i]? := List.getElem?_take_of_lt hi
  rw [← h1, ht, h2, List.getElem?_drop]
  exact List.getElem?_eq_getElem hlt

/-! ## Reading at and behind the end -/

/-- A read at the recorded size sets the end-of-stream flag, whatever the file holds there. -/
theorem ReadBytes_at_size (rd : FileReader) (content : List Byte)
    (hoff : rd.offset = rd.size) (hbuf : 0 < rd.buf.length) :
    (rd.ReadBytes (readAt content rd.buf rd.offset)).1.eof = true
    ∧ (rd.ReadBytes (readAt content rd.buf rd.offset)).1.size = rd.size
    ∧ (rd.ReadBytes (readAt content rd.buf rd.offset)).1.name = rd.name
    ∧ (rd.ReadBytes (readAt content rd.buf rd.offset)).1.buf.length = rd.buf.length := by
  have hne : ¬ ((readAt content rd.buf rd.offset).2.2 ≠ none
        ∧ (readAt content rd.buf rd.offset).2.2 ≠ some GoError.EOF) := by
    simp only [readAt]; split_ifs <;> simp
  simp only [FileReader.ReadBytes, if_neg hne]
  refine ⟨?_, trivial, trivial, ?_⟩
  · simp only [readAt, List.length_take, List.length_drop]
    by_cases h0 : min rd.buf.length (content.length - rd.offset) = 0
    · have hlt : min rd.buf.length (content.length - rd.offset) < rd.buf.length := by omega
      have hne' : rd.buf ≠ [] := List.ne_nil_of_length_pos hbuf
      simp [h0, hlt, hne']
    · have : rd.offset + min rd.buf.length (content.length - rd.offset) > rd.size := by omega
      simp [this]
  · simp only [readAt, List.length_append, List.length_take, List.length_drop]
    omega

/-! ## Steps of a sink in a fault-free swap -/

theorem nextOutcome_noFaults_writes (p : GoString) :
    nextOutcome noFaults.writes p = (none, noFaults.writes) := rfl

theorem nextOutcome_noFaults_reads (p : GoString) :
    nextOutcome noFaults.reads p = (none, noFaults.reads) := rfl

theorem sysWrite_noFaults (W : World) (dst : GoString) (data : List Byte) (off : Nat)
    (hf : W.faults = noFaults) :
    W.sysWrite dst data off
      = ({ W with fs := W.fs.store dst (writeAt (W.fs.content dst) data off)
                  log := W.log ++ [{ dst := dst, off := off, data := data }] }, none) := by
  have e : ∀ F : Faults, F = noFaults → { F with writes := F.writes } = F := fun F _ => rfl
  simp only [World.sysWrite, hf, nextOutcome_noFaults_writes]

/-- One action of a sink keeps it consistent with the bytes sent to it, receives nothing, keeps
the destination a prefix of these bytes over the old content, and brings the sink closer to its
next receive or to its return. -/
theorem SinkOk.step_ok {w : Nat} {D O : List Byte} {closed : Bool} {k k' : Sink} {W W' : World}
    (hw : 1 ≤ w) (h : SinkOk w D closed k) (herr : W.errCh = none) (hf : W.faults = noFaults)
    (hfile : W.fs k.dstFile = some (D.take k.chIndex ++ O.drop k.chIndex))
    (hs : k.step closed W = some (k', W')) :
    SinkOk w D closed k' ∧ k'.got = k.got ∧ k'.dstFile = k.dstFile
    ∧ W'.errCh = none ∧ W'.faults = noFaults
    ∧ W'.fs k.dstFile = some (D.take k'.chIndex ++ O.drop k'.chIndex)
    ∧ (∀ q, q ≠ k.dstFile → W'.fs q = W.fs q)
    ∧ W'.recordWg = (if k'.pc = SinkPc.returned then W.recordWg - 1 else W.recordWg)
    ∧ W'.panicked = (decide (k'.pc = SinkPc.returned) && decide (W.recordWg - 1 < 0))
    ∧ k.pc ≠ SinkPc.returned
    ∧ sinkWeight k'.pc < sinkWeight k.pc := by
  obtain ⟨hwbs, hbl, hgot, hcl, hpc⟩ := h
  have hcontent : W.fs.content k.dstFile = D.take k.chIndex ++ O.drop k.chIndex := by
    simp [FS.content, hfile]
  unfold Sink.step at hs
  by_cases hp : W.panicked = true
  · simp [hp] at hs
  · have hp' : W.panicked = false := by simpa using hp
    simp only [hp', Bool.false_eq_true, if_false] at hs
    cases hk : k.pc with
    | recv =>
      simp only [hk] at hs hpc
      cases closed with
      | false => simp at hs
      | true =>
        have hg : k.got = k.chIndex + k.currSymbol := by simp [Sink.got, hk]
        by_cases hj : 0 < k.currSymbol ∧ (k.currSymbol : Int) < k.writeBlockSize
        · simp only [hj, and_self, if_true, Option.some.injEq, Prod.mk.injEq] at hs
          obtain ⟨rfl, rfl⟩ := hs
          refine ⟨⟨hwbs, hbl, ?_, ?_, ?_⟩, ?_, rfl, herr, hf, hfile, fun _ _ => rfl, ?_, ?_, ?_, ?_⟩
          · simpa [Sink.got, hk] using hgot
          · intro _; simpa [Sink.got, hk] using hcl rfl
          · exact ⟨hj.1, hpc.1, hpc.2, rfl⟩
          · simp [Sink.got, hk]
          · simp
          · simp [hp']
          · simp
          · show (2 : Nat) < 3
            decide
        · simp only [hj, if_false, if_true, Option.some.injEq, Prod.mk.injEq] at hs
          obtain ⟨rfl, rfl⟩ := hs
          have hj0 : k.currSymbol = 0 := by
            have h1 := hpc.1
            have h2 : ¬ (0 < k.currSymbol ∧ (k.currSymbol : Int) < (w : Int)) := hwbs ▸ hj
            omega
          refine ⟨⟨hwbs, hbl, ?_, ?_, ?_⟩, ?_, rfl, herr, hf, hfile, fun _ _ => rfl, ?_, ?_, ?_, ?_⟩
          · simpa [Sink.got, hk, hj0] using hgot
          · intro _; simpa [Sink.got, hk, hj0] using hcl rfl
          · rfl
          · simp [Sink.got, hk, hj0]
          · simp
          · simp [hp']
          · simp
          · show (1 : Nat) < 3
            decide
    | check ch =>
      simp only [hk, herr] at hs hpc
      obtain ⟨hjw, hbuf, hch⟩ := hpc
      have hjb : k.currSymbol < k.buf.length := by omega
      have hg : k.got = k.chIndex + k.currSymbol + 1 := by simp [Sink.got, hk]
      have hst := buffer_store D k.buf k.chIndex k.currSymbol ch hjb hbuf hch
      by_cases hfull : k.currSymbol + 1 = w
      · have hc : ((k.currSymbol + 1 : Nat) : Int) = k.writeBlockSize := by
          rw [hwbs]; exact_mod_cast hfull
        simp only [hjb, hc, if_true, Option.some.injEq, Prod.mk.injEq] at hs
        obtain ⟨rfl, rfl⟩ := hs
        refine ⟨⟨hwbs, by simp [hbl], ?_, ?_, ?_⟩, ?_, rfl, herr, hf, hfile, fun _ _ => rfl,
          ?_, ?_, ?_, ?_⟩
        · simp only [Sink.got]; omega
        · intro hc'; have := hcl hc'; simp only [Sink.got]; omega
        · refine ⟨hfull, ?_⟩
          show k.buf.set k.currSymbol ch = _
          rw [← hfull, ← hst, List.take_of_length_le (by simp; omega)]
        · rw [hg]; simp only [Sink.got]; omega
        · simp
        · simp [hp']
        · simp
        · show (4 : Nat) < 5; decide
      · have hc : ¬ ((k.currSymbol + 1 : Nat) : Int) = k.writeBlockSize := by
          rw [hwbs]; exact_mod_cast hfull
        simp only [hjb, hc, if_false, if_true, Option.some.injEq, Prod.mk.injEq] at hs
        obtain ⟨rfl, rfl⟩ := hs
        refine ⟨⟨hwbs, by simp [hbl], ?_, ?_, ?_⟩, ?_, rfl, herr, hf, hfile, fun _ _ => rfl,
          ?_, ?_, ?_, ?_⟩
        · simp only [Sink.got]; omega
        · intro hc'; have := hcl hc'; simp only [Sink.got]; omega
        · exact ⟨by show k.currSymbol + 1 < w; omega, hst⟩
        · rw [hg]; simp only [Sink.got]; omega
        · simp
        · simp [hp']
        · simp
        · show (3 : Nat) < 5; decide
    | redeposit e => simp only [hk] at hpc
    | deposit e => simp only [hk] at hpc
    | write =>
      simp only [hk] at hs hpc
      obtain ⟨hjw, hbuf⟩ := hpc
      rw [sysWrite_noFaults W _ _ _ hf] at hs
      simp only [Option.some.injEq, Prod.mk.injEq] at hs
      obtain ⟨rfl, rfl⟩ := hs
      have hg : k.got = k.chIndex + w := by simp [Sink.got, hk, hjw]
      have hle : k.chIndex + w ≤ D.length := by omega
      refine ⟨⟨hwbs, hbl, ?_, ?_, ?_⟩, ?_, rfl, herr, hf, ?_, ?_, ?_, ?_, ?_, ?_⟩
      · simp [Sink.got, hwbs]; omega
      · intro hc'; have := hcl hc'; simp [Sink.got, hwbs]; omega
      · exact ⟨by show 0 < w; omega, by simp⟩
      · rw [hg]; simp [Sink.got, hwbs]
      · simp only [hcontent, hbuf, hwbs, Int.toNat_ofNat]
        rw [overlay_write D O k.chIndex w hle]
        simp [FS.store]
      · intro q hq
        simp [FS.store, hq]
      · simp
      · simp [hp']
      · simp
      · show (3 : Nat) < 4; decide
    | flush =>
      simp only [hk] at hs hpc
      obtain ⟨hj0, hjw, hbuf, hclosed⟩ := hpc
      rw [sysWrite_noFaults W _ _ _ hf] at hs
      simp only [Option.some.injEq, Prod.mk.injEq] at hs
      obtain ⟨rfl, rfl⟩ := hs
      have hg : k.got = k.chIndex + k.currSymbol := by simp [Sink.got, hk]
      refine ⟨⟨hwbs, hbl, ?_, ?_, ?_⟩, ?_, rfl, herr, hf, ?_, ?_, ?_, ?_, ?_, ?_⟩
      · simp [Sink.got]; omega
      · intro hc'; have := hcl hc'; simp [Sink.got]; omega
      · exact hclosed
      · rw [hg]; simp [Sink.got]
      · simp only [hcontent, hbuf]
        rw [overlay_write D O k.chIndex k.currSymbol (by omega)]
        simp [FS.store]
      · intro q hq
        simp [FS.store, hq]
      · simp
      · simp [hp']
      · simp
      · show (1 : Nat) < 2; decide
    | done =>
      simp only [hk] at hs hpc
      simp only [Option.some.injEq, Prod.mk.injEq] at hs
      obtain ⟨rfl, rfl⟩ := hs
      refine ⟨⟨hwbs, hbl, ?_, ?_, ?_⟩, ?_, rfl, herr, hf, hfile, fun _ _ => rfl, ?_, ?_, ?_, ?_⟩
      · simpa [Sink.got, hk] using hgot
      · intro hc'; simpa [Sink.got, hk] using hcl hc'
      · exact hpc
      · simp [Sink.got, hk]
      · simp [World.recordDone]
      · simp [World.recordDone, hp']
      · simp
      · show (0 : Nat) < 1; decide
    | returned => simp [hk] at hs

/-! ## Readers and sinks across the actions of the main goroutine -/

/-- At the start of the next round. -/
theorem ReaderOk.next {r : Nat} {D : List Byte} {base : Nat} {after : Bool} {rd : FileReader}
    {L : Nat} {text : Option (List Byte)} (h : ReaderOk r D base true rd L text)
    (ha : rd.eof = false → after = false) :
    ReaderOk r D (base + r) after rd L text := by
  obtain ⟨h1, h2, h3, h4, h5⟩ := h
  refine ⟨h1, h2, ?_, ?_, ?_⟩
  · intro he
    rw [ha he, h3 he]
    simp
  · intro he
    have := h4 he
    omega
  · intro he ht
    rw [ha he] at ht
    exact absurd ht (by simp)

/-- A reader at the end of its stream is not affected by the position in the round. -/
theorem ReaderOk.of_eof {r : Nat} {D : List Byte} {base : Nat} {after after' : Bool}
    {rd : FileReader} {L L' : Nat} {text text' : Option (List Byte)}
    (h : ReaderOk r D base after rd L text) (he : rd.eof = true) :
    ReaderOk r D base after' rd L' text' := by
  obtain ⟨h1, h2, h3, h4, h5⟩ := h
  refine ⟨h1, h2, ?_, h4, ?_⟩
  · intro hf; rw [he] at hf; exact absurd hf (by simp)
  · intro hf; rw [he] at hf; exact absurd hf (by simp)

/-- Closing the stream of a sink that has received everything. -/
theorem SinkOk.close {w : Nat} {D : List Byte} {closed : Bool} {k : Sink}
    (h : SinkOk w D closed k) (hall : k.got = D.length) (hc : closed = false) :
    SinkOk w D true k := by
  obtain ⟨h1, h2, h3, h4, h5⟩ := h
  subst hc
  refine ⟨h1, h2, h3, fun _ => hall, ?_⟩
  cases hk : k.pc <;> simp only [hk] at h5 ⊢ <;> first | exact h5 | simp at h5 | skip

theorem ReadBytes_text (rd : FileReader) (content : List Byte) :
    (rd.ReadBytes (readAt content rd.buf rd.offset)).2.2.1
      = some (rd.ReadBytes (readAt content rd.buf rd.offset)).1.buf := by
  have hne : ¬ ((readAt content rd.buf rd.offset).2.2 ≠ none
        ∧ (readAt content rd.buf rd.offset).2.2 ≠ some GoError.EOF) := by
    simp only [readAt]; split_ifs <;> simp
  simp only [FileReader.ReadBytes, if_neg hne]

/-- A read at the start of a round, from a file whose content from the offset of the reader on
is still the original one unless the reader is at its recorded size: the reader has either read
the next block of the original content, or is at the end of the stream; either way it has fewer
reads left. -/
theorem ReaderOk.read {r : Nat} {D X : List Byte} {base : Nat} {rd : FileReader} {L : Nat}
    {text : Option (List Byte)} (hr : 1 ≤ r) (h : ReaderOk r D base false rd L text)
    (he : rd.eof = false)
    (hX : rd.offset < D.length → X.length = D.length ∧ X.drop rd.offset = D.drop rd.offset) :
    ReaderOk r D base true (rd.ReadBytes (readAt X rd.buf rd.offset)).1
        (rd.ReadBytes (readAt X rd.buf rd.offset)).2.1
        (rd.ReadBytes (readAt X rd.buf rd.offset)).2.2.1
    ∧ (rd.ReadBytes (readAt X rd.buf rd.offset)).1.name = rd.name
    ∧ ((rd.ReadBytes (readAt X rd.buf rd.offset)).1.eof = false →
        (rd.ReadBytes (readAt X rd.buf rd.offset)).1.offset
            = rd.offset + (rd.ReadBytes (readAt X rd.buf rd.offset)).2.1
          ∧ 0 < (rd.ReadBytes (readAt X rd.buf rd.offset)).2.1)
    ∧ ((rd.ReadBytes (readAt X rd.buf rd.offset)).1.eof = true → rd.offset = D.length)
    ∧ readsLeft (rd.ReadBytes (readAt X rd.buf rd.offset)).1 < readsLeft rd := by
  obtain ⟨h1, h2, h3, h4, h5⟩ := h
  have hoff := h3 he
  simp only [Bool.false_eq_true, if_false, Nat.add_zero] at hoff
  have htext := ReadBytes_text rd X
  by_cases hlt : rd.offset < D.length
  · obtain ⟨hXl, hXd⟩ := hX hlt
    obtain ⟨s1, s2, s3, s4, s5, s6, s7, s8⟩ :=
      ReadBytes_spec X rd (by rw [h1, hXl]) (by omega) (by omega) he
    generalize rd.ReadBytes (readAt X rd.buf rd.offset) = res at *
    have hne : res.1.eof = false := by
      cases hc : res.1.eof
      · rfl
      · have := s7.1 hc; omega
    refine ⟨⟨by rw [s4, h1], by rw [s5, h2], ?_, ?_, ?_⟩, s6, ?_, ?_, ?_⟩
    · intro _
      simp only [if_true]
      rw [s3, hXl, h2]
      omega
    · intro hc; rw [hne] at hc; exact absurd hc (by simp)
    · intro _ _
      refine ⟨by rw [s3, s1]; omega, res.1.buf, htext, ?_⟩
      have hb : min base D.length = rd.offset := by omega
      rw [hb, ← hXd, ← take_min_length (List.drop rd.offset X) res.2.1]
      rw [htext] at s2
      simp only [Option.getD_some] at s2
      rw [s2, ← take_min_length (List.drop rd.offset X) rd.buf.length, s1, List.length_drop]
      congr 1
      omega
    · intro _
      exact ⟨by rw [s3, s1], by rw [s1, hXl, h2]; omega⟩
    · intro hc; rw [hne] at hc; exact absurd hc (by simp)
    · simp only [readsLeft, hne, he, Bool.false_eq_true, if_false, s4, s3, s1, hXl, h1, h2]
      omega
  · have hend : rd.offset = D.length := by omega
    obtain ⟨e1, e2, e3, e4⟩ := ReadBytes_at_size rd X (by rw [hend, h1]) (by omega)
    generalize rd.ReadBytes (readAt X rd.buf rd.offset) = res at *
    refine ⟨⟨by rw [e2, h1], by rw [e4, h2], ?_, ?_, ?_⟩, e3, ?_, fun _ => hend, ?_⟩
    · intro hc; rw [e1] at hc; exact absurd hc (by simp)
    · intro _; omega
    · intro hc; rw [e1] at hc; exact absurd hc (by simp)
    · intro hc; rw [e1] at hc; exact absurd hc (by simp)
    · simp [readsLeft, e1, he]

/-! ## Steps of the main goroutine in a fault-free swap -/

theorem inv_main_chk {p1 p2 : GoString} {A B : List Byte} {r w : Nat} {fs0 : FS} {base : Nat}
    {s s' : State} {i : Nat}
    (h : Inv p1 p2 A B r w fs0 base s) (hr : 1 ≤ r) (hw : 1 ≤ w) (hne : p1 ≠ p2)
    (hpc : s.pc = MainPc.chk i) (hs : stepMain s = some s') :
    ∃ base', Inv p1 p2 A B r w fs0 base' s' ∧ stepsLeft s' < stepsLeft s := by
  refine ⟨base, ?_⟩
  have herr := h.errCh
  simp only [stepMain, hpc, herr, Option.some.injEq] at hs
  subst hs
  refine ⟨?_, ?_⟩
  · obtain ⟨hE, hP, hF, hO, hF1, hF2, hWg, hN1, hN2, hR1, hR2, hD1, hD2, hS1, hS2, hG1e, hG1, hG2e, hG2, hC1, hC2, hPc, hPast, hFwd, hSw⟩ := h
    simp [hpc, truncatedFirst, truncatedSecond, afterFirst, afterSecond, pendSecond, pendFirst, forwarding, pastWait] at hE hP hF hO hF1 hF2 hWg hN1 hN2 hR1 hR2 hD1 hD2 hS1 hS2 hG1e hG1 hG2e hG2 hC1 hC2 hPc hPast hFwd hSw
    constructor <;>
      simp [truncatedFirst, truncatedSecond, afterFirst, afterSecond, pendSecond, pendFirst, forwarding, pastWait] <;> first | assumption | omega | (simp_all; done)
  · simp only [stepsLeft, hpc, mainWeight]
    omega

theorem inv_main_waitSend {p1 p2 : GoString} {A B : List Byte} {r w : Nat} {fs0 : FS} {base : Nat}
    {s s' : State}
    (h : Inv p1 p2 A B r w fs0 base s) (hr : 1 ≤ r) (hw : 1 ≤ w) (hne : p1 ≠ p2)
    (hpc : s.pc = MainPc.waitSend) (hs : stepMain s = some s') :
    ∃ base', Inv p1 p2 A B r w fs0 base' s' ∧ stepsLeft s' < stepsLeft s := by
  refine ⟨base, ?_⟩
  simp only [stepMain, hpc] at hs
  by_cases hz : s.sendBytesWg = 0
  · simp only [hz, if_true, Option.some.injEq] at hs
    subst hs
    have hfw : s.fwd = none := by
      have := h.sendWg
      rw [hz] at this
      by_contra hc
      simp [hc] at this
    refine ⟨?_, ?_⟩
    · obtain ⟨hE, hP, hF, hO, hF1, hF2, hWg, hN1, hN2, hR1, hR2, hD1, hD2, hS1, hS2, hG1e, hG1, hG2e, hG2, hC1, hC2, hPc, hPast, hFwd, hSw⟩ := h
      simp [hpc, hfw, truncatedFirst, truncatedSecond, afterFirst, afterSecond, pendSecond, pendFirst, forwarding, pastWait] at hE hP hF hO hF1 hF2 hWg hN1 hN2 hR1 hR2 hD1 hD2 hS1 hS2 hG1e hG1 hG2e hG2 hC1 hC2 hPc hPast hFwd hSw
      constructor <;>
      simp [truncatedFirst, truncatedSecond, afterFirst, afterSecond, pendSecond, pendFirst, forwarding, pastWait] <;> first | assumption | omega | (simp_all; done)
    · simp only [stepsLeft, hpc, mainWeight]
      omega
  · simp [hz] at hs

theorem inv_main_waitRecord {p1 p2 : GoString} {A B : List Byte} {r w : Nat} {fs0 : FS} {base : Nat}
    {s s' : State}
    (h : Inv p1 p2 A B r w fs0 base s) (hr : 1 ≤ r) (hw : 1 ≤ w) (hne : p1 ≠ p2)
    (hpc : s.pc = MainPc.waitRecord) (hs : stepMain s = some s') :
    ∃ base', Inv p1 p2 A B r w fs0 base' s' ∧ stepsLeft s' < stepsLeft s := by
  refine ⟨base, ?_⟩
  simp only [stepMain, hpc] at hs
  by_cases hz : s.world.recordWg = 0
  · simp only [hz, if_true, Option.some.injEq] at hs
    subst hs
    have hret : s.sinkFirst.pc = SinkPc.returned ∧ s.sinkSecond.pc = SinkPc.returned := by
      have := h.wg
      rw [hz] at this
      constructor <;> by_contra hc <;> simp [hc] at this <;> omega
    refine ⟨?_, ?_⟩
    · obtain ⟨hE, hP, hF, hO, hF1, hF2, hWg, hN1, hN2, hR1, hR2, hD1, hD2, hS1, hS2, hG1e, hG1, hG2e, hG2, hC1, hC2, hPc, hPast, hFwd, hSw⟩ := h
      simp [hpc, truncatedFirst, truncatedSecond, afterFirst, afterSecond, pendSecond, pendFirst, forwarding, pastWait] at hE hP hF hO hF1 hF2 hWg hN1 hN2 hR1 hR2 hD1 hD2 hS1 hS2 hG1e hG1 hG2e hG2 hC1 hC2 hPc hPast hFwd hSw
      constructor <;>
      simp [truncatedFirst, truncatedSecond, afterFirst, afterSecond, pendSecond, pendFirst, forwarding, pastWait] <;> first | assumption | omega | (simp_all; done)
    · simp only [stepsLeft, hpc, mainWeight]
      omega
  · simp [hz] at hs

theorem inv_main_finalCheck {p1 p2 : GoString} {A B : List Byte} {r w : Nat} {fs0 : FS} {base : Nat}
    {s s' : State}
    (h : Inv p1 p2 A B r w fs0 base s) (hr : 1 ≤ r) (hw : 1 ≤ w) (hne : p1 ≠ p2)
    (hpc : s.pc = MainPc.finalCheck) (hs : stepMain s = some s') :
    ∃ base', Inv p1 p2 A B r w fs0 base' s' ∧ stepsLeft s' < stepsLeft s := by
  refine ⟨base, ?_⟩
  have herr := h.errCh
  simp only [stepMain, hpc, herr, Option.some.injEq] at hs
  subst hs
  refine ⟨?_, ?_⟩
  · obtain ⟨hE, hP, hF, hO, hF1, hF2, hWg, hN1, hN2, hR1, hR2, hD1, hD2, hS1, hS2, hG1e, hG1, hG2e, hG2, hC1, hC2, hPc, hPast, hFwd, hSw⟩ := h
    simp [hpc, truncatedFirst, truncatedSecond, afterFirst, afterSecond, pendSecond, pendFirst, forwarding, pastWait] at hE hP hF hO hF1 hF2 hWg hN1 hN2 hR1 hR2 hD1 hD2 hS1 hS2 hG1e hG1 hG2e hG2 hC1 hC2 hPc hPast hFwd hSw
    constructor <;>
      simp [truncatedFirst, truncatedSecond, afterFirst, afterSecond, pendSecond, pendFirst, forwarding, pastWait] <;> first | assumption | omega | (simp_all; done)
  · simp only [stepsLeft, hpc, mainWeight]
    omega

theorem inv_main_send {p1 p2 : GoString} {A B : List Byte} {r w : Nat} {fs0 : FS} {base : Nat}
    {s s' : State} {i : Nat}
    (h : Inv p1 p2 A B r w fs0 base s) (hr : 1 ≤ r) (hw : 1 ≤ w) (hne : p1 ≠ p2)
    (hpc : s.pc = MainPc.send i) (hs : stepMain s = some s') :
    ∃ base', Inv p1 p2 A B r w fs0 base' s' ∧ stepsLeft s' < stepsLeft s := by
  refine ⟨base, ?_⟩
  have hpcok := h.pcok
  simp only [hpc] at hpcok
  obtain ⟨he2, hi⟩ := hpcok
  have hr2 := h.reader2
  simp only [hpc, afterSecond] at hr2
  obtain ⟨hL, t, ht, htake⟩ := hr2.block he2 rfl
  have hpos := hr2.pos he2
  simp only [if_true] at hpos
  obtain ⟨ch, hch1, hch2⟩ := block_get B t (min base B.length) s.secondL i htake hi (by omega)
  have hcl : s.closedSecond = false := by
    rw [h.closed2, he2]; rfl
  have hg1 := h.got1 he2
  simp only [pendSecond, hpc] at hg1
  simp only [stepMain, hpc, ht, Option.some_bind, hch1, hcl, Bool.false_eq_true, if_false] at hs
  by_cases hrecv : s.sinkFirst.pc = SinkPc.recv
  · simp only [hrecv, if_true, Option.some.injEq] at hs
    subst hs
    have hs1 := h.sink1
    have hgot : s.sinkFirst.got = s.sinkFirst.chIndex + s.sinkFirst.currSymbol := by
      simp [Sink.got, hrecv]
    have hpk := hs1.pcok
    simp only [hrecv] at hpk
    have hsink : SinkOk w B s.closedSecond (s.sinkFirst.deliver ch) := by
      refine ⟨hs1.wbs, hs1.buflen, ?_, ?_, ?_⟩
      · simp only [Sink.got, Sink.deliver]; omega
      · intro hc; rw [hcl] at hc; exact absurd hc (by simp)
      · simp only [Sink.deliver]
        refine ⟨hpk.1, hpk.2, ?_⟩
        rw [← hch2]
        congr 1
        omega
    have hgot' : (s.sinkFirst.deliver ch).got = s.sinkFirst.got + 1 := by
      rw [hgot]; simp only [Sink.got, Sink.deliver]
    have hsz := hr2.size
    have hwt : sinkWeight (s.sinkFirst.deliver ch).pc = 5 := rfl
    have hwt0 : sinkWeight s.sinkFirst.pc = 3 := by rw [hrecv]; rfl
    rw [hcl] at hsink
    refine ⟨?_, ?_⟩
    · obtain ⟨hE, hP, hF, hO, hF1, hF2, hWg, hN1, hN2, hR1, hR2, hD1, hD2, hS1, hS2, hG1e, hG1, hG2e, hG2, hC1, hC2, hPc, hPast, hFwd, hSw⟩ := h
      simp [hpc, ht, hcl, hrecv, truncatedFirst, truncatedSecond, afterFirst, afterSecond, pendSecond, pendFirst, forwarding, pastWait] at hE hP hF hO hF1 hF2 hWg hN1 hN2 hR1 hR2 hD1 hD2 hS1 hS2 hG1e hG1 hG2e hG2 hC1 hC2 hPc hPast hFwd hSw
      by_cases hlast : i + 1 < s.secondL
      · simp only [hlast, if_true]
        constructor <;>
      simp [truncatedFirst, truncatedSecond, afterFirst, afterSecond, pendSecond, pendFirst, forwarding, pastWait] <;> first | assumption | omega | (simp_all; done)
      · simp only [hlast, if_false]
        constructor <;>
      simp [truncatedFirst, truncatedSecond, afterFirst, afterSecond, pendSecond, pendFirst, forwarding, pastWait] <;> first | assumption | omega | (simp_all; done)
    · simp only [stepsLeft, hpc, hgot', hwt, hwt0]
      by_cases hlast : i + 1 < s.secondL
      · simp only [hlast, if_true, mainWeight]
        omega
      · simp only [hlast, if_false, mainWeight]
        omega
  · simp [hrecv] at hs

theorem Sink.chIndex_le_got (k : Sink) : k.chIndex ≤ k.got := by
  unfold Sink.got
  cases k.pc <;> simp
  omega

theorem faults_reads_eta : ({ noFaults with reads := noFaults.reads } : Faults) = noFaults := rfl

set_option maxHeartbeats 2000000 in
theorem inv_main_readFirst {p1 p2 : GoString} {A B : List Byte} {r w : Nat} {fs0 : FS} {base : Nat}
    {s s' : State}
    (h : Inv p1 p2 A B r w fs0 base s) (hr : 1 ≤ r) (hw : 1 ≤ w) (hne : p1 ≠ p2)
    (hpc : s.pc = MainPc.readFirst) (hs : stepMain s = some s') :
    ∃ base', Inv p1 p2 A B r w fs0 base' s' ∧ stepsLeft s' < stepsLeft s := by
  refine ⟨base, ?_⟩
  have hpcok := h.pcok
  simp only [hpc] at hpcok
  obtain ⟨he1, hfw⟩ := hpcok
  have hr1 := h.reader1
  have hr2 := h.reader2
  simp only [hpc, afterFirst, afterSecond] at hr1 hr2
  have hfile := h.file1
  simp only [hpc, truncatedFirst, Bool.false_eq_true, if_false] at hfile
  have hcontent : s.world.fs.content s.first.name
      = B.take s.sinkFirst.chIndex ++ A.drop s.sinkFirst.chIndex := by
    rw [h.name1]; simp [FS.content, hfile]
  have hc1 := Sink.chIndex_le_got s.sinkFirst
  have hgB := h.sink1.gotle
  have hgb : s.sinkFirst.got ≤ base := by
    cases he2 : s.second.eof
    · have h1 := h.got1 he2
      have h2 := hr2.pos he2
      simp only [pendSecond, hpc, Bool.false_eq_true, if_false] at h1 h2
      omega
    · have h1 := h.got1e he2
      have h2 := hr2.fin he2
      omega
  have hpos := hr1.pos he1
  simp only [Bool.false_eq_true, if_false, Nat.add_zero] at hpos
  have hX : s.first.offset < A.length →
      (B.take s.sinkFirst.chIndex ++ A.drop s.sinkFirst.chIndex).length = A.length
      ∧ (B.take s.sinkFirst.chIndex ++ A.drop s.sinkFirst.chIndex).drop s.first.offset
          = A.drop s.first.offset := by
    intro hlt
    refine ⟨?_, overlay_drop B A _ _ (by omega) (by omega)⟩
    rw [overlay_length B A _ (by omega)]
    omega
  obtain ⟨hR, hname, hoffn, hend, hreads⟩ := ReaderOk.read hr hr1 he1 hX
  have hg2 := h.got2 he1
  simp only [pendFirst, hpc, hfw] at hg2
  simp only [stepMain, hpc, h.faults, nextOutcome_noFaults_reads, FileReader.sysRead, hcontent,
    faults_reads_eta, Option.some.injEq] at hs
  generalize s.first.ReadBytes (readAt (B.take s.sinkFirst.chIndex ++ A.drop s.sinkFirst.chIndex)
    s.first.buf s.first.offset) = res at *
  have hworld : ({ s.world with faults := noFaults } : World) = s.world := by
    rw [← h.faults]
  rw [hworld] at hs
  have hm : stepsLeft s = 17 * (readsLeft s.first + readsLeft s.second) + 5
      + (4 * (s.second.size - s.sinkFirst.got) + sinkWeight s.sinkFirst.pc)
      + (4 * (s.first.size - s.sinkSecond.got) + sinkWeight s.sinkSecond.pc) := by
    simp only [stepsLeft, hpc, hfw, mainWeight, fwdWeight]
  have hsz := hR.size
  have hsz0 := hr1.size
  cases hre : res.1.eof
  · -- the block is to be forwarded
    have hoffn' := hoffn hre
    cases he2 : s.second.eof
    · simp only [hre, FileReader.EOF, State.toReadSecond, he2, Bool.false_eq_true, if_false,
        Bool.not_false, if_true] at hs
      subst hs
      refine ⟨?_, ?_⟩
      · obtain ⟨hE, hP, hF, hO, hF1, hF2, hWg, hN1, hN2, hR1, hR2, hD1, hD2, hS1, hS2, hG1e, hG1, hG2e, hG2, hC1, hC2, hPc, hPast, hFwd, hSw⟩ := h
        simp [hpc, truncatedFirst, truncatedSecond, afterFirst, afterSecond, pendSecond, pendFirst, forwarding, pastWait] at hE hP hF hO hF1 hF2 hWg hN1 hN2 hR1 hR2 hD1 hD2 hS1 hS2 hG1e hG1 hG2e hG2 hC1 hC2 hPc hPast hFwd hSw
        constructor <;>
      simp [truncatedFirst, truncatedSecond, afterFirst, afterSecond, pendSecond, pendFirst, forwarding, pastWait] <;> first | assumption | omega | (exact ReaderOk.of_eof hr2 he2) | (simp_all; done) | (simp_all; omega) | skip
      · rw [hm]
        simp only [stepsLeft, mainWeight, fwdWeight, hfw, hsz, hsz0]
        omega
    · simp only [hre, FileReader.EOF, State.toReadSecond, State.toSpawn, he2, Bool.false_eq_true,
        if_false, Bool.not_false, Bool.not_true, if_true] at hs
      subst hs
      refine ⟨?_, ?_⟩
      · obtain ⟨hE, hP, hF, hO, hF1, hF2, hWg, hN1, hN2, hR1, hR2, hD1, hD2, hS1, hS2, hG1e, hG1, hG2e, hG2, hC1, hC2, hPc, hPast, hFwd, hSw⟩ := h
        simp [hpc, truncatedFirst, truncatedSecond, afterFirst, afterSecond, pendSecond, pendFirst, forwarding, pastWait] at hE hP hF hO hF1 hF2 hWg hN1 hN2 hR1 hR2 hD1 hD2 hS1 hS2 hG1e hG1 hG2e hG2 hC1 hC2 hPc hPast hFwd hSw
        constructor <;>
      simp [truncatedFirst, truncatedSecond, afterFirst, afterSecond, pendSecond, pendFirst, forwarding, pastWait] <;> first | assumption | omega | (exact ReaderOk.of_eof hr2 he2) | (simp_all; done) | (simp_all; omega) | skip
      · rw [hm]
        simp only [stepsLeft, mainWeight, fwdWeight, hfw, hsz, hsz0]
        omega
  · simp only [hre, FileReader.EOF, if_true] at hs
    subst hs
    have hend' := hend hre
    refine ⟨?_, ?_⟩
    · obtain ⟨hE, hP, hF, hO, hF1, hF2, hWg, hN1, hN2, hR1, hR2, hD1, hD2, hS1, hS2, hG1e, hG1, hG2e, hG2, hC1, hC2, hPc, hPast, hFwd, hSw⟩ := h
      simp [hpc, truncatedFirst, truncatedSecond, afterFirst, afterSecond, pendSecond, pendFirst, forwarding, pastWait] at hE hP hF hO hF1 hF2 hWg hN1 hN2 hR1 hR2 hD1 hD2 hS1 hS2 hG1e hG1 hG2e hG2 hC1 hC2 hPc hPast hFwd hSw
      constructor <;>
      simp [truncatedFirst, truncatedSecond, afterFirst, afterSecond, pendSecond, pendFirst, forwarding, pastWait] <;> first | assumption | omega | (simp_all; done) | (simp_all; omega) | skip
    · rw [hm]
      simp only [stepsLeft, mainWeight, fwdWeight, hfw, hsz, hsz0]
      omega

set_option maxHeartbeats 2000000 in
theorem inv_main_readSecond {p1 p2 : GoString} {A B : List Byte} {r w : Nat} {fs0 : FS} {base : Nat}
    {s s' : State}
    (h : Inv p1 p2 A B r w fs0 base s) (hr : 1 ≤ r) (hw : 1 ≤ w) (hne : p1 ≠ p2)
    (hpc : s.pc = MainPc.readSecond) (hs : stepMain s = some s') :
    ∃ base', Inv p1 p2 A B r w fs0 base' s' ∧ stepsLeft s' < stepsLeft s := by
  refine ⟨base, ?_⟩
  have hpcok := h.pcok
  simp only [hpc] at hpcok
  obtain ⟨he2, hfw⟩ := hpcok
  have hr1 := h.reader1
  have hr2 := h.reader2
  simp only [hpc, afterFirst, afterSecond] at hr1 hr2
  have hfile := h.file2
  simp only [hpc, truncatedSecond, Bool.false_eq_true, if_false] at hfile
  have hcontent : s.world.fs.content s.second.name
      = A.take s.sinkSecond.chIndex ++ B.drop s.sinkSecond.chIndex := by
    rw [h.name2]; simp [FS.content, hfile]
  have hc1 := Sink.chIndex_le_got s.sinkSecond
  have hgA := h.sink2.gotle
  have hgb : s.sinkSecond.got ≤ base := by
    cases he1 : s.first.eof
    · have h1 := h.got2 he1
      have h2 := hr1.pos he1
      have h3 := (hr1.block he1 rfl).1
      simp only [pendFirst, hpc, hfw, if_true] at h1 h2
      omega
    · have h1 := h.got2e he1
      have h2 := hr1.fin he1
      omega
  have hpos := hr2.pos he2
  simp only [Bool.false_eq_true, if_false, Nat.add_zero] at hpos
  have hX : s.second.offset < B.length →
      (A.take s.sinkSecond.chIndex ++ B.drop s.sinkSecond.chIndex).length = B.length
      ∧ (A.take s.sinkSecond.chIndex ++ B.drop s.sinkSecond.chIndex).drop s.second.offset
          = B.drop s.second.offset := by
    intro hlt
    refine ⟨?_, overlay_drop A B _ _ (by omega) (by omega)⟩
    rw [overlay_length A B _ (by omega)]
    omega
  obtain ⟨hR, hname, hoffn, hend, hreads⟩ := ReaderOk.read hr hr2 he2 hX
  have hg1 := h.got1 he2
  simp only [pendSecond, hpc] at hg1
  simp only [stepMain, hpc, h.faults, nextOutcome_noFaults_reads, FileReader.sysRead, hcontent,
    faults_reads_eta, Option.some.injEq] at hs
  generalize s.second.ReadBytes (readAt (A.take s.sinkSecond.chIndex ++ B.drop s.sinkSecond.chIndex)
    s.second.buf s.second.offset) = res at *
  have hworld : ({ s.world with faults := noFaults } : World) = s.world := by
    rw [← h.faults]
  rw [hworld] at hs
  have hm : stepsLeft s = 17 * (readsLeft s.first + readsLeft s.second) + 5
      + (4 * (s.second.size - s.sinkFirst.got) + sinkWeight s.sinkFirst.pc)
      + (4 * (s.first.size - s.sinkSecond.got) + sinkWeight s.sinkSecond.pc) := by
    simp only [stepsLeft, hpc, hfw, mainWeight, fwdWeight]
  have hsz := hR.size
  have hsz0 := hr2.size
  cases hre : res.1.eof
  · -- the block is to be forwarded
    have hoffn' := hoffn hre
    cases he1 : s.first.eof
    · simp only [hre, FileReader.EOF, State.toSpawn, he1, Bool.false_eq_true, if_false,
        Bool.not_false, if_true] at hs
      subst hs
      refine ⟨?_, ?_⟩
      · obtain ⟨hE, hP, hF, hO, hF1, hF2, hWg, hN1, hN2, hR1, hR2, hD1, hD2, hS1, hS2, hG1e, hG1, hG2e, hG2, hC1, hC2, hPc, hPast, hFwd, hSw⟩ := h
        simp [hpc, truncatedFirst, truncatedSecond, afterFirst, afterSecond, pendSecond, pendFirst, forwarding, pastWait] at hE hP hF hO hF1 hF2 hWg hN1 hN2 hR1 hR2 hD1 hD2 hS1 hS2 hG1e hG1 hG2e hG2 hC1 hC2 hPc hPast hFwd hSw
        constructor <;>
      simp [truncatedFirst, truncatedSecond, afterFirst, afterSecond, pendSecond, pendFirst, forwarding, pastWait] <;> first | assumption | omega | (simp_all; done) | (simp_all; omega) | skip
      · rw [hm]
        simp only [stepsLeft, mainWeight, fwdWeight, hfw, hsz, hsz0]
        omega
    · simp only [hre, FileReader.EOF, State.toSpawn, State.toForwardSecond, he1,
        Bool.false_eq_true, if_false, Bool.not_false, Bool.not_true, if_true, hoffn'.2,
        and_self] at hs
      subst hs
      refine ⟨?_, ?_⟩
      · obtain ⟨hE, hP, hF, hO, hF1, hF2, hWg, hN1, hN2, hR1, hR2, hD1, hD2, hS1, hS2, hG1e, hG1, hG2e, hG2, hC1, hC2, hPc, hPast, hFwd, hSw⟩ := h
        simp [hpc, truncatedFirst, truncatedSecond, afterFirst, afterSecond, pendSecond, pendFirst, forwarding, pastWait] at hE hP hF hO hF1 hF2 hWg hN1 hN2 hR1 hR2 hD1 hD2 hS1 hS2 hG1e hG1 hG2e hG2 hC1 hC2 hPc hPast hFwd hSw
        constructor <;>
      simp [truncatedFirst, truncatedSecond, afterFirst, afterSecond, pendSecond, pendFirst, forwarding, pastWait] <;> first | assumption | omega | (simp_all; done) | (simp_all; omega) | skip
      · rw [hm]
        simp only [stepsLeft, mainWeight, fwdWeight, hfw, hsz, hsz0]
        omega
  · simp only [hre, FileReader.EOF, if_true] at hs
    subst hs
    have hend' := hend hre
    refine ⟨?_, ?_⟩
    · obtain ⟨hE, hP, hF, hO, hF1, hF2, hWg, hN1, hN2, hR1, hR2, hD1, hD2, hS1, hS2, hG1e, hG1, hG2e, hG2, hC1, hC2, hPc, hPast, hFwd, hSw⟩ := h
      simp [hpc, truncatedFirst, truncatedSecond, afterFirst, afterSecond, pendSecond, pendFirst, forwarding, pastWait] at hE hP hF hO hF1 hF2 hWg hN1 hN2 hR1 hR2 hD1 hD2 hS1 hS2 hG1e hG1 hG2e hG2 hC1 hC2 hPc hPast hFwd hSw
      constructor <;>
      simp [truncatedFirst, truncatedSecond, afterFirst, afterSecond, pendSecond, pendFirst, forwarding, pastWait] <;> first | assumption | omega | (simp_all; done) | (simp_all; omega) | skip
    · rw [hm]
      simp only [stepsLeft, mainWeight, fwdWeight, hfw, hsz, hsz0]
      omega

set_option maxHeartbeats 2000000 in
theorem inv_main_closeFirst {p1 p2 : GoString} {A B : List Byte} {r w : Nat} {fs0 : FS} {base : Nat}
    {s s' : State}
    (h : Inv p1 p2 A B r w fs0 base s) (hr : 1 ≤ r) (hw : 1 ≤ w) (hne : p1 ≠ p2)
    (hpc : s.pc = MainPc.closeFirst) (hs : stepMain s = some s') :
    ∃ base', Inv p1 p2 A B r w fs0 base' s' ∧ stepsLeft s' < stepsLeft s := by
  refine ⟨base, ?_⟩
  have hpcok := h.pcok
  simp only [hpc] at hpcok
  obtain ⟨he1, hfw⟩ := hpcok
  have hcl : s.closedFirst = false := by
    rw [h.closed1, hpc]; simp
  have hs2 : SinkOk w A true s.sinkSecond := SinkOk.close h.sink2 (h.got2e he1) hcl
  have hr2 := h.reader2
  simp only [hpc, afterSecond] at hr2
  have hm : stepsLeft s = 17 * (readsLeft s.first + readsLeft s.second) + 16
      + (4 * (s.second.size - s.sinkFirst.got) + sinkWeight s.sinkFirst.pc)
      + (4 * (s.first.size - s.sinkSecond.got) + sinkWeight s.sinkSecond.pc) := by
    simp only [stepsLeft, hpc, hfw, mainWeight, fwdWeight]
  simp only [stepMain, hpc, hcl, Bool.false_eq_true, if_false, Option.some.injEq] at hs
  cases he2 : s.second.eof
  · simp only [FileReader.EOF, State.toReadSecond, he2, Bool.false_eq_true, if_false,
      Bool.not_false, if_true] at hs
    subst hs
    refine ⟨?_, ?_⟩
    · obtain ⟨hE, hP, hF, hO, hF1, hF2, hWg, hN1, hN2, hR1, hR2, hD1, hD2, hS1, hS2, hG1e, hG1, hG2e, hG2, hC1, hC2, hPc, hPast, hFwd, hSw⟩ := h
      simp [hpc, truncatedFirst, truncatedSecond, afterFirst, afterSecond, pendSecond, pendFirst, forwarding, pastWait] at hE hP hF hO hF1 hF2 hWg hN1 hN2 hR1 hR2 hD1 hD2 hS1 hS2 hG1e hG1 hG2e hG2 hC1 hC2 hPc hPast hFwd hSw
      constructor <;>
      simp [truncatedFirst, truncatedSecond, afterFirst, afterSecond, pendSecond, pendFirst, forwarding, pastWait] <;> first | assumption | omega | (simp_all; done) | (simp_all; omega) | skip
    · rw [hm]
      simp only [stepsLeft, mainWeight, fwdWeight, hfw]
      omega
  · simp only [FileReader.EOF, State.toReadSecond, State.toSpawn, State.toForwardSecond, he1, he2,
      Bool.false_eq_true, if_false, Bool.not_true, false_and] at hs
    subst hs
    refine ⟨?_, ?_⟩
    · obtain ⟨hE, hP, hF, hO, hF1, hF2, hWg, hN1, hN2, hR1, hR2, hD1, hD2, hS1, hS2, hG1e, hG1, hG2e, hG2, hC1, hC2, hPc, hPast, hFwd, hSw⟩ := h
      simp [hpc, truncatedFirst, truncatedSecond, afterFirst, afterSecond, pendSecond, pendFirst, forwarding, pastWait] at hE hP hF hO hF1 hF2 hWg hN1 hN2 hR1 hR2 hD1 hD2 hS1 hS2 hG1e hG1 hG2e hG2 hC1 hC2 hPc hPast hFwd hSw
      constructor <;>
      simp [truncatedFirst, truncatedSecond, afterFirst, afterSecond, pendSecond, pendFirst, forwarding, pastWait] <;> first | assumption | omega | (exact ReaderOk.of_eof hr2 he2) | (simp_all; done) | (simp_all; omega) | skip
    · rw [hm]
      simp only [stepsLeft, mainWeight, fwdWeight, hfw]
      omega

set_option maxHeartbeats 2000000 in
theorem inv_main_closeSecond {p1 p2 : GoString} {A B : List Byte} {r w : Nat} {fs0 : FS} {base : Nat}
    {s s' : State}
    (h : Inv p1 p2 A B r w fs0 base s) (hr : 1 ≤ r) (hw : 1 ≤ w) (hne : p1 ≠ p2)
    (hpc : s.pc = MainPc.closeSecond) (hs : stepMain s = some s') :
    ∃ base', Inv p1 p2 A B r w fs0 base' s' ∧ stepsLeft s' < stepsLeft s := by
  refine ⟨base, ?_⟩
  have hpcok := h.pcok
  simp only [hpc] at hpcok
  obtain ⟨he2, hfw⟩ := hpcok
  have hcl : s.closedSecond = false := by
    rw [h.closed2, hpc]; simp
  have hs1 : SinkOk w B true s.sinkFirst := SinkOk.close h.sink1 (h.got1e he2) hcl
  have hm : stepsLeft s = 17 * (readsLeft s.first + readsLeft s.second) + 15
      + (4 * (s.second.size - s.sinkFirst.got) + sinkWeight s.sinkFirst.pc)
      + (4 * (s.first.size - s.sinkSecond.got) + sinkWeight s.sinkSecond.pc) := by
    simp only [stepsLeft, hpc, hfw, mainWeight, fwdWeight]
  simp only [stepMain, hpc, hcl, Bool.false_eq_true, if_false, Option.some.injEq] at hs
  cases he1 : s.first.eof
  · simp only [FileReader.EOF, State.toSpawn, he1, Bool.false_eq_true, if_false,
      Bool.not_false, if_true] at hs
    subst hs
    refine ⟨?_, ?_⟩
    · obtain ⟨hE, hP, hF, hO, hF1, hF2, hWg, hN1, hN2, hR1, hR2, hD1, hD2, hS1, hS2, hG1e, hG1, hG2e, hG2, hC1, hC2, hPc, hPast, hFwd, hSw⟩ := h
      simp [hpc, truncatedFirst, truncatedSecond, afterFirst, afterSecond, pendSecond, pendFirst, forwarding, pastWait] at hE hP hF hO hF1 hF2 hWg hN1 hN2 hR1 hR2 hD1 hD2 hS1 hS2 hG1e hG1 hG2e hG2 hC1 hC2 hPc hPast hFwd hSw
      constructor <;>
      simp [truncatedFirst, truncatedSecond, afterFirst, afterSecond, pendSecond, pendFirst, forwarding, pastWait] <;> first | assumption | omega | (simp_all; done) | (simp_all; omega) | skip
    · rw [hm]
      simp only [stepsLeft, mainWeight, fwdWeight, hfw]
      omega
  · simp only [FileReader.EOF, State.toSpawn, State.toForwardSecond, he1, he2,
      Bool.false_eq_true, if_false, Bool.not_true, false_and] at hs
    subst hs
    refine ⟨?_, ?_⟩
    · obtain ⟨hE, hP, hF, hO, hF1, hF2, hWg, hN1, hN2, hR1, hR2, hD1, hD2, hS1, hS2, hG1e, hG1, hG2e, hG2, hC1, hC2, hPc, hPast, hFwd, hSw⟩ := h
      simp [hpc, truncatedFirst, truncatedSecond, afterFirst, afterSecond, pendSecond, pendFirst, forwarding, pastWait] at hE hP hF hO hF1 hF2 hWg hN1 hN2 hR1 hR2 hD1 hD2 hS1 hS2 hG1e hG1 hG2e hG2 hC1 hC2 hPc hPast hFwd hSw
      constructor <;>
      simp [truncatedFirst, truncatedSecond, afterFirst, afterSecond, pendSecond, pendFirst, forwarding, pastWait] <;> first | assumption | omega | (simp_all; done) | (simp_all; omega) | skip
    · rw [hm]
      simp only [stepsLeft, mainWeight, fwdWeight, hfw]
      omega

set_option maxHeartbeats 2000000 in
theorem inv_main_roundCheck {p1 p2 : GoString} {A B : List Byte} {r w : Nat} {fs0 : FS} {base : Nat}
    {s s' : State}
    (h : Inv p1 p2 A B r w fs0 base s) (hr : 1 ≤ r) (hw : 1 ≤ w) (hne : p1 ≠ p2)
    (hpc : s.pc = MainPc.roundCheck) (hs : stepMain s = some s') :
    ∃ base', Inv p1 p2 A B r w fs0 base' s' ∧ stepsLeft s' < stepsLeft s := by
  refine ⟨base + r, ?_⟩
  have hfw := h.pcok
  simp only [hpc] at hfw
  have herr := h.errCh
  have hr1 := h.reader1
  have hr2 := h.reader2
  simp only [hpc, afterFirst, afterSecond] at hr1 hr2
  have hm : stepsLeft s = 17 * (readsLeft s.first + readsLeft s.second) + 6
      + (4 * (s.second.size - s.sinkFirst.got) + sinkWeight s.sinkFirst.pc)
      + (4 * (s.first.size - s.sinkSecond.got) + sinkWeight s.sinkSecond.pc) := by
    simp only [stepsLeft, hpc, hfw, mainWeight, fwdWeight]
  simp only [stepMain, hpc, herr, Option.some.injEq] at hs
  cases he1 : s.first.eof
  · simp only [FileReader.EOF, State.toLoop, he1, Bool.not_false, true_or, if_true] at hs
    subst hs
    have hn1 : ReaderOk r A (base + r) false s.first s.firstL s.firstText :=
      ReaderOk.next hr1 (fun _ => rfl)
    have hn2 : ReaderOk r B (base + r) false s.second s.secondL s.secondText :=
      ReaderOk.next hr2 (fun _ => rfl)
    refine ⟨?_, ?_⟩
    · obtain ⟨hE, hP, hF, hO, hF1, hF2, hWg, hN1, hN2, hR1, hR2, hD1, hD2, hS1, hS2, hG1e, hG1, hG2e, hG2, hC1, hC2, hPc, hPast, hFwd, hSw⟩ := h
      simp [hpc, truncatedFirst, truncatedSecond, afterFirst, afterSecond, pendSecond, pendFirst, forwarding, pastWait] at hE hP hF hO hF1 hF2 hWg hN1 hN2 hR1 hR2 hD1 hD2 hS1 hS2 hG1e hG1 hG2e hG2 hC1 hC2 hPc hPast hFwd hSw
      constructor <;>
      simp [truncatedFirst, truncatedSecond, afterFirst, afterSecond, pendSecond, pendFirst, forwarding, pastWait] <;> first | assumption | omega | (simp_all; done) | (simp_all; omega) | skip
    · rw [hm]
      simp only [stepsLeft, mainWeight, fwdWeight, hfw]
      omega
  · cases he2 : s.second.eof
    · simp only [FileReader.EOF, State.toLoop, State.toReadSecond, he1, he2, Bool.not_false,
        Bool.not_true, or_true, if_true, Bool.false_eq_true, if_false] at hs
      subst hs
      have hn1 : ReaderOk r A (base + r) true s.first s.firstL s.firstText :=
        ReaderOk.next hr1 (fun hc => by rw [he1] at hc; exact absurd hc (by simp))
      have hn2 : ReaderOk r B (base + r) false s.second s.secondL s.secondText :=
        ReaderOk.next hr2 (fun _ => rfl)
      refine ⟨?_, ?_⟩
      · obtain ⟨hE, hP, hF, hO, hF1, hF2, hWg, hN1, hN2, hR1, hR2, hD1, hD2, hS1, hS2, hG1e, hG1, hG2e, hG2, hC1, hC2, hPc, hPast, hFwd, hSw⟩ := h
        simp [hpc, truncatedFirst, truncatedSecond, afterFirst, afterSecond, pendSecond, pendFirst, forwarding, pastWait] at hE hP hF hO hF1 hF2 hWg hN1 hN2 hR1 hR2 hD1 hD2 hS1 hS2 hG1e hG1 hG2e hG2 hC1 hC2 hPc hPast hFwd hSw
        constructor <;>
      simp [truncatedFirst, truncatedSecond, afterFirst, afterSecond, pendSecond, pendFirst, forwarding, pastWait] <;> first | assumption | omega | (simp_all; done) | (simp_all; omega) | skip
      · rw [hm]
        simp only [stepsLeft, mainWeight, fwdWeight, hfw]
        omega
    · simp only [FileReader.EOF, State.toLoop, he1, he2, Bool.not_true, or_self,
        Bool.false_eq_true, if_false] at hs
      subst hs
      have hn1 : ReaderOk r A (base + r) true s.first s.firstL s.firstText :=
        ReaderOk.next hr1 (fun hc => by rw [he1] at hc; exact absurd hc (by simp))
      have hn2 : ReaderOk r B (base + r) true s.second s.secondL s.secondText :=
        ReaderOk.next hr2 (fun hc => by rw [he2] at hc; exact absurd hc (by simp))
      refine ⟨?_, ?_⟩
      · obtain ⟨hE, hP, hF, hO, hF1, hF2, hWg, hN1, hN2, hR1, hR2, hD1, hD2, hS1, hS2, hG1e, hG1, hG2e, hG2, hC1, hC2, hPc, hPast, hFwd, hSw⟩ := h
        simp [hpc, truncatedFirst, truncatedSecond, afterFirst, afterSecond, pendSecond, pendFirst, forwarding, pastWait] at hE hP hF hO hF1 hF2 hWg hN1 hN2 hR1 hR2 hD1 hD2 hS1 hS2 hG1e hG1 hG2e hG2 hC1 hC2 hPc hPast hFwd hSw
        constructor <;>
      simp [truncatedFirst, truncatedSecond, afterFirst, afterSecond, pendSecond, pendFirst, forwarding, pastWait] <;> first | assumption | omega | (simp_all; done) | (simp_all; omega) | skip
      · rw [hm]
        simp only [stepsLeft, mainWeight, fwdWeight, hfw]
        omega

set_option maxHeartbeats 2000000 in
theorem inv_main_truncFirst {p1 p2 : GoString} {A B : List Byte} {r w : Nat} {fs0 : FS} {base : Nat}
    {s s' : State}
    (h : Inv p1 p2 A B r w fs0 base s) (hr : 1 ≤ r) (hw : 1 ≤ w) (hne : p1 ≠ p2)
    (hpc : s.pc = MainPc.truncFirst) (hs : stepMain s = some s') :
    ∃ base', Inv p1 p2 A B r w fs0 base' s' ∧ stepsLeft s' < stepsLeft s := by
  refine ⟨base, ?_⟩
  have hpcok := h.pcok
  simp only [hpc] at hpcok
  obtain ⟨he1, he2, hfw⟩ := hpcok
  obtain ⟨hret1, hret2⟩ := h.past (by rw [hpc]; rfl)
  have hg : s.sinkFirst.chIndex = B.length := by
    have := h.got1e he2
    simpa [Sink.got, hret1] using this
  have hfile := h.file1
  simp only [hpc, truncatedFirst, Bool.false_eq_true, if_false, hg] at hfile
  have hsize := h.reader2.size
  have hn1 := h.name1
  have hft : s.world.faults.truncs p1 = none := by rw [h.faults]; rfl
  have hnew : (s.world.sysTruncate s.first.name s.second.Size).fs = s.world.fs.store p1 B := by
    simp only [World.sysTruncate, hn1, hfile, hft, FileReader.Size, hsize]
    rw [overlay_truncate]
  have hm : stepsLeft s = 17 * (readsLeft s.first + readsLeft s.second) + 3
      + (4 * (s.second.size - s.sinkFirst.got) + sinkWeight s.sinkFirst.pc)
      + (4 * (s.first.size - s.sinkSecond.got) + sinkWeight s.sinkSecond.pc) := by
    simp only [stepsLeft, hpc, hfw, mainWeight, fwdWeight]
  simp only [stepMain, hpc, Option.some.injEq] at hs
  subst hs
  have hw1 : (s.world.sysTruncate s.first.name s.second.Size).errCh = s.world.errCh := rfl
  have hw2 : (s.world.sysTruncate s.first.name s.second.Size).panicked = s.world.panicked := rfl
  have hw3 : (s.world.sysTruncate s.first.name s.second.Size).faults = s.world.faults := rfl
  have hw4 : (s.world.sysTruncate s.first.name s.second.Size).recordWg = s.world.recordWg := rfl
  refine ⟨?_, ?_⟩
  · obtain ⟨hE, hP, hF, hO, hF1, hF2, hWg, hN1, hN2, hR1, hR2, hD1, hD2, hS1, hS2, hG1e, hG1, hG2e, hG2, hC1, hC2, hPc, hPast, hFwd, hSw⟩ := h
    simp [hpc, truncatedFirst, truncatedSecond, afterFirst, afterSecond, pendSecond, pendFirst, forwarding, pastWait] at hE hP hF hO hF1 hF2 hWg hN1 hN2 hR1 hR2 hD1 hD2 hS1 hS2 hG1e hG1 hG2e hG2 hC1 hC2 hPc hPast hFwd hSw
    constructor <;>
      simp [truncatedFirst, truncatedSecond, afterFirst, afterSecond, pendSecond, pendFirst, forwarding, pastWait, hw1, hw2, hw3, hw4, hnew, FS.store, hne, Ne.symm hne] <;> first | assumption | omega | (simp_all; done) | skip
  · rw [hm]
    simp only [stepsLeft, mainWeight, fwdWeight, hfw]
    omega

set_option maxHeartbeats 2000000 in
theorem inv_main_truncSecond {p1 p2 : GoString} {A B : List Byte} {r w : Nat} {fs0 : FS} {base : Nat}
    {s s' : State}
    (h : Inv p1 p2 A B r w fs0 base s) (hr : 1 ≤ r) (hw : 1 ≤ w) (hne : p1 ≠ p2)
    (hpc : s.pc = MainPc.truncSecond) (hs : stepMain s = some s') :
    ∃ base', Inv p1 p2 A B r w fs0 base' s' ∧ stepsLeft s' < stepsLeft s := by
  refine ⟨base, ?_⟩
  have hpcok := h.pcok
  simp only [hpc] at hpcok
  obtain ⟨he1, he2, hfw⟩ := hpcok
  obtain ⟨hret1, hret2⟩ := h.past (by rw [hpc]; rfl)
  have hg : s.sinkSecond.chIndex = A.length := by
    have := h.got2e he1
    simpa [Sink.got, hret2] using this
  have hfile := h.file2
  simp only [hpc, truncatedSecond, Bool.false_eq_true, if_false, hg] at hfile
  have hsize := h.reader1.size
  have hn2 := h.name2
  have hft : s.world.faults.truncs p2 = none := by rw [h.faults]; rfl
  have hnew : (s.world.sysTruncate s.second.name s.first.Size).fs = s.world.fs.store p2 A := by
    simp only [World.sysTruncate, hn2, hfile, hft, FileReader.Size, hsize]
    rw [overlay_truncate]
  have hm : stepsLeft s = 17 * (readsLeft s.first + readsLeft s.second) + 2
      + (4 * (s.second.size - s.sinkFirst.got) + sinkWeight s.sinkFirst.pc)
      + (4 * (s.first.size - s.sinkSecond.got) + sinkWeight s.sinkSecond.pc) := by
    simp only [stepsLeft, hpc, hfw, mainWeight, fwdWeight]
  simp only [stepMain, hpc, Option.some.injEq] at hs
  subst hs
  have hw1 : (s.world.sysTruncate s.second.name s.first.Size).errCh = s.world.errCh := rfl
  have hw2 : (s.world.sysTruncate s.second.name s.first.Size).panicked = s.world.panicked := rfl
  have hw3 : (s.world.sysTruncate s.second.name s.first.Size).faults = s.world.faults := rfl
  have hw4 : (s.world.sysTruncate s.second.name s.first.Size).recordWg = s.world.recordWg := rfl
  refine ⟨?_, ?_⟩
  · obtain ⟨hE, hP, hF, hO, hF1, hF2, hWg, hN1, hN2, hR1, hR2, hD1, hD2, hS1, hS2, hG1e, hG1, hG2e, hG2, hC1, hC2, hPc, hPast, hFwd, hSw⟩ := h
    simp [hpc, truncatedFirst, truncatedSecond, afterFirst, afterSecond, pendSecond, pendFirst, forwarding, pastWait] at hE hP hF hO hF1 hF2 hWg hN1 hN2 hR1 hR2 hD1 hD2 hS1 hS2 hG1e hG1 hG2e hG2 hC1 hC2 hPc hPast hFwd hSw
    constructor <;>
      simp [truncatedFirst, truncatedSecond, afterFirst, afterSecond, pendSecond, pendFirst, forwarding, pastWait, hw1, hw2, hw3, hw4, hnew, FS.store, hne, Ne.symm hne] <;> first | assumption | omega | (simp_all; done) | skip
  · rw [hm]
    simp only [stepsLeft, mainWeight, fwdWeight, hfw]
    omega

set_option maxHeartbeats 2000000 in
theorem inv_main_spawn {p1 p2 : GoString} {A B : List Byte} {r w : Nat} {fs0 : FS} {base : Nat}
    {s s' : State}
    (h : Inv p1 p2 A B r w fs0 base s) (hr : 1 ≤ r) (hw : 1 ≤ w) (hne : p1 ≠ p2)
    (hpc : s.pc = MainPc.spawn) (hs : stepMain s = some s') :
    ∃ base', Inv p1 p2 A B r w fs0 base' s' ∧ stepsLeft s' < stepsLeft s := by
  refine ⟨base, ?_⟩
  have hpcok := h.pcok
  simp only [hpc] at hpcok
  obtain ⟨he1, hfw⟩ := hpcok
  have hm : stepsLeft s = 17 * (readsLeft s.first + readsLeft s.second) + 14
      + (4 * (s.second.size - s.sinkFirst.got) + sinkWeight s.sinkFirst.pc)
      + (4 * (s.first.size - s.sinkSecond.got) + sinkWeight s.sinkSecond.pc) := by
    simp only [stepsLeft, hpc, hfw, mainWeight, fwdWeight]
  simp only [stepMain, hpc, Option.some.injEq] at hs
  by_cases hc2 : s.second.eof = false ∧ 0 < s.secondL
  · by_cases hc1 : 0 < s.firstL
    · simp only [State.toForwardSecond, FileReader.EOF, hc2, hc1, Bool.not_false, and_self,
        if_true] at hs
      subst hs
      refine ⟨?_, ?_⟩
      · obtain ⟨hE, hP, hF, hO, hF1, hF2, hWg, hN1, hN2, hR1, hR2, hD1, hD2, hS1, hS2, hG1e, hG1, hG2e, hG2, hC1, hC2, hPc, hPast, hFwd, hSw⟩ := h
        simp [hpc, truncatedFirst, truncatedSecond, afterFirst, afterSecond, pendSecond, pendFirst, forwarding, pastWait] at hE hP hF hO hF1 hF2 hWg hN1 hN2 hR1 hR2 hD1 hD2 hS1 hS2 hG1e hG1 hG2e hG2 hC1 hC2 hPc hPast hFwd hSw
        constructor <;>
      simp [truncatedFirst, truncatedSecond, afterFirst, afterSecond, pendSecond, pendFirst, forwarding, pastWait] <;> first | assumption | omega | (simp_all; done) | (simp_all; omega) | skip
      · rw [hm]
        simp only [stepsLeft, mainWeight, fwdWeight]
        omega
    · simp only [State.toForwardSecond, FileReader.EOF, hc2, hc1, Bool.not_false, and_self,
        if_true, if_false] at hs
      subst hs
      refine ⟨?_, ?_⟩
      · obtain ⟨hE, hP, hF, hO, hF1, hF2, hWg, hN1, hN2, hR1, hR2, hD1, hD2, hS1, hS2, hG1e, hG1, hG2e, hG2, hC1, hC2, hPc, hPast, hFwd, hSw⟩ := h
        simp [hpc, truncatedFirst, truncatedSecond, afterFirst, afterSecond, pendSecond, pendFirst, forwarding, pastWait] at hE hP hF hO hF1 hF2 hWg hN1 hN2 hR1 hR2 hD1 hD2 hS1 hS2 hG1e hG1 hG2e hG2 hC1 hC2 hPc hPast hFwd hSw
        constructor <;>
      simp [truncatedFirst, truncatedSecond, afterFirst, afterSecond, pendSecond, pendFirst, forwarding, pastWait] <;> first | assumption | omega | (simp_all; done) | (simp_all; omega) | skip
      · rw [hm]
        simp only [stepsLeft, mainWeight, fwdWeight]
        omega
  · have hc2' : ¬ ((!s.second.eof) = true ∧ 0 < s.secondL) := by simpa using hc2
    by_cases hc1 : 0 < s.firstL
    · simp only [State.toForwardSecond, FileReader.EOF, hc2', hc1, if_true, if_false] at hs
      subst hs
      refine ⟨?_, ?_⟩
      · obtain ⟨hE, hP, hF, hO, hF1, hF2, hWg, hN1, hN2, hR1, hR2, hD1, hD2, hS1, hS2, hG1e, hG1, hG2e, hG2, hC1, hC2, hPc, hPast, hFwd, hSw⟩ := h
        simp [hpc, truncatedFirst, truncatedSecond, afterFirst, afterSecond, pendSecond, pendFirst, forwarding, pastWait] at hE hP hF hO hF1 hF2 hWg hN1 hN2 hR1 hR2 hD1 hD2 hS1 hS2 hG1e hG1 hG2e hG2 hC1 hC2 hPc hPast hFwd hSw
        constructor <;>
      simp [truncatedFirst, truncatedSecond, afterFirst, afterSecond, pendSecond, pendFirst, forwarding, pastWait] <;> first | assumption | omega | (simp_all; done) | (simp_all; omega) | skip
      · rw [hm]
        simp only [stepsLeft, mainWeight, fwdWeight]
        omega
    · simp only [State.toForwardSecond, FileReader.EOF, hc2', hc1, if_true, if_false] at hs
      subst hs
      refine ⟨?_, ?_⟩
      · obtain ⟨hE, hP, hF, hO, hF1, hF2, hWg, hN1, hN2, hR1, hR2, hD1, hD2, hS1, hS2, hG1e, hG1, hG2e, hG2, hC1, hC2, hPc, hPast, hFwd, hSw⟩ := h
        simp [hpc, truncatedFirst, truncatedSecond, afterFirst, afterSecond, pendSecond, pendFirst, forwarding, pastWait] at hE hP hF hO hF1 hF2 hWg hN1 hN2 hR1 hR2 hD1 hD2 hS1 hS2 hG1e hG1 hG2e hG2 hC1 hC2 hPc hPast hFwd hSw
        constructor <;>
      simp [truncatedFirst, truncatedSecond, afterFirst, afterSecond, pendSecond, pendFirst, forwarding, pastWait] <;> first | assumption | omega | (simp_all; done) | (simp_all; omega) | skip
      · rw [hm]
        simp only [stepsLeft, mainWeight, fwdWeight]
        omega

/-- Every action of the main goroutine keeps the invariant and uses up the measure. -/
theorem inv_stepMain {p1 p2 : GoString} {A B : List Byte} {r w : Nat} {fs0 : FS} {base : Nat}
    {s s' : State}
    (h : Inv p1 p2 A B r w fs0 base s) (hr : 1 ≤ r) (hw : 1 ≤ w) (hne : p1 ≠ p2)
    (hs : stepMain s = some s') :
    ∃ base', Inv p1 p2 A B r w fs0 base' s' ∧ stepsLeft s' < stepsLeft s := by
  cases hpc : s.pc with
  | readFirst => exact inv_main_readFirst h hr hw hne hpc hs
  | closeFirst => exact inv_main_closeFirst h hr hw hne hpc hs
  | readSecond => exact inv_main_readSecond h hr hw hne hpc hs
  | closeSecond => exact inv_main_closeSecond h hr hw hne hpc hs
  | spawn => exact inv_main_spawn h hr hw hne hpc hs
  | chk i => exact inv_main_chk h hr hw hne hpc hs
  | redep e =>
    have := h.pcok
    simp only [hpc] at this
  | send i => exact inv_main_send h hr hw hne hpc hs
  | waitSend => exact inv_main_waitSend h hr hw hne hpc hs
  | roundCheck => exact inv_main_roundCheck h hr hw hne hpc hs
  | waitRecord => exact inv_main_waitRecord h hr hw hne hpc hs
  | truncFirst => exact inv_main_truncFirst h hr hw hne hpc hs
  | truncSecond => exact inv_main_truncSecond h hr hw hne hpc hs
  | finalCheck => exact inv_main_finalCheck h hr hw hne hpc hs
  | returned e => simp [stepMain, hpc] at hs

/-! ## Steps of the forwarding goroutine in a fault-free swap -/

set_option maxHeartbeats 2000000 in
theorem inv_fwd_chk {p1 p2 : GoString} {A B : List Byte} {r w : Nat} {fs0 : FS} {base : Nat}
    {s s' : State} {i : Nat}
    (h : Inv p1 p2 A B r w fs0 base s) (hr : 1 ≤ r) (hw : 1 ≤ w) (hne : p1 ≠ p2)
    (hfwd : s.fwd = some (FwdPc.chk i)) (hs : stepFwd s = some s') :
    Inv p1 p2 A B r w fs0 base s' ∧ stepsLeft s' < stepsLeft s := by
  have hf := h.fwdok
  simp only [hfwd] at hf
  obtain ⟨he1, hi, hforw⟩ := hf
  have herr := h.errCh
  simp only [stepFwd, hfwd, herr, Option.some.injEq] at hs
  subst hs
  refine ⟨?_, ?_⟩
  · obtain ⟨hE, hP, hF, hO, hF1, hF2, hWg, hN1, hN2, hR1, hR2, hD1, hD2, hS1, hS2, hG1e, hG1, hG2e, hG2, hC1, hC2, hPc, hPast, hFwd, hSw⟩ := h
    cases hpc : s.pc <;> simp [forwarding, hpc] at hforw
    all_goals simp [hpc, hfwd, truncatedFirst, truncatedSecond, afterFirst, afterSecond, pendSecond, pendFirst, forwarding, pastWait] at hE hP hF hO hF1 hF2 hWg hN1 hN2 hR1 hR2 hD1 hD2 hS1 hS2 hG1e hG1 hG2e hG2 hC1 hC2 hPc hPast hFwd hSw
    all_goals constructor <;>
      simp [truncatedFirst, truncatedSecond, afterFirst, afterSecond, pendSecond, pendFirst, forwarding, pastWait] <;> first | assumption | omega | (simp_all; done) | (simp_all; omega) | skip
  · simp only [stepsLeft, hfwd, fwdWeight]
    omega

set_option maxHeartbeats 2000000 in
theorem inv_fwd_done {p1 p2 : GoString} {A B : List Byte} {r w : Nat} {fs0 : FS} {base : Nat}
    {s s' : State}
    (h : Inv p1 p2 A B r w fs0 base s) (hr : 1 ≤ r) (hw : 1 ≤ w) (hne : p1 ≠ p2)
    (hfwd : s.fwd = some (FwdPc.done)) (hs : stepFwd s = some s') :
    Inv p1 p2 A B r w fs0 base s' ∧ stepsLeft s' < stepsLeft s := by
  have hf := h.fwdok
  simp only [hfwd] at hf
  obtain ⟨he1, hforw⟩ := hf
  have hsw := h.sendWg
  simp only [hfwd] at hsw
  have hsw1 : s.sendBytesWg = 1 := by simpa using hsw
  simp only [stepFwd, hfwd, hsw1, Option.some.injEq] at hs
  subst hs
  refine ⟨?_, ?_⟩
  · obtain ⟨hE, hP, hF, hO, hF1, hF2, hWg, hN1, hN2, hR1, hR2, hD1, hD2, hS1, hS2, hG1e, hG1, hG2e, hG2, hC1, hC2, hPc, hPast, hFwd, hSw⟩ := h
    cases hpc : s.pc <;> simp [forwarding, hpc] at hforw
    all_goals simp [hpc, hfwd, truncatedFirst, truncatedSecond, afterFirst, afterSecond, pendSecond, pendFirst, forwarding, pastWait] at hE hP hF hO hF1 hF2 hWg hN1 hN2 hR1 hR2 hD1 hD2 hS1 hS2 hG1e hG1 hG2e hG2 hC1 hC2 hPc hPast hFwd hSw
    all_goals constructor <;>
      simp [truncatedFirst, truncatedSecond, afterFirst, afterSecond, pendSecond, pendFirst, forwarding, pastWait] <;> first | assumption | omega | (simp_all; done) | (simp_all; omega) | skip
  · simp only [stepsLeft, hfwd, fwdWeight]
    omega

theorem forwarding_after {pc : MainPc} (h : forwarding pc = true) :
    afterFirst pc = true ∧ afterSecond pc = true := by
  cases pc <;> simp [forwarding] at h <;> exact ⟨rfl, rfl⟩

set_option maxHeartbeats 4000000 in
theorem inv_fwd_send {p1 p2 : GoString} {A B : List Byte} {r w : Nat} {fs0 : FS} {base : Nat}
    {s s' : State} {i : Nat}
    (h : Inv p1 p2 A B r w fs0 base s) (hr : 1 ≤ r) (hw : 1 ≤ w) (hne : p1 ≠ p2)
    (hfwd : s.fwd = some (FwdPc.send i)) (hs : stepFwd s = some s') :
    Inv p1 p2 A B r w fs0 base s' ∧ stepsLeft s' < stepsLeft s := by
  have hf := h.fwdok
  simp only [hfwd] at hf
  obtain ⟨he1, hi, hforw⟩ := hf
  have hr1 := h.reader1
  rw [(forwarding_after hforw).1] at hr1
  obtain ⟨hL, t, ht, htake⟩ := hr1.block he1 rfl
  have hpos := hr1.pos he1
  simp only [if_true] at hpos
  obtain ⟨ch, hch1, hch2⟩ := block_get A t (min base A.length) s.firstL i htake hi (by omega)
  have hcl : s.closedFirst = false := by
    rw [h.closed1, he1]; rfl
  have hg2 := h.got2 he1
  simp only [pendFirst, hfwd] at hg2
  simp only [stepFwd, hfwd, ht, Option.some_bind, hch1, hcl, Bool.false_eq_true, if_false] at hs
  by_cases hrecv : s.sinkSecond.pc = SinkPc.recv
  · simp only [hrecv, if_true, Option.some.injEq] at hs
    subst hs
    have hs2 := h.sink2
    have hgot : s.sinkSecond.got = s.sinkSecond.chIndex + s.sinkSecond.currSymbol := by
      simp [Sink.got, hrecv]
    have hpk := hs2.pcok
    simp only [hrecv] at hpk
    have hsink : SinkOk w A s.closedFirst (s.sinkSecond.deliver ch) := by
      refine ⟨hs2.wbs, hs2.buflen, ?_, ?_, ?_⟩
      · simp only [Sink.got, Sink.deliver]; omega
      · intro hc; rw [hcl] at hc; exact absurd hc (by simp)
      · simp only [Sink.deliver]
        refine ⟨hpk.1, hpk.2, ?_⟩
        rw [← hch2]
        congr 1
        omega
    have hgot' : (s.sinkSecond.deliver ch).got = s.sinkSecond.got + 1 := by
      rw [hgot]; simp only [Sink.got, Sink.deliver]
    have hsz := hr1.size
    have hwt : sinkWeight (s.sinkSecond.deliver ch).pc = 5 := rfl
    have hwt0 : sinkWeight s.sinkSecond.pc = 3 := by rw [hrecv]; rfl
    rw [hcl] at hsink
    refine ⟨?_, ?_⟩
    · obtain ⟨hE, hP, hF, hO, hF1, hF2, hWg, hN1, hN2, hR1, hR2, hD1, hD2, hS1, hS2, hG1e, hG1, hG2e, hG2, hC1, hC2, hPc, hPast, hFwd, hSw⟩ := h
      cases hpc : s.pc <;> simp [forwarding, hpc] at hforw
      all_goals simp [hpc, hfwd, ht, hcl, hrecv, truncatedFirst, truncatedSecond, afterFirst, afterSecond, pendSecond, pendFirst, forwarding, pastWait] at hE hP hF hO hF1 hF2 hWg hN1 hN2 hR1 hR2 hD1 hD2 hS1 hS2 hG1e hG1 hG2e hG2 hC1 hC2 hPc hPast hFwd hSw
      all_goals by_cases hlast : i + 1 < s.firstL
      all_goals simp only [hlast, if_true, if_false]
      all_goals constructor <;>
      simp [truncatedFirst, truncatedSecond, afterFirst, afterSecond, pendSecond, pendFirst, forwarding, pastWait] <;> first | assumption | omega | (simp_all; done) | (simp_all; omega) | skip
    · simp only [stepsLeft, hfwd, hgot', hwt, hwt0]
      by_cases hlast : i + 1 < s.firstL
      · simp only [hlast, if_true, fwdWeight]
        omega
      · simp only [hlast, if_false, fwdWeight]
        omega
  · simp [hrecv] at hs

/-- Every action of the forwarding goroutine keeps the invariant and uses up the measure. -/
theorem inv_stepFwd {p1 p2 : GoString} {A B : List Byte} {r w : Nat} {fs0 : FS} {base : Nat}
    {s s' : State}
    (h : Inv p1 p2 A B r w fs0 base s) (hr : 1 ≤ r) (hw : 1 ≤ w) (hne : p1 ≠ p2)
    (hs : stepFwd s = some s') :
    Inv p1 p2 A B r w fs0 base s' ∧ stepsLeft s' < stepsLeft s := by
  cases hfwd : s.fwd with
  | none => simp [stepFwd, hfwd] at hs
  | some f =>
    cases f with
    | chk i => exact inv_fwd_chk h hr hw hne hfwd hs
    | redep e =>
      have := h.fwdok
      simp only [hfwd] at this
    | send i => exact inv_fwd_send h hr hw hne hfwd hs
    | done => exact inv_fwd_done h hr hw hne hfwd hs

theorem truncatedFirst_past {pc : MainPc} (h : truncatedFirst pc = true) : pastWait pc = true := by
  cases pc <;> simp [truncatedFirst] at h <;> rfl

theorem truncatedSecond_past {pc : MainPc} (h : truncatedSecond pc = true) :
    pastWait pc = true := by
  cases pc <;> simp [truncatedSecond] at h <;> rfl

/-- Every action of the sink of the first file keeps the invariant and uses up the measure. -/
theorem inv_stepSinkFirst {p1 p2 : GoString} {A B : List Byte} {r w : Nat} {fs0 : FS} {base : Nat}
    {s : State} {kw : Sink × World}
    (h : Inv p1 p2 A B r w fs0 base s) (hw : 1 ≤ w) (hne : p1 ≠ p2)
    (hs : s.sinkFirst.step s.closedSecond s.world = some kw) :
    Inv p1 p2 A B r w fs0 base { s with sinkFirst := kw.1, world := kw.2 }
      ∧ stepsLeft { s with sinkFirst := kw.1, world := kw.2 } < stepsLeft s := by
  obtain ⟨k', W'⟩ := kw
  have hnr : s.sinkFirst.pc ≠ SinkPc.returned := by
    intro hk
    simp [Sink.step, hk] at hs
  have hnp : pastWait s.pc = false := by
    cases hp : pastWait s.pc with
    | false => rfl
    | true => exact absurd (h.past hp).1 hnr
  have hnt : truncatedFirst s.pc = false := by
    cases ht : truncatedFirst s.pc with
    | false => rfl
    | true => rw [truncatedFirst_past ht] at hnp; exact absurd hnp (by simp)
  have hnt2 : truncatedSecond s.pc = false := by
    cases ht : truncatedSecond s.pc with
    | false => rfl
    | true => rw [truncatedSecond_past ht] at hnp; exact absurd hnp (by simp)
  have hfile := h.file1
  rw [hnt] at hfile
  simp only [Bool.false_eq_true, if_false] at hfile
  rw [← h.dst1] at hfile
  obtain ⟨hk, hgot, hdst, herr, hft, hfile', hoth, hwg, hpan, -, hwt⟩ :=
    SinkOk.step_ok hw h.sink1 h.errCh h.faults hfile hs
  have hwg0 := h.wg
  rw [if_neg hnr] at hwg0
  have hd1 := h.dst1
  have hf2 := h.file2
  rw [hnt2] at hf2
  simp only [Bool.false_eq_true, if_false] at hf2
  refine ⟨?_, ?_⟩
  · refine ⟨herr, ?_, hft, ?_, ?_, ?_, ?_, h.name1, h.name2, h.reader1, h.reader2, ?_, h.dst2, hk,
      h.sink2, ?_, ?_, h.got2e, h.got2, h.closed1, h.closed2, h.pcok, ?_, h.fwdok, h.sendWg⟩
    · show W'.panicked = false
      rw [hpan]
      have : ¬ (s.world.recordWg - 1 < 0) := by
        rw [hwg0]; split <;> omega
      simp [this]
    · intro q hq1 hq2
      show W'.fs q = fs0 q
      rw [hoth q (by rw [hd1]; exact hq1)]
      exact h.others q hq1 hq2
    · show W'.fs p1 = _
      rw [hnt, ← hd1, hfile']
      rfl
    · show W'.fs p2 = _
      rw [hnt2, hoth p2 (by rw [hd1]; exact fun e => hne e.symm)]
      simpa using hf2
    · show W'.recordWg = _
      rw [hwg, hwg0]
      show _ = (if k'.pc = SinkPc.returned then (0 : Int) else 1) + _
      by_cases hk' : k'.pc = SinkPc.returned
      · simp only [hk', if_true]; omega
      · simp only [hk', if_false]
    · show k'.dstFile = p1
      rw [hdst, hd1]
    · intro he
      show k'.got = _
      rw [hgot]; exact h.got1e he
    · intro he
      show k'.got + pendSecond s = _
      rw [hgot]; exact h.got1 he
    · intro hp
      rw [hnp] at hp
      exact absurd hp (by simp)
  · simp only [stepsLeft]
    rw [hgot]
    omega

/-- Every action of the sink of the second file keeps the invariant and uses up the measure. -/
theorem inv_stepSinkSecond {p1 p2 : GoString} {A B : List Byte} {r w : Nat} {fs0 : FS}
    {base : Nat} {s : State} {kw : Sink × World}
    (h : Inv p1 p2 A B r w fs0 base s) (hw : 1 ≤ w) (hne : p1 ≠ p2)
    (hs : s.sinkSecond.step s.closedFirst s.world = some kw) :
    Inv p1 p2 A B r w fs0 base { s with sinkSecond := kw.1, world := kw.2 }
      ∧ stepsLeft { s with sinkSecond := kw.1, world := kw.2 } < stepsLeft s := by
  obtain ⟨k', W'⟩ := kw
  have hnr : s.sinkSecond.pc ≠ SinkPc.returned := by
    intro hk
    simp [Sink.step, hk] at hs
  have hnp : pastWait s.pc = false := by
    cases hp : pastWait s.pc with
    | false => rfl
    | true => exact absurd (h.past hp).2 hnr
  have hnt : truncatedFirst s.pc = false := by
    cases ht : truncatedFirst s.pc with
    | false => rfl
    | true => rw [truncatedFirst_past ht] at hnp; exact absurd hnp (by simp)
  have hnt2 : truncatedSecond s.pc = false := by
    cases ht : truncatedSecond s.pc with
    | false => rfl
    | true => rw [truncatedSecond_past ht] at hnp; exact absurd hnp (by simp)
  have hfile := h.file2
  rw [hnt2] at hfile
  simp only [Bool.false_eq_true, if_false] at hfile
  rw [← h.dst2] at hfile
  obtain ⟨hk, hgot, hdst, herr, hft, hfile', hoth, hwg, hpan, -, hwt⟩ :=
    SinkOk.step_ok hw h.sink2 h.errCh h.faults hfile hs
  have hwg0 := h.wg
  rw [if_neg hnr] at hwg0
  have hd2 := h.dst2
  have hf1 := h.file1
  rw [hnt] at hf1
  simp only [Bool.false_eq_true, if_false] at hf1
  refine ⟨?_, ?_⟩
  · refine ⟨herr, ?_, hft, ?_, ?_, ?_, ?_, h.name1, h.name2, h.reader1, h.reader2, h.dst1, ?_,
      h.sink1, hk, h.got1e, h.got1, ?_, ?_, h.closed1, h.closed2, h.pcok, ?_, h.fwdok, h.sendWg⟩
    · show W'.panicked = false
      rw [hpan]
      have : ¬ (s.world.recordWg - 1 < 0) := by
        rw [hwg0]; split <;> omega
      simp [this]
    · intro q hq1 hq2
      show W'.fs q = fs0 q
      rw [hoth q (by rw [hd2]; exact hq2)]
      exact h.others q hq1 hq2
    · show W'.fs p1 = _
      rw [hnt, hoth p1 (by rw [hd2]; exact hne)]
      simpa using hf1
    · show W'.fs p2 = _
      rw [hnt2, ← hd2, hfile']
      rfl
    · show W'.recordWg = _
      rw [hwg, hwg0]
      show _ = _ + (if k'.pc = SinkPc.returned then (0 : Int) else 1)
      by_cases hk' : k'.pc = SinkPc.returned
      · simp only [hk', if_true]; omega
      · simp only [hk', if_false]
    · show k'.dstFile = p2
      rw [hdst, hd2]
    · intro he
      show k'.got = _
      rw [hgot]; exact h.got2e he
    · intro he
      show k'.got + pendFirst s = _
      rw [hgot]; exact h.got2 he
    · intro hp
      rw [hnp] at hp
      exact absurd hp (by simp)
  · simp only [stepsLeft]
    rw [hgot]
    omega

/-- A consistent sink that is not waiting on an open stream and has not returned can act. -/
theorem SinkOk.enabled {w : Nat} {D : List Byte} {closed : Bool} {k : Sink} {W : World}
    (h : SinkOk w D closed k) (hp : W.panicked = false) (herr : W.errCh = none)
    (hrecv : k.pc = SinkPc.recv → closed = true) (hnr : k.pc ≠ SinkPc.returned) :
    (k.step closed W).isSome = true := by
  have hpc := h.pcok
  unfold Sink.step
  simp only [hp, Bool.false_eq_true, if_false]
  cases hk : k.pc with
  | recv => simp [hrecv hk]
  | check ch =>
    simp only [herr]
    split <;> rfl
  | redeposit e => simp [hk] at hpc
  | write =>
    simp only []
    split <;> rfl
  | deposit e => simp [hk] at hpc
  | flush => rfl
  | done => rfl
  | returned => exact absurd hk hnr

/-- Every action of a fault-free swap keeps the invariant and uses up the measure. -/
theorem inv_step {p1 p2 : GoString} {A B : List Byte} {r w : Nat} {fs0 : FS} {base : Nat}
    {s s' : State} {t : Tid}
    (h : Inv p1 p2 A B r w fs0 base s) (hr : 1 ≤ r) (hw : 1 ≤ w) (hne : p1 ≠ p2)
    (hs : step t s = some s') :
    ∃ base', Inv p1 p2 A B r w fs0 base' s' ∧ stepsLeft s' < stepsLeft s := by
  unfold step at hs
  simp only [h.notPanicked, Bool.false_eq_true, if_false] at hs
  cases t with
  | main => exact inv_stepMain h hr hw hne hs
  | fwd => exact ⟨base, inv_stepFwd h hr hw hne hs⟩
  | sinkFirst =>
    simp only [] at hs
    cases hk : s.sinkFirst.step s.closedSecond s.world with
    | none => simp [hk] at hs
    | some kw =>
      simp only [hk, Option.map_some', Option.some.injEq] at hs
      subst hs
      exact ⟨base, inv_stepSinkFirst h hw hne hk⟩
  | sinkSecond =>
    simp only [] at hs
    cases hk : s.sinkSecond.step s.closedFirst s.world with
    | none => simp [hk] at hs
    | some kw =>
      simp only [hk, Option.map_some', Option.some.injEq] at hs
      subst hs
      exact ⟨base, inv_stepSinkSecond h hw hne hk⟩

/-- A schedule keeps the invariant, and performs no more actions than the measure allows. -/
theorem inv_exec {p1 p2 : GoString} {A B : List Byte} {r w : Nat} {fs0 : FS}
    (hr : 1 ≤ r) (hw : 1 ≤ w) (hne : p1 ≠ p2) (sched : List Tid) :
    ∀ (s : State) (base : Nat), Inv p1 p2 A B r w fs0 base s →
      ∃ base', Inv p1 p2 A B r w fs0 base' (exec sched s)
        ∧ actions sched s + stepsLeft (exec sched s) ≤ stepsLeft s := by
  induction sched with
  | nil =>
    intro s base h
    exact ⟨base, h, by simp [actions, exec]⟩
  | cons t rest ih =>
    intro s base h
    cases hs : step t s with
    | none =>
      simp only [exec, actions, hs]
      exact ih s base h
    | some s1 =>
      simp only [exec, actions, hs]
      obtain ⟨b1, h1, hlt⟩ := inv_step h hr hw hne hs
      obtain ⟨b2, h2, hle⟩ := ih s1 b1 h1
      exact ⟨b2, h2, by omega⟩

theorem exec_append (a b : List Tid) : ∀ s : State, exec (a ++ b) s = exec b (exec a s) := by
  induction a with
  | nil => intro s; rfl
  | cons t rest ih =>
    intro s
    simp only [List.cons_append, exec]
    split <;> exact ih _

/-- A schedule that names a goroutine able to act performs at least one action. -/
theorem actions_pos (sched : List Tid) (s : State) (t : Tid) (ht : t ∈ sched)
    (hs : (step t s).isSome = true) : 1 ≤ actions sched s := by
  induction sched with
  | nil => simp at ht
  | cons t0 rest ih =>
    cases h0 : step t0 s with
    | some s1 => simp only [actions, h0]; omega
    | none =>
      simp only [actions, h0]
      rcases List.mem_cons.mp ht with rfl | hmem
      · rw [h0] at hs; simp at hs
      · exact ih hmem

/-- Once `SwapTwoFiles` has returned from a fault-free swap, no goroutine acts any more. -/
theorem inv_returned_stuck {p1 p2 : GoString} {A B : List Byte} {r w : Nat} {fs0 : FS}
    {base : Nat} {s : State} {err : Option GoError}
    (h : Inv p1 p2 A B r w fs0 base s) (hpc : s.pc = MainPc.returned err) (t : Tid) :
    step t s = none := by
  have hp := h.past (by rw [hpc]; rfl)
  have hk := h.pcok
  simp only [hpc] at hk
  unfold step
  simp only [h.notPanicked, Bool.false_eq_true, if_false]
  cases t with
  | main => simp [stepMain, hpc]
  | fwd => simp [stepFwd, hk.2.2.2]
  | sinkFirst => simp [Sink.step, hp.1, h.notPanicked]
  | sinkSecond => simp [Sink.step, hp.2, h.notPanicked]

theorem exec_stuck (sched : List Tid) (s : State) (h : ∀ t, step t s = none) :
    exec sched s = s := by
  induction sched with
  | nil => rfl
  | cons t rest ih => simp only [exec, h t]; exact ih

/-- Absence of deadlock: while `SwapTwoFiles` has not returned from a fault-free swap, some
goroutine can act. -/
theorem inv_progress {p1 p2 : GoString} {A B : List Byte} {r w : Nat} {fs0 : FS}
    {base : Nat} {s : State}
    (h : Inv p1 p2 A B r w fs0 base s) (hrun : s.outcome = Outcome.running) :
    ∃ t, (step t s).isSome = true := by
  have hnp := h.notPanicked
  have herr := h.errCh
  have hk := h.pcok
  have main_ok : (stepMain s).isSome = true → ∃ t, (step t s).isSome = true := by
    intro hm
    exact ⟨Tid.main, by simp only [step, hnp, Bool.false_eq_true, if_false]; exact hm⟩
  have first_ok : (s.sinkFirst.step s.closedSecond s.world).isSome = true →
      ∃ t, (step t s).isSome = true := by
    intro hm
    refine ⟨Tid.sinkFirst, ?_⟩
    simp only [step, hnp, Bool.false_eq_true, if_false]
    rw [Option.isSome_map']
    exact hm
  have second_ok : (s.sinkSecond.step s.closedFirst s.world).isSome = true →
      ∃ t, (step t s).isSome = true := by
    intro hm
    refine ⟨Tid.sinkSecond, ?_⟩
    simp only [step, hnp, Bool.false_eq_true, if_false]
    rw [Option.isSome_map']
    exact hm
  have fwd_ok : (stepFwd s).isSome = true → ∃ t, (step t s).isSome = true := by
    intro hm
    exact ⟨Tid.fwd, by simp only [step, hnp, Bool.false_eq_true, if_false]; exact hm⟩
  cases hpc : s.pc with
  | readFirst => apply main_ok; simp only [stepMain, hpc]; rfl
  | closeFirst => apply main_ok; simp only [stepMain, hpc]; split <;> rfl
  | readSecond => apply main_ok; simp only [stepMain, hpc]; rfl
  | closeSecond => apply main_ok; simp only [stepMain, hpc]; split <;> rfl
  | spawn => apply main_ok; simp only [stepMain, hpc]; rfl
  | chk i => apply main_ok; simp only [stepMain, hpc, herr]; rfl
  | redep e => simp only [hpc] at hk
  | send i =>
    simp only [hpc] at hk
    by_cases hrecv : s.sinkFirst.pc = SinkPc.recv
    · apply main_ok
      simp only [stepMain, hpc]
      split
      · rfl
      · split
        · rfl
        · simp [hrecv]
    · apply first_ok
      have hcl : s.closedSecond = false := by rw [h.closed2, hk.1]; rfl
      apply SinkOk.enabled h.sink1 hnp herr (fun e => absurd e hrecv)
      intro hret
      have := h.sink1.pcok
      simp [hret, hcl] at this
  | waitSend =>
    by_cases hz : s.sendBytesWg = 0
    · apply main_ok; simp [stepMain, hpc, hz]
    · have hwg := h.sendWg
      have hf := h.fwdok
      cases hfw : s.fwd with
      | none => simp [hfw] at hwg; exact absurd hwg hz
      | some f =>
        simp only [hfw] at hf
        cases f with
        | chk i => apply fwd_ok; simp only [stepFwd, hfw, herr]; rfl
        | redep e => exact absurd hf id
        | done => apply fwd_ok; simp only [stepFwd, hfw]; rfl
        | send i =>
          by_cases hrecv : s.sinkSecond.pc = SinkPc.recv
          · apply fwd_ok
            simp only [stepFwd, hfw]
            split
            · rfl
            · split
              · rfl
              · simp [hrecv]
          · apply second_ok
            have hcl : s.closedFirst = false := by rw [h.closed1, hf.1]; rfl
            apply SinkOk.enabled h.sink2 hnp herr (fun e => absurd e hrecv)
            intro hret
            have := h.sink2.pcok
            simp [hret, hcl] at this
  | roundCheck => apply main_ok; simp only [stepMain, hpc, herr]; rfl
  | waitRecord =>
    simp only [hpc] at hk
    by_cases hz : s.world.recordWg = 0
    · apply main_ok; simp [stepMain, hpc, hz]
    · have hwg := h.wg
      have hc1 : s.closedFirst = true := by rw [h.closed1, hk.1, hpc]; rfl
      have hc2 : s.closedSecond = true := by rw [h.closed2, hk.2.1, hpc]; rfl
      by_cases h1 : s.sinkFirst.pc = SinkPc.returned
      · have h2 : s.sinkSecond.pc ≠ SinkPc.returned := by
          intro h2
          rw [h1, h2] at hwg
          exact hz (by simpa using hwg)
        apply second_ok
        exact SinkOk.enabled h.sink2 hnp herr (fun _ => hc1) h2
      · apply first_ok
        exact SinkOk.enabled h.sink1 hnp herr (fun _ => hc2) h1
  | truncFirst => apply main_ok; simp only [stepMain, hpc]; rfl
  | truncSecond => apply main_ok; simp only [stepMain, hpc]; rfl
  | finalCheck => apply main_ok; simp only [stepMain, hpc, herr]; rfl
  | returned e => simp [State.outcome, hpc] at hrun

/-- What the invariant says once `SwapTwoFiles` has returned: it returned `nil`, the first file
holds `B`, the second `A`, every other file what it held before. -/
theorem inv_returned {p1 p2 : GoString} {A B : List Byte} {r w : Nat} {fs0 : FS}
    {base : Nat} {s : State} {err : Option GoError}
    (h : Inv p1 p2 A B r w fs0 base s) (hout : s.outcome = Outcome.returned err) :
    err = none ∧ s.world.fs p1 = some B ∧ s.world.fs p2 = some A
      ∧ ∀ q, q ≠ p1 → q ≠ p2 → s.world.fs q = fs0 q := by
  have hk := h.pcok
  have hf1 := h.file1
  have hf2 := h.file2
  cases hpc : s.pc <;> simp [State.outcome, hpc] at hout
  subst hout
  simp only [hpc] at hk
  rw [hpc] at hf1 hf2
  exact ⟨hk.1, hf1, hf2, h.others⟩

/-- One turn of every goroutine. -/
theorem roundRobin_succ (n : Nat) :
    roundRobin (n + 1) = [Tid.main, Tid.fwd, Tid.sinkFirst, Tid.sinkSecond] ++ roundRobin n := by
  simp [roundRobin, List.replicate_succ]

/-- Serving the goroutines in turn, as many times as the measure says, completes a fault-free
swap. -/
theorem inv_roundRobin {p1 p2 : GoString} {A B : List Byte} {r w : Nat} {fs0 : FS}
    (hr : 1 ≤ r) (hw : 1 ≤ w) (hne : p1 ≠ p2) (n : Nat) :
    ∀ (s : State) (base : Nat), Inv p1 p2 A B r w fs0 base s → stepsLeft s ≤ n →
      ∃ err, (exec (roundRobin n) s).outcome = Outcome.returned err := by
  induction n with
  | zero =>
    intro s base h hle
    cases hout : s.outcome with
    | returned e => exact ⟨e, by simpa [roundRobin, exec] using hout⟩
    | running =>
      obtain ⟨t, ht⟩ := inv_progress h hout
      cases hs : step t s with
      | none => rw [hs] at ht; simp at ht
      | some s1 =>
        obtain ⟨_, _, hlt⟩ := inv_step h hr hw hne hs
        omega
  | succ n ih =>
    intro s base h hle
    rw [roundRobin_succ, exec_append]
    obtain ⟨b1, h1, hact⟩ :=
      inv_exec hr hw hne [Tid.main, Tid.fwd, Tid.sinkFirst, Tid.sinkSecond] s base h
    cases hout : s.outcome with
    | returned e =>
      have hpc : s.pc = MainPc.returned e := by
        cases hp : s.pc <;> simp [State.outcome, hp] at hout
        rw [hout]
      have hstuck := inv_returned_stuck h hpc
      rw [exec_stuck _ s hstuck, exec_stuck _ s hstuck]
      exact ⟨e, hout⟩
    | running =>
      obtain ⟨t, ht⟩ := inv_progress h hout
      have hmem : t ∈ [Tid.main, Tid.fwd, Tid.sinkFirst, Tid.sinkSecond] := by
        cases t <;> simp
      have := actions_pos _ s t hmem ht
      exact ih _ b1 h1 (by omega)

/-- The state in which `SwapTwoFiles` enters its loop in a fault-free run satisfies the
invariant, and its measure is `21 * (|A| + |B|) + 45`. -/
theorem inv_init {fs : FS} {path firstName secondName : GoString} {A B : List Byte} {r w : Nat}
    (hr : 1 ≤ r) (hw : 1 ≤ w)
    (h1 : path ++ firstName ≠ []) (h2 : path ++ secondName ≠ [])
    (hA : fs (path ++ firstName) = some A) (hB : fs (path ++ secondName) = some B) :
    ∃ s0, SwapTwoFiles.start fs noFaults path firstName secondName r w = Except.ok s0
      ∧ Inv (path ++ firstName) (path ++ secondName) A B r w fs 0 s0
      ∧ stepsLeft s0 = 21 * (A.length + B.length) + 45 := by
  have hl1 : ¬ (path ++ firstName).length = 0 := by
    intro h; exact h1 (List.length_eq_zero.mp h)
  have hl2 : ¬ (path ++ secondName).length = 0 := by
    intro h; exact h2 (List.length_eq_zero.mp h)
  have hrI : ¬ ((r : Int) < 1) := by omega
  have hwI : ¬ ((w : Int) < 0) := by omega
  have hc1 : fs.content (path ++ firstName) = A := by simp [FS.content, hA]
  have hc2 : fs.content (path ++ secondName) = B := by simp [FS.content, hB]
  refine ⟨{ world := { fs := fs, errCh := none, recordWg := 2, faults := noFaults,
                       panicked := false, log := [] }
            first := { name := path ++ firstName, size := A.length, offset := 0, eof := false,
                       buf := List.replicate r 0 }
            second := { name := path ++ secondName, size := B.length, offset := 0, eof := false,
                        buf := List.replicate r 0 }
            firstL := 0
            firstText := none
            secondL := 0
            secondText := none
            closedFirst := false
            closedSecond := false
            sendBytesWg := 0
            pc := MainPc.readFirst
            fwd := none
            sinkFirst := Sink.init (path ++ firstName) w
            sinkSecond := Sink.init (path ++ secondName) w }, ?_, ?_, ?_⟩
  · simp only [SwapTwoFiles.start, NewFileReader, hl1, hl2, hrI, if_false, openFile, hA, hB,
      noFaults, hc1, hc2]
    simp [State.toLoop, FileReader.EOF, hwI]
  · constructor <;>
      simp [truncatedFirst, truncatedSecond, afterFirst, afterSecond, pendSecond, pendFirst,
        forwarding, pastWait, Sink.init, Sink.got, hA, hB, noFaults] <;>
      first
        | omega
        | (constructor <;> simp [Sink.init, Sink.got] <;> omega)
  · show 17 * ((A.length - 0 + 1) + (B.length - 0 + 1)) + 5 + 0
        + (4 * (B.length - (0 + 0)) + 3) + (4 * (A.length - (0 + 0)) + 3) = _
    omega

/-- C1: a fault-free swap of two distinct files with contents `A` and `B`, read block size
`r ≥ 1` and write block size `w ≥ 1`. Under every interleaving of the goroutines: whenever
`SwapTwoFiles` has returned, it returned `nil`, the first file holds exactly `B`, the second
exactly `A`, and no other file has changed; the goroutines perform at most
`21 * (|A| + |B|) + 45` actions; as long as `SwapTwoFiles` has not returned some goroutine can
act; and after any schedule, serving the goroutines in turn `21 * (|A| + |B|) + 45` times makes
`SwapTwoFiles` return `nil`. -/
theorem SwapTwoFiles_swaps (fs : FS) (path firstName secondName : GoString) (A B : List Byte)
    (r w : Nat) (hr : 1 ≤ r) (hw : 1 ≤ w)
    (hne : path ++ firstName ≠ path ++ secondName)
    (h1 : path ++ firstName ≠ []) (h2 : path ++ secondName ≠ [])
    (hA : fs (path ++ firstName) = some A) (hB : fs (path ++ secondName) = some B) :
    (∀ sched fs1 err,
        SwapTwoFiles sched fs noFaults path firstName secondName r w
          = (fs1, Outcome.returned err) →
        err = none ∧ fs1 (path ++ firstName) = some B ∧ fs1 (path ++ secondName) = some A
          ∧ ∀ q, q ≠ path ++ firstName → q ≠ path ++ secondName → fs1 q = fs q)
    ∧ (∀ sched,
        (SwapTwoFiles (sched ++ roundRobin (21 * (A.length + B.length) + 45)) fs noFaults path
          firstName secondName r w).2 = Outcome.returned none)
    ∧ ∃ s0, SwapTwoFiles.start fs noFaults path firstName secondName r w = Except.ok s0
        ∧ ∀ sched, actions sched s0 ≤ 21 * (A.length + B.length) + 45
            ∧ ((exec sched s0).outcome = Outcome.running →
                ∃ t, (step t (exec sched s0)).isSome = true) := by
  obtain ⟨s0, hstart, hinv, hsteps⟩ := inv_init hr hw h1 h2 hA hB
  refine ⟨?_, ?_, s0, hstart, ?_⟩
  · intro sched fs1 err hrun
    simp only [SwapTwoFiles, hstart, Prod.mk.injEq] at hrun
    obtain ⟨b, hb, _⟩ := inv_exec hr hw hne sched s0 0 hinv
    obtain ⟨he, hf1, hf2, ho⟩ := inv_returned hb hrun.2
    rw [← hrun.1]
    exact ⟨he, hf1, hf2, ho⟩
  · intro sched
    simp only [SwapTwoFiles, hstart, exec_append]
    obtain ⟨b, hb, hle⟩ := inv_exec hr hw hne sched s0 0 hinv
    obtain ⟨err, herr⟩ := inv_roundRobin hr hw hne (21 * (A.length + B.length) + 45)
      (exec sched s0) b hb (by omega)
    obtain ⟨b2, hb2, _⟩ := inv_exec hr hw hne (roundRobin (21 * (A.length + B.length) + 45))
      (exec sched s0) b hb
    rw [herr, (inv_returned hb2 herr).1]
  · intro sched
    obtain ⟨b, hb, hle⟩ := inv_exec hr hw hne sched s0 0 hinv
    exact ⟨by omega, fun hrun => inv_progress hb hrun⟩

set_option maxRecDepth 100000 in
/-- Files "a" = `[1, 2, 3]` and "b" = `[7]` with block sizes 2 and 2: every schedule followed by
129 rounds makes `SwapTwoFiles` return `nil`. -/
theorem SwapTwoFiles_swaps_witness :
    (1 ≤ 2 ∧ ([] ++ ascii "a" : GoString) ≠ [] ++ ascii "b"
      ∧ twoFiles [1, 2, 3] [7] ([] ++ ascii "a") = some [1, 2, 3]
      ∧ twoFiles [1, 2, 3] [7] ([] ++ ascii "b") = some [7])
    ∧ ∀ sched,
        (SwapTwoFiles (sched ++ roundRobin (21 * (3 + 1) + 45)) (twoFiles [1, 2, 3] [7]) noFaults
          [] (ascii "a") (ascii "b") ((2 : Nat) : Int) ((2 : Nat) : Int)).2
          = Outcome.returned none :=
  ⟨⟨by decide, by decide, by decide, by decide⟩,
    (SwapTwoFiles_swaps (twoFiles [1, 2, 3] [7]) [] (ascii "a") (ascii "b") [1, 2, 3] [7] 2 2
      (by decide) (by decide) (by decide) (by decide) (by decide) (by decide) (by decide)).2.1⟩

set_option maxRecDepth 100000 in
/-- The same swap run by 40 rounds of the round-robin schedule: the files are exchanged. -/
theorem SwapTwoFiles_example :
    let res := SwapTwoFiles (roundRobin 40) (twoFiles [1, 2, 3] [7]) noFaults [] (ascii "a")
      (ascii "b") 2 2
    res.1 (ascii "a") = some [7] ∧ res.1 (ascii "b") = some [1, 2, 3]
      ∧ res.2 = Outcome.returned none := by
  decide

set_option maxRecDepth 100000 in
/-- C2, evaluated at a failing input. File "a" is empty, "b" holds one byte, both block sizes
are 1, and the only `WriteAt` on "a" fails. After 9 actions the sink has deposited the error in
`errCh` and signalled completion; the `select` that ends the round takes the error out without
putting it back, so the last `select` finds `errCh` empty and `SwapTwoFiles` returns `nil`,
having truncated "a" to one zero byte and "b" to nothing. Serving the goroutines in turn gives
the same result. -/
theorem SwapTwoFiles_write_failure_returns_nil :
    ((SwapTwoFiles.stateAfter (writeFailureSchedule.take 9) (twoFiles [] [7]) failFirstWrite []
        (ascii "a") (ascii "b") 1 1).map
      fun s => (s.world.errCh, s.world.log, s.sinkFirst.pc, s.world.fs (ascii "a")))
      = some (some (GoError.os 5), [WriteCall.mk (ascii "a") 0 [7]], SinkPc.returned, some [])
    ∧ ((SwapTwoFiles.stateAfter (writeFailureSchedule.take 11) (twoFiles [] [7]) failFirstWrite []
        (ascii "a") (ascii "b") 1 1).map
      fun s => (s.world.errCh, s.pc)) = some (none, MainPc.waitRecord)
    ∧ (SwapTwoFiles writeFailureSchedule (twoFiles [] [7]) failFirstWrite [] (ascii "a")
        (ascii "b") 1 1).2 = Outcome.returned none
    ∧ (SwapTwoFiles writeFailureSchedule (twoFiles [] [7]) failFirstWrite [] (ascii "a")
        (ascii "b") 1 1).1 (ascii "a") = some [0]
    ∧ (SwapTwoFiles writeFailureSchedule (twoFiles [] [7]) failFirstWrite [] (ascii "a")
        (ascii "b") 1 1).1 (ascii "b") = some []
    ∧ (SwapTwoFiles (roundRobin 20) (twoFiles [] [7]) failFirstWrite [] (ascii "a")
        (ascii "b") 1 1).2 = Outcome.returned none := by
  decide

set_option maxRecDepth 100000 in
/-- C5, evaluated at a failing input. File "a" holds `[1, 2]`, "b" holds `[7]`, both block sizes
are 1, and the first `ReadAt` on "a" fails with an error other than `io.EOF`. After that read
`errCh` is empty and the main goroutine goes on to read "b"; the reader of "a" is read again
(it ends at offset 2, at the end of the stream), `errCh` is empty at the end, and `SwapTwoFiles`
returns `nil`, leaving `[7]` in "a" and `[7, 2]` in "b". -/
theorem SwapTwoFiles_read_failure_returns_nil :
    ((SwapTwoFiles.stateAfter [Tid.main] (twoFiles [1, 2] [7]) failFirstRead []
        (ascii "a") (ascii "b") 1 1).map
      fun s => (s.world.errCh, s.pc, s.firstL, s.firstText))
      = some (none, MainPc.readSecond, 0, none)
    ∧ ((SwapTwoFiles.stateAfter [Tid.main] (twoFiles [1, 2] [7]) failFirstRead []
        (ascii "a") (ascii "b") 1 1).map
      fun s => (s.first.offset, s.first.eof)) = some (0, false)
    ∧ ((SwapTwoFiles.stateAfter (roundRobin 40) (twoFiles [1, 2] [7]) failFirstRead []
        (ascii "a") (ascii "b") 1 1).map
      fun s => (s.world.errCh, s.first.offset, s.first.eof, s.world.log))
      = some (none, 2, true,
          [WriteCall.mk (ascii "a") 0 [7], WriteCall.mk (ascii "b") 0 [7],
           WriteCall.mk (ascii "b") 1 [2]])
    ∧ (SwapTwoFiles (roundRobin 40) (twoFiles [1, 2] [7]) failFirstRead [] (ascii "a")
        (ascii "b") 1 1).2 = Outcome.returned none
    ∧ (SwapTwoFiles (roundRobin 40) (twoFiles [1, 2] [7]) failFirstRead [] (ascii "a")
        (ascii "b") 1 1).1 (ascii "a") = some [7]
    ∧ (SwapTwoFiles (roundRobin 40) (twoFiles [1, 2] [7]) failFirstRead [] (ascii "a")
        (ascii "b") 1 1).1 (ascii "b") = some [7, 2] := by
  exact ⟨by decide, by decide, by decide, by decide, by decide, by decide⟩

/-! ## C11: a failing write of the last short block -/

set_option maxRecDepth 100000 in
/-- C11, evaluated at a failing input. The sink with block size 2 receives `[1, 2, 3]` and its
second `WriteAt`, the one of the short block `[3]` issued when the stream is closed, fails: the
sink returns after signalling completion once, but `errCh` is empty, the error is lost. For
comparison, when it receives `[1, 2, 3, 4, 5]` and the failing second `WriteAt` is the one of the
full block `[3, 4]`, the error is in `errCh`, completion has been signalled once and no further
write has been issued. -/
theorem ByteRecordingToFileBuffered_short_write_error_lost :
    ((ByteRecordingToFileBuffered (ascii "a") [1, 2, 3] 2
        { sampleWorld with faults := writePlan (ascii "a") [none, some (GoError.os 5)] }).1.pc
      = SinkPc.returned
    ∧ (ByteRecordingToFileBuffered (ascii "a") [1, 2, 3] 2
        { sampleWorld with faults := writePlan (ascii "a") [none, some (GoError.os 5)] }).2.log
      = [WriteCall.mk (ascii "a") 0 [1, 2], WriteCall.mk (ascii "a") 2 [3]]
    ∧ (ByteRecordingToFileBuffered (ascii "a") [1, 2, 3] 2
        { sampleWorld with faults := writePlan (ascii "a") [none, some (GoError.os 5)] }).2.fs
          (ascii "a")
      = some [1, 2, 9, 9, 9, 9, 9]
    ∧ (ByteRecordingToFileBuffered (ascii "a") [1, 2, 3] 2
        { sampleWorld with faults := writePlan (ascii "a") [none, some (GoError.os 5)] }).2.errCh
      = none
    ∧ (ByteRecordingToFileBuffered (ascii "a") [1, 2, 3] 2
        { sampleWorld with faults := writePlan (ascii "a") [none, some (GoError.os 5)]
          }).2.recordWg
      = sampleWorld.recordWg - 1)
    ∧ ((ByteRecordingToFileBuffered (ascii "a") [1, 2, 3, 4, 5] 2
        { sampleWorld with faults := writePlan (ascii "a") [none, some (GoError.os 5)] }).1.pc
      = SinkPc.returned
    ∧ (ByteRecordingToFileBuffered (ascii "a") [1, 2, 3, 4, 5] 2
        { sampleWorld with faults := writePlan (ascii "a") [none, some (GoError.os 5)] }).2.log
      = [WriteCall.mk (ascii "a") 0 [1, 2], WriteCall.mk (ascii "a") 2 [3, 4]]
    ∧ (ByteRecordingToFileBuffered (ascii "a") [1, 2, 3, 4, 5] 2
        { sampleWorld with faults := writePlan (ascii "a") [none, some (GoError.os 5)] }).2.errCh
      = some (GoError.os 5)
    ∧ (ByteRecordingToFileBuffered (ascii "a") [1, 2, 3, 4, 5] 2
        { sampleWorld with faults := writePlan (ascii "a") [none, some (GoError.os 5)]
          }).2.recordWg
      = sampleWorld.recordWg - 1) := by
  exact ⟨⟨by decide, by decide, by decide, by decide, by decide⟩,
    ⟨by decide, by decide, by decide, by decide⟩⟩

/-! ## C13: a send that is never received -/

set_option maxRecDepth 100000 in
/-- C13, evaluated at a failing input. File "a" is empty, "b" holds `[7, 8]`, the read block size
is 2, the write block size 1, and the only `WriteAt` on "a" fails. After `blockedSendSchedule`
the main goroutine has passed the `select` in front of the second byte and is at the send of that
byte, while the sink that would receive it has deposited its error and returned (the other sink
has returned too, no forwarding goroutine runs, nothing has panicked): no goroutine can act, so
whatever is scheduled afterwards `SwapTwoFiles` never returns. Serving the goroutines in turn
for 8 rounds ends in the same way. -/
theorem SwapTwoFiles_write_failure_deadlock :
    (SwapTwoFiles.stateAfter blockedSendSchedule (twoFiles [] [7, 8]) failFirstWrite []
        (ascii "a") (ascii "b") 2 1).map
      (fun s => (s.pc, s.fwd, s.sinkFirst.pc, s.sinkSecond.pc))
      = some (MainPc.send 1, none, SinkPc.returned, SinkPc.returned)
    ∧ (SwapTwoFiles.stateAfter blockedSendSchedule (twoFiles [] [7, 8]) failFirstWrite []
        (ascii "a") (ascii "b") 2 1).map
      (fun s => (s.world.errCh, s.world.panicked, s.closedSecond))
      = some (some (GoError.os 5), false, false)
    ∧ (∀ sched,
        (SwapTwoFiles (blockedSendSchedule ++ sched) (twoFiles [] [7, 8]) failFirstWrite []
          (ascii "a") (ascii "b") 2 1).2 = Outcome.running)
    ∧ (∀ sched,
        (SwapTwoFiles (roundRobin 8 ++ sched) (twoFiles [] [7, 8]) failFirstWrite []
          (ascii "a") (ascii "b") 2 1).2 = Outcome.running) := by
  have key : ∀ pre : List Tid,
      (SwapTwoFiles.stateAfter pre (twoFiles [] [7, 8]) failFirstWrite []
          (ascii "a") (ascii "b") 2 1).map
        (fun s => ([Tid.main, Tid.fwd, Tid.sinkFirst, Tid.sinkSecond].map
          fun t => (step t s).isSome, s.outcome))
        = some ([false, false, false, false], Outcome.running) →
      ∀ sched, (SwapTwoFiles (pre ++ sched) (twoFiles [] [7, 8]) failFirstWrite []
          (ascii "a") (ascii "b") 2 1).2 = Outcome.running := by
    intro pre h sched
    simp only [SwapTwoFiles.stateAfter, SwapTwoFiles] at h ⊢
    cases hst : SwapTwoFiles.start (twoFiles [] [7, 8]) failFirstWrite [] (ascii "a")
        (ascii "b") 2 1 with
    | error e => rw [hst] at h; simp at h
    | ok s0 =>
      rw [hst] at h
      simp only [Option.map_some', Option.some.injEq, Prod.mk.injEq, List.map_cons,
        List.map_nil, List.cons.injEq, and_true] at h
      obtain ⟨⟨hm, hf, h1, h2⟩, hout⟩ := h
      have hstuck : ∀ t, step t (exec pre s0) = none := by
        intro t
        cases t
        · exact Option.not_isSome_iff_eq_none.mp (by simp [hm])
        · exact Option.not_isSome_iff_eq_none.mp (by simp [hf])
        · exact Option.not_isSome_iff_eq_none.mp (by simp [h1])
        · exact Option.not_isSome_iff_eq_none.mp (by simp [h2])
      simp only [exec_append, exec_stuck sched _ hstuck]
      exact hout
  exact ⟨by decide, by decide, key _ (by decide), key _ (by decide)⟩

/-! ## C12: when `ReadBytes` sets the end-of-stream flag -/

set_option maxRecDepth 100000 in
/-- C12, as stated, fails: the single read of a file of 64 bytes with block size 64 returns 64
bytes and no error and brings the offset to exactly `size`, and `EOF()` is still false: the flag
is set only when the offset exceeds `size`. -/
theorem ReadBytes_exact_size_counterexample :
    (NewFileReader (twoFiles (List.replicate 64 7) []) noFaults (ascii "a") 64).toOption.map
      (fun r =>
        ((r.ReadBytes (r.sysRead (twoFiles (List.replicate 64 7) []) none)).2.1,
         (r.ReadBytes (r.sysRead (twoFiles (List.replicate 64 7) []) none)).2.2.2,
         (r.ReadBytes (r.sysRead (twoFiles (List.replicate 64 7) []) none)).1.offset,
         (r.ReadBytes (r.sysRead (twoFiles (List.replicate 64 7) []) none)).1.size,
         (r.ReadBytes (r.sysRead (twoFiles (List.replicate 64 7) []) none)).1.EOF))
      = some (64, none, 64, 64, false) := by
  decide

/-- C12, amended: after a `ReadBytes` call that does not fail (its `ReadAt` reported no error or
`io.EOF`) the end-of-stream flag is set exactly when it was set before, or the read returned zero
bytes with `io.EOF`, or the new offset exceeds `size`; the new offset is the old one plus the
bytes read. So a read that returns zero bytes from the file sets the flag, and a read of at
least one byte that brings the offset to exactly `size` leaves the flag unset. -/
theorem ReadBytes_eof_iff (r : FileReader) (rd : Nat × List Byte × Option GoError)
    (hok : rd.2.2 = none ∨ rd.2.2 = some GoError.EOF) :
    ((r.ReadBytes rd).1.EOF = true ↔
        r.EOF = true ∨ (rd.2.2 = some GoError.EOF ∧ rd.1 = 0) ∨ r.size < r.offset + rd.1)
    ∧ (r.ReadBytes rd).1.offset = r.offset + rd.1
    ∧ (∀ fs : FS, 0 < r.buf.length → (r.sysRead fs none).1 = 0 →
        (r.ReadBytes (r.sysRead fs none)).1.EOF = true)
    ∧ (r.EOF = false → rd.1 ≠ 0 → r.offset + rd.1 = r.size → (r.ReadBytes rd).1.EOF = false) := by
  have hnf : ¬ (rd.2.2 ≠ none ∧ rd.2.2 ≠ some GoError.EOF) := by
    rcases hok with h | h <;> simp [h]
  refine ⟨?_, ?_, ?_, ?_⟩
  · simp only [FileReader.ReadBytes, if_neg hnf, FileReader.EOF]
    by_cases h1 : r.size < r.offset + rd.1
    · simp [h1]
    · by_cases h2 : rd.2.2 = some GoError.EOF ∧ rd.1 = 0
      · simp [h1, h2]
      · simp [h1, h2]
  · simp only [FileReader.ReadBytes, if_neg hnf]
  · intro fs hb h0
    simp only [FileReader.sysRead, readAt] at h0 ⊢
    have hlt : ((List.drop r.offset (fs.content r.name)).take r.buf.length).length
        < r.buf.length := by omega
    have hne : ¬ r.buf = [] := by
      intro hnil
      rw [hnil] at hb
      exact absurd hb (by simp)
    simp [FileReader.ReadBytes, FileReader.EOF, hlt, h0, hne]
  · intro he hn hsz
    simp only [FileReader.EOF] at he
    have h1 : ¬ r.size < r.offset + rd.1 := by omega
    simp [FileReader.ReadBytes, if_neg hnf, FileReader.EOF, h1, hn, he]

/-- Witness of `ReadBytes_eof_iff`: a reader of a 64-byte file with block size 64 and the result
of its first read, after which the offset is 64 and the flag unset. -/
theorem ReadBytes_eof_iff_witness :
    (((64, List.replicate 64 7, none) : Nat × List Byte × Option GoError).2.2 = none
      ∨ ((64, List.replicate 64 7, none) : Nat × List Byte × Option GoError).2.2
          = some GoError.EOF)
    ∧ ((FileReader.mk (ascii "a") 64 0 false (List.replicate 64 0)).ReadBytes
          (64, List.replicate 64 7, none)).1.offset = 0 + 64
    ∧ ((FileReader.mk (ascii "a") 64 0 false (List.replicate 64 0)).ReadBytes
          (64, List.replicate 64 7, none)).1.EOF = false :=
  ⟨Or.inl rfl,
    (ReadBytes_eof_iff (FileReader.mk (ascii "a") 64 0 false (List.replicate 64 0))
      (64, List.replicate 64 7, none) (Or.inl rfl)).2.1,
    (ReadBytes_eof_iff (FileReader.mk (ascii "a") 64 0 false (List.replicate 64 0))
      (64, List.replicate 64 7, none) (Or.inl rfl)).2.2.2 rfl (by decide) rfl⟩

/-! ## C14: offset and size of a reader over a file that changes -/

set_option maxRecDepth 100000 in
/-- C14, as stated, fails: a reader opened with block size 2 on a file of one byte that has
grown to three bytes reads two bytes; its offset 2 exceeds its size 1, and that is what sets the
end-of-stream flag. The same state is reached by the reader of the shorter file when
`SwapTwoFiles` swaps `[1]` with `[7, 8, 9]` in read blocks of 2 (and returns `nil` with the
files swapped). -/
theorem ReadBytes_offset_beyond_size_counterexample :
    (NewFileReader (twoFiles [1] []) noFaults (ascii "a") 2).toOption.map
      (fun r => (r.readStates [(twoFiles [1, 8, 9] [], none)]).map
        fun r1 => (r1.offset, r1.size, r1.EOF))
      = some [(2, 1, true)]
    ∧ (SwapTwoFiles.stateAfter (roundRobin 60) (twoFiles [1] [7, 8, 9]) noFaults []
        (ascii "a") (ascii "b") 2 1).map
      (fun s => (s.outcome, s.first.offset, s.first.size, s.first.EOF))
      = some (Outcome.returned none, 2, 1, true) := by
  exact ⟨by decide, by decide⟩

/-- Offsets, size and name along a sequence of `ReadBytes` calls on a file that may change in
any way between the calls. -/
theorem readStates_spec (L : Nat) (fileName : GoString)
    (envs : List (FS × Option (Nat × Nat))) :
    ∀ r : FileReader, r.size = L → r.name = fileName →
      List.Chain' (fun a b : FileReader => a.offset ≤ b.offset) (r :: r.readStates envs)
      ∧ (∀ x ∈ r.readStates envs, x.size = L)
      ∧ ((r.size < r.offset → r.EOF = true) →
          ∀ x ∈ r.readStates envs, x.size < x.offset → x.EOF = true)
      ∧ (r.offset ≤ r.size →
          (∀ e ∈ envs, (e.1.content fileName).length ≤ L) →
          ∀ x ∈ r.readStates envs, x.offset ≤ x.size) := by
  induction envs with
  | nil =>
    intro r _ _
    simp [FileReader.readStates]
  | cons e rest ih =>
    intro r hsize hname
    have hstep : ((r.ReadBytes (r.sysRead e.1 (e.2.map fun f => (f.1, GoError.os f.2)))).1.size
          = L
        ∧ (r.ReadBytes (r.sysRead e.1 (e.2.map fun f => (f.1, GoError.os f.2)))).1.name
          = fileName
        ∧ r.offset
          ≤ (r.ReadBytes (r.sysRead e.1 (e.2.map fun f => (f.1, GoError.os f.2)))).1.offset)
        ∧ ((r.size < r.offset → r.EOF = true) →
            (r.ReadBytes (r.sysRead e.1 (e.2.map fun f => (f.1, GoError.os f.2)))).1.size
              < (r.ReadBytes (r.sysRead e.1 (e.2.map fun f => (f.1, GoError.os f.2)))).1.offset →
            (r.ReadBytes (r.sysRead e.1 (e.2.map fun f => (f.1, GoError.os f.2)))).1.EOF = true)
        ∧ (r.offset ≤ r.size → (e.1.content fileName).length ≤ L →
            (r.ReadBytes (r.sysRead e.1 (e.2.map fun f => (f.1, GoError.os f.2)))).1.offset
              ≤ (r.ReadBytes (r.sysRead e.1 (e.2.map fun f => (f.1, GoError.os f.2)))).1.size) := by
      generalize hrd : r.sysRead e.1 (e.2.map fun f => (f.1, GoError.os f.2)) = rd
      unfold FileReader.ReadBytes
      by_cases hf : rd.2.2 ≠ none ∧ rd.2.2 ≠ some GoError.EOF
      · simp only [hf, and_self, if_true, ne_eq, not_false_eq_true]
        refine ⟨⟨hsize, hname, le_refl _⟩, fun h => h, ?_⟩
        intro h _
        exact h
      · simp only [if_neg hf, FileReader.EOF]
        refine ⟨⟨hsize, hname, Nat.le_add_right _ _⟩, ?_, ?_⟩
        · intro _ hgt
          simp only [gt_iff_lt] at hgt ⊢
          simp [hgt]
        · intro hle hlen
          cases he : e.2 with
          | some f =>
            rw [he] at hrd
            simp only [Option.map_some', FileReader.sysRead] at hrd
            rw [← hrd] at hf
            exact absurd ⟨by simp, by simp⟩ hf
          | none =>
            rw [he] at hrd
            simp only [Option.map_none', FileReader.sysRead, readAt] at hrd
            rw [← hrd]
            simp only [List.length_take, List.length_drop, hname]
            omega
    obtain ⟨⟨h1, h2, h3⟩, h4, h5⟩ := hstep
    obtain ⟨ih1, ih2, ih3, ih4⟩ :=
      ih (r.ReadBytes (r.sysRead e.1 (e.2.map fun f => (f.1, GoError.os f.2)))).1 h1 h2
    simp only [FileReader.readStates]
    refine ⟨List.Chain'.cons h3 ih1, ?_, ?_, ?_⟩
    · intro x hx
      rcases List.mem_cons.mp hx with rfl | hx
      · exact h1
      · exact ih2 x hx
    · intro hr x hx
      rcases List.mem_cons.mp hx with rfl | hx
      · exact h4 hr
      · exact ih3 (h4 hr) x hx
    · intro hr henv x hx
      have he := henv e (List.mem_cons_self _ _)
      rcases List.mem_cons.mp hx with rfl | hx
      · exact h5 hr he
      · refine ih4 ?_ (fun e' he' => henv e' (List.mem_cons_of_mem _ he')) x hx
        rw [h1]
        have := h5 hr he
        rw [h1] at this
        exact this

/-- C14, amended: in every reader state reachable from a successful open by `ReadBytes` calls,
whatever happens to the file between the calls and whichever reads fail, the offset never
decreases from one call to the next, `size` still equals the length captured at open, and the
offset exceeds `size` only with the end-of-stream flag set (reading beyond `size` is what sets
it); as long as the file has not grown beyond the length captured at open, the offset never
exceeds `size`, with the flag set or not. `Truncate` sets `size` to exactly the new length when it
succeeds and leaves the reader as it is when it fails. -/
theorem readStates_invariants (fs : FS) (ft : Faults) (fileName : GoString) (readBlockSize : Int)
    (r0 : FileReader) (envs : List (FS × Option (Nat × Nat)))
    (hopen : NewFileReader fs ft fileName readBlockSize = Except.ok r0) :
    List.Chain' (fun a b : FileReader => a.offset ≤ b.offset) (r0 :: r0.readStates envs)
    ∧ (∀ x ∈ r0 :: r0.readStates envs, x.size = (fs.content fileName).length)
    ∧ (∀ x ∈ r0 :: r0.readStates envs, x.size < x.offset → x.EOF = true)
    ∧ ((∀ e ∈ envs, (e.1.content fileName).length ≤ (fs.content fileName).length) →
        ∀ x ∈ r0 :: r0.readStates envs, x.offset ≤ x.size)
    ∧ (∀ x ∈ r0 :: r0.readStates envs, ∀ (fs1 : FS) (ft1 : Faults) (newSize : Int),
        ((x.Truncate fs1 ft1 newSize).2.2 = none →
          ((x.Truncate fs1 ft1 newSize).2.1.size : Int) = newSize
            ∧ (x.Truncate fs1 ft1 newSize).2.1.offset = x.offset)
        ∧ ((x.Truncate fs1 ft1 newSize).2.2 ≠ none → (x.Truncate fs1 ft1 newSize).2.1 = x)) := by
  obtain ⟨_, _, hname, hsize, hoff, heof, _, _⟩ :=
    NewFileReader_ok fs ft fileName readBlockSize r0 hopen
  obtain ⟨h1, h2, h3, h4⟩ := readStates_spec (fs.content fileName).length fileName envs r0
    hsize hname
  refine ⟨h1, ?_, ?_, ?_, ?_⟩
  · intro x hx
    rcases List.mem_cons.mp hx with rfl | hx
    · exact hsize
    · exact h2 x hx
  · intro x hx
    rcases List.mem_cons.mp hx with rfl | hx
    · intro h; omega
    · exact h3 (by intro h; omega) x hx
  · intro henv x hx
    rcases List.mem_cons.mp hx with rfl | hx
    · omega
    · exact h4 (by omega) henv x hx
  · intro x _ fs1 ft1 newSize
    unfold FileReader.Truncate
    by_cases hn : newSize < 0
    · simp [hn]
    · simp only [if_neg hn]
      cases ht : ft1.truncs x.name with
      | some err => simp
      | none =>
        simp only [Int.toNat_of_nonneg (not_lt.mp hn)]
        simp

set_option maxRecDepth 100000 in
/-- Witness of `readStates_invariants`: the reader of a file of five bytes with block size 2,
read five times while the file stays as it is, the second read failing. -/
theorem readStates_invariants_witness :
    NewFileReader (twoFiles [1, 2, 3, 4, 5] []) noFaults (ascii "a") 2
        = Except.ok (FileReader.mk (ascii "a") 5 0 false [0, 0])
    ∧ (∀ x ∈ FileReader.mk (ascii "a") 5 0 false [0, 0]
          :: (FileReader.mk (ascii "a") 5 0 false [0, 0]).readStates
              [(twoFiles [1, 2, 3, 4, 5] [], none), (twoFiles [1, 2, 3, 4, 5] [], some (1, 5)),
               (twoFiles [1, 2, 3, 4, 5] [], none), (twoFiles [1, 2, 3, 4, 5] [], none),
               (twoFiles [1, 2, 3, 4, 5] [], none)],
        x.size = ((twoFiles [1, 2, 3, 4, 5] []).content (ascii "a")).length)
    ∧ (∀ x ∈ FileReader.mk (ascii "a") 5 0 false [0, 0]
          :: (FileReader.mk (ascii "a") 5 0 false [0, 0]).readStates
              [(twoFiles [1, 2, 3, 4, 5] [], none), (twoFiles [1, 2, 3, 4, 5] [], some (1, 5)),
               (twoFiles [1, 2, 3, 4, 5] [], none), (twoFiles [1, 2, 3, 4, 5] [], none),
               (twoFiles [1, 2, 3, 4, 5] [], none)],
        x.offset ≤ x.size) :=
  ⟨rfl,
    (readStates_invariants (twoFiles [1, 2, 3, 4, 5] []) noFaults (ascii "a") 2
      (FileReader.mk (ascii "a") 5 0 false [0, 0])
      [(twoFiles [1, 2, 3, 4, 5] [], none), (twoFiles [1, 2, 3, 4, 5] [], some (1, 5)),
       (twoFiles [1, 2, 3, 4, 5] [], none), (twoFiles [1, 2, 3, 4, 5] [], none),
       (twoFiles [1, 2, 3, 4, 5] [], none)] rfl).2.1,
    (readStates_invariants (twoFiles [1, 2, 3, 4, 5] []) noFaults (ascii "a") 2
      (FileReader.mk (ascii "a") 5 0 false [0, 0])
      [(twoFiles [1, 2, 3, 4, 5] [], none), (twoFiles [1, 2, 3, 4, 5] [], some (1, 5)),
       (twoFiles [1, 2, 3, 4, 5] [], none), (twoFiles [1, 2, 3, 4, 5] [], none),
       (twoFiles [1, 2, 3, 4, 5] [], none)] rfl).2.2.2.1 (by decide)⟩

set_option maxRecDepth 100000 in
/-- The states of the witness, evaluated: offsets 2, 2 (the failed read), 4, 5, 5, the flag set by
the last read. -/
theorem readStates_example :
    ((FileReader.mk (ascii "a") 5 0 false [0, 0]).readStates
        [(twoFiles [1, 2, 3, 4, 5] [], none), (twoFiles [1, 2, 3, 4, 5] [], some (1, 5)),
         (twoFiles [1, 2, 3, 4, 5] [], none), (twoFiles [1, 2, 3, 4, 5] [], none),
         (twoFiles [1, 2, 3, 4, 5] [], none)]).map
      (fun x => (x.offset, x.size, x.EOF))
      = [(2, 5, false), (2, 5, false), (4, 5, false), (5, 5, false), (5, 5, true)] := by
  decide

/-! ## C15: the block buffer of the buffered sink -/

theorem bytesOf_append (L : List WriteCall) (c : WriteCall) :
    bytesOf (L ++ [c]) = bytesOf L + c.data.length := by
  simp [bytesOf]

/-- Appending a write issued at the offset equal to the bytes carried so far keeps every write
at the offset equal to the bytes carried before it. -/
theorem offsets_snoc (L : List WriteCall) (c : WriteCall)
    (h : ∀ i x, L[i]? = some x → x.off = bytesOf (L.take i)) (hc : c.off = bytesOf L) :
    ∀ i x, (L ++ [c])[i]? = some x → x.off = bytesOf ((L ++ [c]).take i) := by
  intro i x hx
  by_cases hi : i < L.length
  · rw [List.getElem?_append_left hi] at hx
    rw [List.take_append_of_le_length (le_of_lt hi)]
    exact h i x hx
  · have hge : L.length ≤ i := not_lt.mp hi
    rw [List.getElem?_append_right hge] at hx
    have h0 : i - L.length = 0 := by
      by_contra hne
      have : 1 ≤ i - L.length := by omega
      rw [List.getElem?_eq_none (by simpa using this)] at hx
      exact absurd hx (by simp)
    rw [h0] at hx
    have hxc : x = c := by simpa using hx.symm
    have hil : i = L.length := by omega
    rw [hxc, hc, hil]
    simp

/-- One action of a sink keeps the safety invariant. -/
theorem SinkSafe.step_safe {w : Nat} {dst : GoString} {log0 : List WriteCall} {k : Sink}
    {W : World} {closed : Bool} {kw : Sink × World} (hw : 1 ≤ w)
    (h : SinkSafe w dst log0 k W) (hs : k.step closed W = some kw) :
    SinkSafe w dst log0 kw.1 kw.2 := by
  obtain ⟨hwbs, hbl, hdst, ⟨L, hlog, hL, hbytes, hoffs, htail⟩, hoff, hidx, hpan⟩ := h
  unfold Sink.step at hs
  by_cases hp : W.panicked = true
  · simp [hp] at hs
  · have hp' : W.panicked = false := by simpa using hp
    simp only [hp', Bool.false_eq_true, if_false] at hs
    cases hk : k.pc with
    | recv =>
      simp only [hk] at hs hidx
      cases closed with
      | false => simp at hs
      | true =>
        simp only [if_true, Option.some.injEq] at hs
        subst hs
        have hb := hbytes (by rw [hk]; rfl)
        have ho := hoff (by rw [hk]; rfl)
        refine ⟨hwbs, hbl, hdst, ⟨L, hlog, hL, fun _ => hb, hoffs, Or.inl ho⟩, fun _ => ho,
          ?_, ?_⟩
        · show match (if _ then SinkPc.flush else SinkPc.done) with
            | SinkPc.recv => _ | SinkPc.check _ => _ | SinkPc.write => _ | SinkPc.flush => _
            | _ => True
          rw [hwbs]
          by_cases hshort : 0 < k.currSymbol ∧ (k.currSymbol : Int) < (w : Int)
          · rw [if_pos hshort]
            exact ⟨hshort.1, hidx⟩
          · rw [if_neg hshort]
            trivial
        · intro hc
          exact Bool.noConfusion (hp'.symm.trans hc)
    | check ch =>
      simp only [hk] at hs hidx
      have hb := hbytes (by rw [hk]; rfl)
      have ho := hoff (by rw [hk]; rfl)
      cases herr : W.errCh with
      | some err =>
        simp only [herr, Option.some.injEq] at hs
        subst hs
        exact ⟨hwbs, hbl, hdst,
          ⟨L, hlog, hL, fun hc => Bool.noConfusion (show false = true from hc), hoffs,
            Or.inl ho⟩,
          fun hc => Bool.noConfusion (show false = true from hc), trivial,
          fun hc => Bool.noConfusion (show false = true from hc)⟩
      | none =>
        have hlt : k.currSymbol < k.buf.length := by omega
        simp only [herr, hlt, if_true, Option.some.injEq] at hs
        subst hs
        refine ⟨hwbs, by simp [hbl], hdst, ⟨L, hlog, hL, fun _ => hb, hoffs, Or.inl ho⟩,
          fun _ => ho, ?_, fun hc => Bool.noConfusion (hp'.symm.trans hc)⟩
        show match (if _ then SinkPc.write else SinkPc.recv) with
            | SinkPc.recv => _ | SinkPc.check _ => _ | SinkPc.write => _ | SinkPc.flush => _
            | _ => True
        rw [hwbs]
        by_cases hfull : ((k.currSymbol + 1 : Nat) : Int) = (w : Int)
        · simp only [hfull, if_true]
          exact_mod_cast hfull
        · simp only [hfull, if_false]
          show k.currSymbol + 1 < w
          have : k.currSymbol + 1 ≠ w := fun e => hfull (by exact_mod_cast e)
          omega
    | redeposit err =>
      simp only [hk] at hs
      have ho : w ∣ k.chIndex := by
        rcases htail with h1 | ⟨h1 | h1, _⟩
        · exact h1
        · rw [hk] at h1; exact SinkPc.noConfusion h1
        · rw [hk] at h1; exact SinkPc.noConfusion h1
      cases herr : W.errCh with
      | some e => simp [herr] at hs
      | none =>
        simp only [herr, Option.some.injEq] at hs
        subst hs
        exact ⟨hwbs, hbl, hdst,
          ⟨L, hlog, hL, fun hc => Bool.noConfusion (show false = true from hc), hoffs,
            Or.inl ho⟩,
          fun hc => Bool.noConfusion (show false = true from hc), trivial,
          fun hc => Bool.noConfusion (show false = true from hc)⟩
    | write =>
      simp only [hk] at hs hidx
      have hb := hbytes (by rw [hk]; rfl)
      have ho := hoff (by rw [hk]; rfl)
      have hL' : ∀ c ∈ L ++ [WriteCall.mk k.dstFile k.chIndex k.buf],
          c.dst = dst ∧ w ∣ c.off ∧ c.data.length ≤ w := by
        intro c hc
        rcases List.mem_append.mp hc with hc | hc
        · exact hL c hc
        · rw [List.mem_singleton.mp hc]
          exact ⟨hdst, ho, by simp [hbl]⟩
      have hoffs' := offsets_snoc L (WriteCall.mk k.dstFile k.chIndex k.buf) hoffs hb.symm
      have hlog' : (W.sysWrite k.dstFile k.buf k.chIndex).1.log
          = log0 ++ (L ++ [WriteCall.mk k.dstFile k.chIndex k.buf]) := by
        simp [World.sysWrite, hlog]
      have hpan' : (W.sysWrite k.dstFile k.buf k.chIndex).1.panicked = false := hp'
      cases hres : (W.sysWrite k.dstFile k.buf k.chIndex).2 with
      | some err =>
        simp only [hres, Option.some.injEq] at hs
        subst hs
        exact ⟨hwbs, hbl, hdst,
          ⟨_, hlog', hL', fun hc => Bool.noConfusion (show false = true from hc), hoffs',
            Or.inl ho⟩,
          fun hc => Bool.noConfusion (show false = true from hc), trivial,
          fun hc => Bool.noConfusion (hpan'.symm.trans hc)⟩
      | none =>
        simp only [hres, Option.some.injEq] at hs
        subst hs
        have hwn : k.writeBlockSize.toNat = w := by rw [hwbs]; simp
        have ho' : w ∣ k.chIndex + k.writeBlockSize.toNat := by
          rw [hwn]
          exact Dvd.dvd.add ho (dvd_refl w)
        refine ⟨hwbs, hbl, hdst, ⟨_, hlog', hL', fun _ => ?_, hoffs', Or.inl ho'⟩,
          fun _ => ho', ?_, fun hc => Bool.noConfusion (hpan'.symm.trans hc)⟩
        · show bytesOf _ = k.chIndex + k.writeBlockSize.toNat
          rw [bytesOf_append, hb, hwn]
          simp [hbl]
        · show (0 : Nat) < w
          omega
    | deposit err =>
      simp only [hk] at hs
      have ho : w ∣ k.chIndex := by
        rcases htail with h1 | ⟨h1 | h1, _⟩
        · exact h1
        · rw [hk] at h1; exact SinkPc.noConfusion h1
        · rw [hk] at h1; exact SinkPc.noConfusion h1
      cases herr : W.errCh with
      | some e => simp [herr] at hs
      | none =>
        simp only [herr, Option.some.injEq] at hs
        subst hs
        exact ⟨hwbs, hbl, hdst,
          ⟨L, hlog, hL, fun hc => Bool.noConfusion (show false = true from hc), hoffs,
            Or.inl ho⟩,
          fun hc => Bool.noConfusion (show false = true from hc), trivial,
          fun hc => Bool.noConfusion (show false = true from hc)⟩
    | flush =>
      simp only [hk, Option.some.injEq] at hs hidx
      subst hs
      have hb := hbytes (by rw [hk]; rfl)
      have ho := hoff (by rw [hk]; rfl)
      have hlen : (k.buf.take k.currSymbol).length = k.currSymbol := by
        simp only [List.length_take]
        omega
      have hL' : ∀ c ∈ L ++ [WriteCall.mk k.dstFile k.chIndex (k.buf.take k.currSymbol)],
          c.dst = dst ∧ w ∣ c.off ∧ c.data.length ≤ w := by
        intro c hc
        rcases List.mem_append.mp hc with hc | hc
        · exact hL c hc
        · rw [List.mem_singleton.mp hc]
          refine ⟨hdst, ho, ?_⟩
          show (k.buf.take k.currSymbol).length ≤ w
          omega
      have hoffs' := offsets_snoc L
        (WriteCall.mk k.dstFile k.chIndex (k.buf.take k.currSymbol)) hoffs hb.symm
      have hlog' : (W.sysWrite k.dstFile (k.buf.take k.currSymbol) k.chIndex).1.log
          = log0 ++ (L ++ [WriteCall.mk k.dstFile k.chIndex (k.buf.take k.currSymbol)]) := by
        simp [World.sysWrite, hlog]
      have hpan' : (W.sysWrite k.dstFile (k.buf.take k.currSymbol) k.chIndex).1.panicked
          = false := hp'
      refine ⟨hwbs, hbl, hdst,
        ⟨_, hlog', hL', fun hc => Bool.noConfusion (show false = true from hc), hoffs',
          Or.inr ⟨Or.inl rfl, WriteCall.mk k.dstFile k.chIndex (k.buf.take k.currSymbol),
            by simp, ?_, ?_, ?_⟩⟩,
        fun hc => Bool.noConfusion (show false = true from hc), trivial,
        fun hc => Bool.noConfusion (hpan'.symm.trans hc)⟩
      · show 0 < (k.buf.take k.currSymbol).length
        omega
      · show (k.buf.take k.currSymbol).length < w
        omega
      · show k.chIndex + k.currSymbol = k.chIndex + (k.buf.take k.currSymbol).length
        omega
    | done =>
      simp only [hk, Option.some.injEq] at hs
      subst hs
      refine ⟨hwbs, hbl, hdst,
        ⟨L, hlog, hL, fun hc => Bool.noConfusion (show false = true from hc), hoffs, ?_⟩,
        fun hc => Bool.noConfusion (show false = true from hc), trivial, fun _ => rfl⟩
      rcases htail with h1 | ⟨_, h1⟩
      · exact Or.inl h1
      · exact Or.inr ⟨Or.inr rfl, h1⟩
    | returned => simp [hk] at hs

/-- The safety invariant holds along every sequence of events. -/
theorem SinkSafe.run_safe {w : Nat} {dst : GoString} {log0 : List WriteCall} (hw : 1 ≤ w)
    (events : List SinkEvent) :
    ∀ (k : Sink) (W : World), SinkSafe w dst log0 k W →
      SinkSafe w dst log0 (Sink.run events k W).1 (Sink.run events k W).2 := by
  induction events with
  | nil => intro k W h; exact h
  | cons e rest ih =>
    intro k W h
    cases e with
    | byte ch =>
      simp only [Sink.run]
      by_cases hc : k.pc = SinkPc.recv ∧ W.panicked = false
      · rw [if_pos hc]
        apply ih
        obtain ⟨hwbs, hbl, hdst, ⟨L, hlog, hL, hbytes, hoffs, htail⟩, hoff, hidx, hpan⟩ := h
        have hb := hbytes (by rw [hc.1]; rfl)
        have ho := hoff (by rw [hc.1]; rfl)
        simp only [hc.1] at hidx
        exact ⟨hwbs, hbl, hdst, ⟨L, hlog, hL, fun _ => hb, hoffs, Or.inl ho⟩, fun _ => ho, hidx,
          fun hp => Bool.noConfusion (hc.2.symm.trans hp)⟩
      · rw [if_neg hc]
        exact ih k W h
    | act closed =>
      simp only [Sink.run]
      cases hs : k.step closed W with
      | none => exact ih k W h
      | some kw => exact ih kw.1 kw.2 (SinkSafe.step_safe hw h hs)
    | signal e =>
      simp only [Sink.run]
      apply ih
      obtain ⟨hwbs, hbl, hdst, hlog, hoff, hidx, hpan⟩ := h
      exact ⟨hwbs, hbl, hdst, hlog, hoff, hidx, hpan⟩

set_option maxRecDepth 100000 in
/-- C15, as stated, fails: with block size 2 the sink receives `[1, 2, 3]` and the close of the
stream, no write failing. It writes `[1, 2]` at offset 0 and the short block `[3]` at offset 2,
and the statement after that write, `chIndex += int64(currSymbol)`, leaves `chIndex = 3`, which
is not a multiple of the block size. -/
theorem ByteRecordingToFileBuffered_chIndex_counterexample :
    (ByteRecordingToFileBuffered (ascii "a") [1, 2, 3] 2 sampleWorld).1.pc = SinkPc.returned
    ∧ (ByteRecordingToFileBuffered (ascii "a") [1, 2, 3] 2 sampleWorld).2.log
        = sampleWorld.log ++ [WriteCall.mk (ascii "a") 0 [1, 2], WriteCall.mk (ascii "a") 2 [3]]
    ∧ (ByteRecordingToFileBuffered (ascii "a") [1, 2, 3] 2 sampleWorld).1.chIndex = 3
    ∧ ¬ (2 ∣ (ByteRecordingToFileBuffered (ascii "a") [1, 2, 3] 2 sampleWorld).1.chIndex) := by
  exact ⟨by decide, by decide, by decide, by decide⟩

/-- C15, amended: a sink started with block size `w >= 1`, under every sequence of received
bytes, own actions, stream closures, states of `errCh` and write failures. Its buffer has `w`
cells; at the start of each loop iteration (holding the byte just received) `currSymbol` is below
`w`, so the store `buf[currSymbol] = ch` is in range, as it is whenever the sink waits for a
byte; no panic occurs before `wg.Done()`. Every write it issues goes to the destination at an
offset that is a multiple of `w` and equal to the number of bytes carried by the writes before
it, with at most `w` bytes; while the sink is in its loop or in front of its last write,
`chIndex` is a multiple of `w` and equals the number of bytes carried by the writes issued.
`chIndex` is a multiple of `w` in every state but one kind: once a last short block has been
written (the sink is then at `wg.Done()` or has returned) `chIndex` is the end of that write,
its offset plus its length, where the length is positive and below `w`. With block size 0 the
first byte received while `errCh` is empty is stored out of range (a panic), and `SwapTwoFiles`
accepts `writeBlockSize = 0`: on two one-byte files the run panics while `SwapTwoFiles` has not
returned. -/
theorem ByteRecordingToFileBuffered_index_in_range (dstFile : GoString) (w : Nat) (W : World)
    (events : List SinkEvent) (hw : 1 ≤ w) (hp : W.panicked = false) :
    ((Sink.run events (Sink.init dstFile w) W).1.buf.length = w
      ∧ (∀ ch, (Sink.run events (Sink.init dstFile w) W).1.pc = SinkPc.check ch →
          (Sink.run events (Sink.init dstFile w) W).1.currSymbol
            < (Sink.run events (Sink.init dstFile w) W).1.buf.length)
      ∧ ((Sink.run events (Sink.init dstFile w) W).1.pc = SinkPc.recv →
          (Sink.run events (Sink.init dstFile w) W).1.currSymbol < w)
      ∧ ((Sink.run events (Sink.init dstFile w) W).1.pc.writing = true →
          w ∣ (Sink.run events (Sink.init dstFile w) W).1.chIndex
          ∧ (Sink.run events (Sink.init dstFile w) W).1.chIndex
            = bytesOf ((Sink.run events (Sink.init dstFile w) W).2.log.drop W.log.length))
      ∧ (∀ c ∈ (Sink.run events (Sink.init dstFile w) W).2.log.drop W.log.length,
          c.dst = dstFile ∧ w ∣ c.off ∧ c.data.length ≤ w)
      ∧ ((Sink.run events (Sink.init dstFile w) W).2.panicked = true →
          (Sink.run events (Sink.init dstFile w) W).1.pc = SinkPc.returned)
      ∧ (∀ i c, ((Sink.run events (Sink.init dstFile w) W).2.log.drop W.log.length)[i]? = some c →
          c.off = bytesOf (((Sink.run events (Sink.init dstFile w) W).2.log.drop W.log.length).take i))
      ∧ (w ∣ (Sink.run events (Sink.init dstFile w) W).1.chIndex
          ∨ (((Sink.run events (Sink.init dstFile w) W).1.pc = SinkPc.done
                ∨ (Sink.run events (Sink.init dstFile w) W).1.pc = SinkPc.returned)
              ∧ ∃ c, ((Sink.run events (Sink.init dstFile w) W).2.log.drop W.log.length).getLast? = some c
                  ∧ 0 < c.data.length ∧ c.data.length < w
                  ∧ (Sink.run events (Sink.init dstFile w) W).1.chIndex = c.off + c.data.length)))
    ∧ (∀ (ch : Byte) (closed : Bool) (W0 : World), W0.errCh = none → W0.panicked = false →
        (Sink.run [SinkEvent.byte ch, SinkEvent.act closed] (Sink.init dstFile 0) W0).2.panicked
          = true)
    ∧ (SwapTwoFiles.stateAfter (roundRobin 5) (twoFiles [1] [7]) noFaults [] (ascii "a")
        (ascii "b") 1 0).map (fun s => (s.outcome, s.world.panicked))
        = some (Outcome.running, true) := by
  have h0 : SinkSafe w dstFile W.log (Sink.init dstFile w) W := by
    refine ⟨rfl, by simp [Sink.init], rfl,
      ⟨[], by simp, by simp, fun _ => rfl, by simp, Or.inl (dvd_zero w)⟩,
      fun _ => dvd_zero w, ?_, fun hc => Bool.noConfusion (hp.symm.trans hc)⟩
    show (0 : Nat) < w
    omega
  obtain ⟨hwbs, hbl, hdst, ⟨L, hlog, hL, hbytes, hoffs, htail⟩, hoff, hidx, hpan⟩ :=
    SinkSafe.run_safe hw events _ _ h0
  have hdrop : (Sink.run events (Sink.init dstFile w) W).2.log.drop W.log.length = L := by
    rw [hlog]
    simp
  refine ⟨⟨hbl, ?_, ?_, ?_, ?_, hpan, ?_, ?_⟩, ?_, ?_⟩
  · intro ch hk
    rw [hk] at hidx
    rw [hbl]
    exact hidx
  · intro hk
    rw [hk] at hidx
    exact hidx
  · intro hk
    rw [hdrop]
    exact ⟨hoff hk, (hbytes hk).symm⟩
  · rw [hdrop]
    exact hL
  · rw [hdrop]
    exact hoffs
  · rw [hdrop]
    exact htail
  · intro ch closed W0 herr hp0
    simp [Sink.run, Sink.init, Sink.deliver, Sink.step, herr, hp0]
  · decide

set_option maxRecDepth 100000 in
/-- Witness of `ByteRecordingToFileBuffered_index_in_range`: block size 2, three bytes and the
close of the stream, with the sink acting after each of them. -/
theorem ByteRecordingToFileBuffered_index_in_range_witness :
    (1 ≤ 2 ∧ sampleWorld.panicked = false)
    ∧ (Sink.run [SinkEvent.byte 1, SinkEvent.act false, SinkEvent.byte 2, SinkEvent.act false,
          SinkEvent.act false, SinkEvent.byte 3, SinkEvent.act false, SinkEvent.act true]
        (Sink.init (ascii "a") (2 : Nat)) sampleWorld).1.buf.length = 2 :=
  ⟨⟨by decide, rfl⟩,
    (ByteRecordingToFileBuffered_index_in_range (ascii "a") 2 sampleWorld
      [SinkEvent.byte 1, SinkEvent.act false, SinkEvent.byte 2, SinkEvent.act false,
        SinkEvent.act false, SinkEvent.byte 3, SinkEvent.act false, SinkEvent.act true]
      (by decide) rfl).1.1⟩

set_option maxRecDepth 100000 in
/-- The run of the witness, evaluated: the sink is in front of its last write, of the one byte it
holds, at offset 2, after one write of two bytes at offset 0; two actions later it is at
`wg.Done()` with `chIndex = 3`. -/
theorem Sink.run_example :
    (Sink.run [SinkEvent.byte 1, SinkEvent.act false, SinkEvent.byte 2, SinkEvent.act false,
          SinkEvent.act false, SinkEvent.byte 3, SinkEvent.act false, SinkEvent.act true]
        (Sink.init (ascii "a") (2 : Nat)) sampleWorld).1.pc = SinkPc.flush
    ∧ (Sink.run [SinkEvent.byte 1, SinkEvent.act false, SinkEvent.byte 2, SinkEvent.act false,
          SinkEvent.act false, SinkEvent.byte 3, SinkEvent.act false, SinkEvent.act true]
        (Sink.init (ascii "a") (2 : Nat)) sampleWorld).1.chIndex = 2
    ∧ (Sink.run [SinkEvent.byte 1, SinkEvent.act false, SinkEvent.byte 2, SinkEvent.act false,
          SinkEvent.act false, SinkEvent.byte 3, SinkEvent.act false, SinkEvent.act true]
        (Sink.init (ascii "a") (2 : Nat)) sampleWorld).1.currSymbol = 1
    ∧ (Sink.run [SinkEvent.byte 1, SinkEvent.act false, SinkEvent.byte 2, SinkEvent.act false,
          SinkEvent.act false, SinkEvent.byte 3, SinkEvent.act false, SinkEvent.act true]
        (Sink.init (ascii "a") (2 : Nat)) sampleWorld).2.log
        = [WriteCall.mk (ascii "a") 0 [1, 2]]
    ∧ (Sink.run [SinkEvent.byte 1, SinkEvent.act false, SinkEvent.byte 2, SinkEvent.act false,
          SinkEvent.act false, SinkEvent.byte 3, SinkEvent.act false, SinkEvent.act true,
          SinkEvent.act true]
        (Sink.init (ascii "a") (2 : Nat)) sampleWorld).1.pc = SinkPc.done
    ∧ (Sink.run [SinkEvent.byte 1, SinkEvent.act false, SinkEvent.byte 2, SinkEvent.act false,
          SinkEvent.act false, SinkEvent.byte 3, SinkEvent.act false, SinkEvent.act true,
          SinkEvent.act true]
        (Sink.init (ascii "a") (2 : Nat)) sampleWorld).1.chIndex = 3 := by
  exact ⟨by decide, by decide, by decide, by decide, by decide, by decide⟩

end TestTask
